import Mathlib

/-!
# Verification of `heapdict.py` (`HeapDict`, an indexed min-max-heap dictionary)

This file gives a shallow embedding of the `HeapDict` class from
`src/heapdict.py` and proves properties of it.

The Python class keeps three synchronized structures:
  * `self._priorities` : an insertion-ordered dict mapping key -> priority,
  * `self._heap`       : a dense list of keys arranged as an interleaved
                         min-max heap (even levels are min levels, odd levels
                         are max levels),
  * `self._indexes`    : a dict mapping key -> position in `self._heap`.

Keys are modelled as `Nat` (Python keys are opaque hashable values) and
priorities as `Int` (Python priorities are values of a total order).
Python dicts are modelled as association lists in insertion order: setting an
existing key overwrites its value in place, setting a fresh key appends, and
deleting removes the entry.  `ValueError` is modelled as `Except.error ()`.
-/

namespace HeapDictModel

/-- Python dict lookup `l[k]` (as an option), on an association list. -/
def dlookup {κ α : Type} [DecidableEq κ] (l : List (κ × α)) (k : κ) : Option α :=
  match l with
  | [] => none
  | (k', v) :: rest => if k' = k then some v else dlookup rest k

/-- Python dict assignment `l[k] = v`: overwrite in place if `k` is present
(keeping its insertion-order position), otherwise append at the end. -/
def dset {κ α : Type} [DecidableEq κ] (l : List (κ × α)) (k : κ) (v : α) : List (κ × α) :=
  match l with
  | [] => [(k, v)]
  | (k', v') :: rest => if k' = k then (k, v) :: rest else (k', v') :: dset rest k v

/-- Python dict deletion `del l[k]` / `l.pop(k)` (the entry for `k` is unique
in a dict, so filtering it out removes exactly that entry). -/
def ddel {κ α : Type} [DecidableEq κ] (l : List (κ × α)) (k : κ) : List (κ × α) :=
  l.filter (fun p => p.1 != k)

/-- The state of a `HeapDict` instance: fields `_priorities`, `_heap`,
`_indexes` of the Python class. -/
structure HeapDict where
  priorities : List (Nat × Int)
  heap : List Nat
  indexes : List (Nat × Nat)
deriving Repr, DecidableEq

/-- `self._priorities[k]` (with a dummy default, never used on reachable
states: every key looked up is present). -/
def priOf (d : HeapDict) (k : Nat) : Int := (dlookup d.priorities k).getD 0

/-- `self._priorities[self._heap[i]]` — the priority stored at heap slot `i`;
this is the sort key used by the selectors of `_get_selector`. -/
def hval (d : HeapDict) (i : Nat) : Int := priOf d (d.heap.getD i 0)

/-- `HeapDict._swap`:
`indexes[heap[i]], indexes[heap[j]] = j, i` then
`heap[i], heap[j] = heap[j], heap[i]`. -/
def swap (d : HeapDict) (i j : Nat) : HeapDict :=
  let ki := d.heap.getD i 0
  let kj := d.heap.getD j 0
  { d with
    indexes := dset (dset d.indexes ki j) kj i
    heap := (d.heap.set i kj).set j ki }

/-- Python `n.bit_length()`: the number of binary digits of `n`, computed by
halving until zero.  The first argument is a decreasing counter bounding the
number of halvings (initialised to `n`, which suffices since halving a
positive number at most `n` times reaches zero). -/
def bit_length_go : Nat → Nat → Nat
  | 0, _ => 0
  | fuel + 1, n => if n = 0 then 0 else bit_length_go fuel (n / 2) + 1

def bit_length (n : Nat) : Nat := bit_length_go n n

/-- `HeapDict._get_level`: `(i + 1).bit_length() - 1`. -/
def get_level (i : Nat) : Nat := bit_length (i + 1) - 1

theorem bit_length_go_zero : ∀ fuel, bit_length_go fuel 0 = 0 := by
  intro fuel
  cases fuel <;> rfl

theorem bit_length_go_eq : ∀ (fuel n : Nat), n ≤ fuel → 1 ≤ n →
    bit_length_go fuel n = Nat.log2 n + 1 := by
  intro fuel
  induction fuel with
  | zero => intro n h h1; omega
  | succ m ih =>
    intro n h h1
    rw [bit_length_go, if_neg (by omega)]
    by_cases h2 : 2 ≤ n
    · rw [ih (n / 2) (by omega) (by omega)]
      have hl : Nat.log2 n = Nat.log2 (n / 2) + 1 := by
        conv_lhs => rw [Nat.log2]
        rw [if_pos h2]
      omega
    · obtain rfl : n = 1 := by omega
      rw [bit_length_go_zero]
      have hl : Nat.log2 1 = 0 := by
        rw [Nat.log2]
        norm_num
      omega

/-- The Python level expression agrees with `Nat.log2 (i + 1)`. -/
theorem get_level_eq_log2 (i : Nat) : get_level i = Nat.log2 (i + 1) := by
  unfold get_level bit_length
  rw [bit_length_go_eq (i + 1) (i + 1) (Nat.le_refl _) (by omega)]
  omega

/-- `HeapDict._with_children`: yields `i` and then
`range(2*i+1, min(len(heap), 2*i+3))`. -/
def with_children (d : HeapDict) (i : Nat) : List Nat :=
  i :: List.range' (2 * i + 1) (min d.heap.length (2 * i + 3) - (2 * i + 1))

/-- `HeapDict._with_grandchildren`: yields `i` and then
`range(4*i+3, min(len(heap), 4*i+7))`. -/
def with_grandchildren (d : HeapDict) (i : Nat) : List Nat :=
  i :: List.range' (4 * i + 3) (min d.heap.length (4 * i + 7) - (4 * i + 3))

/-- Python's `min(xs, key=key)` (for `lt a b = (a < b)`) and
`max(xs, key=key)` (for `lt a b = (b < a)`): the first element whose key is
extremal; a later element replaces the current best only if its key is
strictly better. -/
def pySelect (lt : Int → Int → Bool) (key : Nat → Int) : List Nat → Nat
  | [] => 0
  | x :: xs => xs.foldl (fun best j => if lt (key j) (key best) then j else best) x

/-- `HeapDict._get_selector(level)`: `[min, max][level % 2]` with key
`lambda i: priorities[heap[i]]`, applied to a list of heap positions.  The
Python closure reads the *current* heap and priorities, so the current state
`d` is an argument here. -/
def select (d : HeapDict) (level : Nat) (l : List Nat) : Nat :=
  if level % 2 = 0 then pySelect (fun a b => a < b) (hval d) l
  else pySelect (fun a b => b < a) (hval d) l

theorem foldl_select_mem (lt : Int → Int → Bool) (key : Nat → Int) :
    ∀ (l : List Nat) (b : Nat),
      l.foldl (fun best j => if lt (key j) (key best) then j else best) b = b ∨
      l.foldl (fun best j => if lt (key j) (key best) then j else best) b ∈ l := by
  intro l
  induction l with
  | nil => intro b; exact Or.inl rfl
  | cons y ys ih =>
    intro b
    rw [List.foldl_cons]
    rcases ih (if lt (key y) (key b) then y else b) with h' | h'
    · rw [h']
      by_cases hc : lt (key y) (key b) <;> simp [hc]
    · exact Or.inr (List.mem_cons_of_mem y h')

/-- Heap positions are Python list indexes; `pySelect` returns a member of a
nonempty input list. -/
theorem pySelect_mem (lt : Int → Int → Bool) (key : Nat → Int) (x : Nat) (xs : List Nat) :
    pySelect lt key (x :: xs) ∈ x :: xs := by
  rcases foldl_select_mem lt key xs x with h' | h'
  · rw [pySelect, h']; exact List.mem_cons_self x xs
  · exact List.mem_cons_of_mem x h'

theorem select_mem (d : HeapDict) (level : Nat) (x : Nat) (xs : List Nat) :
    select d level (x :: xs) ∈ x :: xs := by
  unfold select
  by_cases h : level % 2 = 0 <;> simp only [h, if_true, if_false, reduceIte] <;>
    exact pySelect_mem _ _ _ _

theorem swap_heap_length (d : HeapDict) (i j : Nat) :
    (swap d i j).heap.length = d.heap.length := by
  simp [swap]

theorem mem_with_grandchildren {d : HeapDict} {i j : Nat}
    (h : j ∈ with_grandchildren d i) :
    j = i ∨ (4 * i + 3 ≤ j ∧ j ≤ 4 * i + 6 ∧ j < d.heap.length) := by
  rcases List.mem_cons.mp h with h' | h'
  · exact Or.inl h'
  · right
    have := List.mem_range'_1.mp h'
    omega

theorem push_down_dec (d d1 : HeapDict) (lev i : Nat)
    (hlen : d1.heap.length = d.heap.length)
    (hne : ¬ select d1 lev (with_grandchildren d1 i) = i) :
    (swap d1 i (select d1 lev (with_grandchildren d1 i))).heap.length
      - select d1 lev (with_grandchildren d1 i) < d.heap.length - i := by
  have hmem : select d1 lev (with_grandchildren d1 i) ∈ with_grandchildren d1 i :=
    select_mem d1 lev i _
  have hsb := mem_with_grandchildren hmem
  have hlen2 : (swap d1 i (select d1 lev (with_grandchildren d1 i))).heap.length
      = d1.heap.length := swap_heap_length d1 i _
  rcases hsb with h' | h'
  · exact absurd h' hne
  · omega

/-- The loop of `HeapDict._push_down`.  The selector (its level parity `lev`)
is fixed on entry; within one iteration the position `i` is first compared
with its children, then (after a possible child swap) with its grandchildren,
descending to the selected grandchild. -/
def push_down_iter (lev : Nat) (d : HeapDict) (i : Nat) : HeapDict :=
  let sbp := select d lev (with_children d i)
  let d1 := if sbp ≠ i then swap d i sbp else d
  let sbg := select d1 lev (with_grandchildren d1 i)
  if hg : sbg = i then d1
  else push_down_iter lev (swap d1 i sbg) sbg
termination_by d.heap.length - i
decreasing_by
  exact push_down_dec d _ lev i
    (by split
        · exact swap_heap_length _ _ _
        · rfl) hg

/-- `HeapDict._push_down(i)`: selector fixed from the level of the entry
position. -/
def push_down (d : HeapDict) (i : Nat) : HeapDict :=
  push_down_iter (get_level i) d i

/-- The `while grandparent >= 0` climb loop of
`HeapDict._push_up`.  `(i - 3) // 4 >= 0` in Python iff `3 ≤ i` for the
nonnegative `i` used here; the selector was fixed before the loop. -/
def push_up_iter (lev : Nat) (d : HeapDict) (i : Nat) : HeapDict :=
  if h3 : 3 ≤ i then
    let grandparent := (i - 3) / 4
    if select d lev [grandparent, i] = grandparent then d
    else push_up_iter lev (swap d i grandparent) grandparent
  else d
termination_by i
decreasing_by
  omega

/-- `HeapDict._push_up(i)`: if the parent exists and loses the selector
comparison `select(parent, i)`, swap up to the parent first; then climb the
grandparent chain with the selector of the (possibly new) level of `i`. -/
def push_up (d : HeapDict) (i : Nat) : HeapDict :=
  if i = 0 then d
  else
    let parent := (i - 1) / 2
    if select d (get_level parent) [parent, i] = i then
      push_up_iter (get_level parent) (swap d i parent) parent
    else
      push_up_iter (get_level i) d i

/-- `HeapDict._get_max_index`: the heap slot holding the maximal priority —
`select` (with the max selector of level 1) of slots 1 and 2 when the heap has
more than two entries, else the last slot. -/
def get_max_index (d : HeapDict) : Nat :=
  if 2 < d.heap.length then select d 1 [1, 2] else d.heap.length - 1

/-- The heapify loop of `HeapDict.__init__`:
`for i in reversed(range(len(self._heap) // 2)): push_down(i)`. -/
def heapify (d : HeapDict) : HeapDict :=
  (List.range (d.heap.length / 2)).reverse.foldl (fun acc i => push_down acc i) d

/-- `HeapDict.__init__` from an iterable of (key, priority) pairs:
`self._priorities = dict(iterable)`; `self._heap = list(self._priorities)`;
`self._indexes = {k: v for v, k in enumerate(self._priorities)}`; then the
heap invariant is restored bottom-up. -/
def fromPairs (pairs : List (Nat × Int)) : HeapDict :=
  let priorities := pairs.foldl (fun acc kv => dset acc kv.1 kv.2) []
  let heap := priorities.map Prod.fst
  let indexes := heap.enum.map (fun p => (p.2, p.1))
  heapify { priorities := priorities, heap := heap, indexes := indexes }

/-- `HeapDict.__setitem__(key, priority)`: store the priority, then repair the
heap.  For an existing key, sift its slot up then down; for a fresh key,
append it to the heap, record its index and sift up. -/
def setitem (d : HeapDict) (key : Nat) (priority : Int) : HeapDict :=
  let d0 : HeapDict := { d with priorities := dset d.priorities key priority }
  match dlookup d0.indexes key with
  | some i => push_down (push_up d0 i) i
  | none =>
    let heap := d0.heap ++ [key]
    let i := heap.length - 1
    let d1 : HeapDict := { d0 with heap := heap, indexes := dset d0.indexes key i }
    push_up d1 i

/-- `HeapDict.__delitem__(key)`: `none` models the `KeyError` raised when the
key is absent.  Otherwise remove the key from both dicts, pop the last heap
slot, and if the removed slot was not the last one, move the popped key into
it and sift both directions. -/
def delitem (d : HeapDict) (key : Nat) : Option HeapDict :=
  match dlookup d.indexes key with
  | none => none
  | some i =>
    let priorities := ddel d.priorities key
    let indexes := ddel d.indexes key
    let end_key := d.heap.getLast?.getD 0
    let heap := d.heap.dropLast
    if i < heap.length then
      let d2 : HeapDict := { priorities := priorities,
                             heap := heap.set i end_key,
                             indexes := dset indexes end_key i }
      some (push_down (push_up d2 i) i)
    else
      some { priorities := priorities, heap := heap, indexes := indexes }

/-- The `default_empty_behavior` decorator: when the collection is nonempty
the wrapped method runs and any supplied `default` is ignored; when it is
empty, a supplied `default` is returned unchanged (with no state change),
otherwise `ValueError` is raised. -/
def default_empty_behavior {β : Type} (func : HeapDict → β × HeapDict)
    (self : HeapDict) (default? : Option β) : Except Unit (β × HeapDict) :=
  if self.heap.length ≠ 0 then .ok (func self)
  else
    match default? with
    | none => .error ()
    | some v => .ok (v, self)

/-- `HeapDict.min_item`: the (key, priority) pair at heap slot 0. -/
def min_item (d : HeapDict) (default? : Option (Nat × Int)) :
    Except Unit ((Nat × Int) × HeapDict) :=
  default_empty_behavior
    (fun s =>
      let key := s.heap.getD 0 0
      ((key, priOf s key), s))
    d default?

/-- `HeapDict.pop_min_item`: read the pair at slot 0, then `del self[key]`.
On reachable states the key is present, so the `delitem` fallback `getD s`
is never taken. -/
def pop_min_item (d : HeapDict) (default? : Option (Nat × Int)) :
    Except Unit ((Nat × Int) × HeapDict) :=
  default_empty_behavior
    (fun s =>
      let key := s.heap.getD 0 0
      ((key, priOf s key), (delitem s key).getD s))
    d default?

/-- `HeapDict.max_item`: the (key, priority) pair at slot `_get_max_index()`. -/
def max_item (d : HeapDict) (default? : Option (Nat × Int)) :
    Except Unit ((Nat × Int) × HeapDict) :=
  default_empty_behavior
    (fun s =>
      let key := s.heap.getD (get_max_index s) 0
      ((key, priOf s key), s))
    d default?

/-- `HeapDict.pop_max_item`: read the pair at slot `_get_max_index()`, then
`del self[key]`. -/
def pop_max_item (d : HeapDict) (default? : Option (Nat × Int)) :
    Except Unit ((Nat × Int) × HeapDict) :=
  default_empty_behavior
    (fun s =>
      let key := s.heap.getD (get_max_index s) 0
      ((key, priOf s key), (delitem s key).getD s))
    d default?

/-- `HeapDict.popitem`: raises `ValueError` when empty, otherwise removes and
returns the **last-inserted** pair: `key = next(reversed(self._priorities))`,
then `priority = self.pop(key)` (`MutableMapping.pop` = lookup + delete). -/
def popitem (d : HeapDict) : Except Unit ((Nat × Int) × HeapDict) :=
  if d.heap.length = 0 then .error ()
  else
    let key := (d.priorities.map Prod.fst).getLast?.getD 0
    let priority := priOf d key
    .ok ((key, priority), (delitem d key).getD d)

/-- `HeapDict.clear`: empties all three views. -/
def clear (_d : HeapDict) : HeapDict :=
  { priorities := [], heap := [], indexes := [] }

/-- One public mutating operation, for stating invariant preservation over
arbitrary operation sequences.  A deletion of an absent key and a pop of an
empty dict raise in Python without mutating, so they leave the state
unchanged here. -/
inductive Op where
  | set (k : Nat) (p : Int)
  | del (k : Nat)
  | clr
  | popMin
  | popMax
  | popLast
deriving Repr, DecidableEq

def applyOp (d : HeapDict) : Op → HeapDict
  | .set k p => setitem d k p
  | .del k => (delitem d k).getD d
  | .clr => clear d
  | .popMin =>
    match pop_min_item d none with
    | .ok (_, d') => d'
    | .error _ => d
  | .popMax =>
    match pop_max_item d none with
    | .ok (_, d') => d'
    | .error _ => d
  | .popLast =>
    match popitem d with
    | .ok (_, d') => d'
    | .error _ => d

def applyOps (d : HeapDict) (ops : List Op) : HeapDict :=
  ops.foldl applyOp d

/-!
## Executable companions

`push_down_iter` and `push_up_iter` are defined by well-founded recursion
(mirroring the `while` loops of the source), which the kernel cannot evaluate
on concrete inputs.  The `*_run` definitions below are structurally recursive
on an explicit iteration bound and are proved equal to the originals, so
concrete instances can be settled by `decide`/`rfl`.
-/

def push_down_fuel (lev : Nat) : Nat → HeapDict → Nat → HeapDict
  | 0, d, _ => d
  | fuel + 1, d, i =>
    let sbp := select d lev (with_children d i)
    let d1 := if sbp ≠ i then swap d i sbp else d
    let sbg := select d1 lev (with_grandchildren d1 i)
    if sbg = i then d1
    else push_down_fuel lev fuel (swap d1 i sbg) sbg

def push_up_fuel (lev : Nat) : Nat → HeapDict → Nat → HeapDict
  | 0, d, _ => d
  | fuel + 1, d, i =>
    if 3 ≤ i then
      let grandparent := (i - 3) / 4
      if select d lev [grandparent, i] = grandparent then d
      else push_up_fuel lev fuel (swap d i grandparent) grandparent
    else d

theorem select_single (d : HeapDict) (lev i : Nat) : select d lev [i] = i := by
  unfold select pySelect
  split <;> rfl

theorem with_children_of_le {d : HeapDict} {i : Nat} (h : d.heap.length ≤ 2 * i + 1) :
    with_children d i = [i] := by
  unfold with_children
  rw [show min d.heap.length (2 * i + 3) - (2 * i + 1) = 0 by omega]
  rfl

theorem with_grandchildren_of_le {d : HeapDict} {i : Nat} (h : d.heap.length ≤ 4 * i + 3) :
    with_grandchildren d i = [i] := by
  unfold with_grandchildren
  rw [show min d.heap.length (4 * i + 7) - (4 * i + 3) = 0 by omega]
  rfl

theorem push_down_fuel_eq (lev : Nat) :
    ∀ (fuel : Nat) (d : HeapDict) (i : Nat), d.heap.length ≤ i + fuel →
      push_down_fuel lev fuel d i = push_down_iter lev d i := by
  intro fuel
  induction fuel with
  | zero =>
    intro d i h
    rw [push_down_iter, push_down_fuel]
    rw [with_children_of_le (by omega), select_single]
    simp only [ne_eq, not_true_eq_false, if_false, reduceIte]
    rw [with_grandchildren_of_le (by omega), select_single]
    simp
  | succ n ih =>
    intro d i h
    rw [push_down_iter, push_down_fuel]
    have hlen1 : (if select d lev (with_children d i) ≠ i
        then swap d i (select d lev (with_children d i)) else d).heap.length
        = d.heap.length := by
      split
      · exact swap_heap_length _ _ _
      · rfl
    set d1 := if select d lev (with_children d i) ≠ i
        then swap d i (select d lev (with_children d i)) else d with hd1
    set sbg := select d1 lev (with_grandchildren d1 i) with hsbg
    by_cases hc : sbg = i
    · simp only [hc, if_true, reduceIte, dif_pos]
    · simp only [hc, if_false, reduceIte, dif_neg, not_false_iff]
      apply ih
      have hmem : sbg ∈ with_grandchildren d1 i := hsbg ▸ select_mem d1 lev i _
      rcases mem_with_grandchildren hmem with h' | h'
      · exact absurd h' hc
      · rw [swap_heap_length]; omega

theorem push_up_fuel_eq (lev : Nat) :
    ∀ (fuel : Nat) (d : HeapDict) (i : Nat), i ≤ fuel →
      push_up_fuel lev fuel d i = push_up_iter lev d i := by
  intro fuel
  induction fuel with
  | zero =>
    intro d i h
    rw [push_up_iter, push_up_fuel]
    have h3 : ¬ 3 ≤ i := by omega
    simp [h3]
  | succ n ih =>
    intro d i h
    rw [push_up_iter, push_up_fuel]
    by_cases h3 : 3 ≤ i
    · simp only [h3, if_true, reduceIte, dif_pos]
      split
      · rfl
      · apply ih; omega
    · simp [h3]

/-- Structural-recursion evaluator for `push_down`, equal to it. -/
def push_down_run (d : HeapDict) (i : Nat) : HeapDict :=
  push_down_fuel (get_level i) d.heap.length d i

theorem push_down_run_eq (d : HeapDict) (i : Nat) :
    push_down_run d i = push_down d i :=
  push_down_fuel_eq _ _ _ _ (by omega)

/-- Structural-recursion evaluator for `push_up`, equal to it. -/
def push_up_run (d : HeapDict) (i : Nat) : HeapDict :=
  if i = 0 then d
  else
    let parent := (i - 1) / 2
    if select d (get_level parent) [parent, i] = i then
      push_up_fuel (get_level parent) parent (swap d i parent) parent
    else
      push_up_fuel (get_level i) i d i

theorem push_up_run_eq (d : HeapDict) (i : Nat) :
    push_up_run d i = push_up d i := by
  unfold push_up_run push_up
  split
  · rfl
  · dsimp only
    split
    · exact push_up_fuel_eq _ _ _ _ (by omega)
    · exact push_up_fuel_eq _ _ _ _ (by omega)

def heapify_run (d : HeapDict) : HeapDict :=
  (List.range (d.heap.length / 2)).reverse.foldl (fun acc i => push_down_run acc i) d

theorem heapify_run_eq (d : HeapDict) : heapify_run d = heapify d := by
  unfold heapify_run heapify
  congr 1
  funext acc i
  exact push_down_run_eq acc i

def fromPairs_run (pairs : List (Nat × Int)) : HeapDict :=
  let priorities := pairs.foldl (fun acc kv => dset acc kv.1 kv.2) []
  let heap := priorities.map Prod.fst
  let indexes := heap.enum.map (fun p => (p.2, p.1))
  heapify_run { priorities := priorities, heap := heap, indexes := indexes }

theorem fromPairs_run_eq (pairs : List (Nat × Int)) :
    fromPairs_run pairs = fromPairs pairs := heapify_run_eq _

def setitem_run (d : HeapDict) (key : Nat) (priority : Int) : HeapDict :=
  let d0 : HeapDict := { d with priorities := dset d.priorities key priority }
  match dlookup d0.indexes key with
  | some i => push_down_run (push_up_run d0 i) i
  | none =>
    let heap := d0.heap ++ [key]
    let i := heap.length - 1
    let d1 : HeapDict := { d0 with heap := heap, indexes := dset d0.indexes key i }
    push_up_run d1 i

theorem setitem_run_eq (d : HeapDict) (key : Nat) (priority : Int) :
    setitem_run d key priority = setitem d key priority := by
  unfold setitem_run setitem
  cases dlookup (dset d.priorities key priority) key <;>
    cases hl : dlookup d.indexes key <;>
      simp only [push_up_run_eq, push_down_run_eq]

def delitem_run (d : HeapDict) (key : Nat) : Option HeapDict :=
  match dlookup d.indexes key with
  | none => none
  | some i =>
    let priorities := ddel d.priorities key
    let indexes := ddel d.indexes key
    let end_key := d.heap.getLast?.getD 0
    let heap := d.heap.dropLast
    if i < heap.length then
      let d2 : HeapDict := { priorities := priorities,
                             heap := heap.set i end_key,
                             indexes := dset indexes end_key i }
      some (push_down_run (push_up_run d2 i) i)
    else
      some { priorities := priorities, heap := heap, indexes := indexes }

theorem delitem_run_eq (d : HeapDict) (key : Nat) :
    delitem_run d key = delitem d key := by
  unfold delitem_run delitem
  cases dlookup d.indexes key
  · rfl
  · simp only [push_up_run_eq, push_down_run_eq]

def pop_min_item_run (d : HeapDict) (default? : Option (Nat × Int)) :
    Except Unit ((Nat × Int) × HeapDict) :=
  default_empty_behavior
    (fun s =>
      let key := s.heap.getD 0 0
      ((key, priOf s key), (delitem_run s key).getD s))
    d default?

theorem pop_min_item_run_eq (d : HeapDict) (default? : Option (Nat × Int)) :
    pop_min_item_run d default? = pop_min_item d default? := by
  unfold pop_min_item_run pop_min_item
  simp only [delitem_run_eq]

def pop_max_item_run (d : HeapDict) (default? : Option (Nat × Int)) :
    Except Unit ((Nat × Int) × HeapDict) :=
  default_empty_behavior
    (fun s =>
      let key := s.heap.getD (get_max_index s) 0
      ((key, priOf s key), (delitem_run s key).getD s))
    d default?

theorem pop_max_item_run_eq (d : HeapDict) (default? : Option (Nat × Int)) :
    pop_max_item_run d default? = pop_max_item d default? := by
  unfold pop_max_item_run pop_max_item
  simp only [delitem_run_eq]

def popitem_run (d : HeapDict) : Except Unit ((Nat × Int) × HeapDict) :=
  if d.heap.length = 0 then .error ()
  else
    let key := (d.priorities.map Prod.fst).getLast?.getD 0
    let priority := priOf d key
    .ok ((key, priority), (delitem_run d key).getD d)

theorem popitem_run_eq (d : HeapDict) :
    popitem_run d = popitem d := by
  unfold popitem_run popitem
  simp only [delitem_run_eq]

def applyOp_run (d : HeapDict) : Op → HeapDict
  | .set k p => setitem_run d k p
  | .del k => (delitem_run d k).getD d
  | .clr => clear d
  | .popMin =>
    match pop_min_item_run d none with
    | .ok (_, d') => d'
    | .error _ => d
  | .popMax =>
    match pop_max_item_run d none with
    | .ok (_, d') => d'
    | .error _ => d
  | .popLast =>
    match popitem_run d with
    | .ok (_, d') => d'
    | .error _ => d

theorem applyOp_run_eq (d : HeapDict) (op : Op) :
    applyOp_run d op = applyOp d op := by
  cases op <;>
    simp only [applyOp_run, applyOp, setitem_run_eq, delitem_run_eq,
      pop_min_item_run_eq, pop_max_item_run_eq, popitem_run_eq]

def applyOps_run (d : HeapDict) (ops : List Op) : HeapDict :=
  ops.foldl applyOp_run d

theorem applyOps_run_eq (d : HeapDict) (ops : List Op) :
    applyOps_run d ops = applyOps d ops := by
  unfold applyOps_run applyOps
  congr 1
  funext acc op
  exact applyOp_run_eq acc op

/-! ## Association-list (Python dict) lemmas -/

theorem dlookup_dset_self {α : Type} (l : List (Nat × α)) (k : Nat) (v : α) :
    dlookup (dset l k v) k = some v := by
  induction l with
  | nil => simp [dset, dlookup]
  | cons p rest ih =>
    by_cases h : p.1 = k
    · simp [dset, h, dlookup]
    · simp [dset, h, dlookup, ih]

theorem dlookup_dset_ne {α : Type} (l : List (Nat × α)) (k k' : Nat) (v : α)
    (h : k' ≠ k) : dlookup (dset l k v) k' = dlookup l k' := by
  induction l with
  | nil => simp [dset, dlookup, Ne.symm h]
  | cons p rest ih =>
    rcases p with ⟨a, b⟩
    by_cases hp : a = k
    · subst hp
      simp [dset, dlookup, Ne.symm h]
    · by_cases hp' : a = k'
      · simp [dset, hp, dlookup, hp', h]
      · simp [dset, hp, dlookup, hp', ih]

theorem dlookup_isSome_iff_mem {α : Type} (l : List (Nat × α)) (k : Nat) :
    (∃ v, dlookup l k = some v) ↔ k ∈ l.map Prod.fst := by
  induction l with
  | nil => simp [dlookup]
  | cons p rest ih =>
    by_cases h : p.1 = k
    · simp [dlookup, h]
    · simp only [dlookup, h, if_false, reduceIte, List.map_cons, List.mem_cons, ih]
      constructor
      · intro hv; exact Or.inr hv
      · rintro (hv | hv)
        · exact absurd hv.symm h
        · exact hv

theorem dlookup_eq_none_iff {α : Type} (l : List (Nat × α)) (k : Nat) :
    dlookup l k = none ↔ k ∉ l.map Prod.fst := by
  rw [← dlookup_isSome_iff_mem]
  cases h : dlookup l k <;> simp [h]

theorem dset_map_fst_of_mem {α : Type} (l : List (Nat × α)) (k : Nat) (v : α)
    (h : k ∈ l.map Prod.fst) : (dset l k v).map Prod.fst = l.map Prod.fst := by
  induction l with
  | nil => simp at h
  | cons p rest ih =>
    by_cases hp : p.1 = k
    · simp [dset, hp]
    · simp only [List.map_cons, List.mem_cons] at h
      rcases h with h | h
      · exact absurd h.symm hp
      · simp [dset, hp, ih h]

theorem dset_map_fst_of_not_mem {α : Type} (l : List (Nat × α)) (k : Nat) (v : α)
    (h : k ∉ l.map Prod.fst) : (dset l k v).map Prod.fst = l.map Prod.fst ++ [k] := by
  induction l with
  | nil => simp [dset]
  | cons p rest ih =>
    simp only [List.map_cons, List.mem_cons] at h
    push_neg at h
    simp [dset, Ne.symm h.1, ih h.2]

theorem dset_nodup {α : Type} (l : List (Nat × α)) (k : Nat) (v : α)
    (h : (l.map Prod.fst).Nodup) : ((dset l k v).map Prod.fst).Nodup := by
  by_cases hm : k ∈ l.map Prod.fst
  · rw [dset_map_fst_of_mem l k v hm]; exact h
  · rw [dset_map_fst_of_not_mem l k v hm]
    simpa using List.Nodup.append h (List.nodup_singleton k)
      (by simpa using fun hk => hm hk)

theorem ddel_map_fst {α : Type} (l : List (Nat × α)) (k : Nat) :
    (ddel l k).map Prod.fst = (l.map Prod.fst).filter (fun k' => k' != k) := by
  unfold ddel
  induction l with
  | nil => rfl
  | cons p rest ih =>
    rcases p with ⟨a, b⟩
    by_cases hp : a = k
    · subst hp
      simpa [List.filter_cons] using ih
    · simpa [List.filter_cons, bne_iff_ne, hp] using ih

theorem dlookup_ddel_self {α : Type} (l : List (Nat × α)) (k : Nat) :
    dlookup (ddel l k) k = none := by
  rw [dlookup_eq_none_iff, ddel_map_fst]
  simp

theorem dlookup_ddel_ne {α : Type} (l : List (Nat × α)) (k k' : Nat) (h : k' ≠ k) :
    dlookup (ddel l k) k' = dlookup l k' := by
  unfold ddel
  induction l with
  | nil => rfl
  | cons p rest ih =>
    rcases p with ⟨a, b⟩
    by_cases hp : a = k
    · have hak : a ≠ k' := by rw [hp]; exact Ne.symm h
      have hr : dlookup ((a, b) :: rest) k' = dlookup rest k' := by
        simp [dlookup, hak]
      rw [hr, ← ih]
      simp [List.filter_cons, hp]
    · simp only [List.filter_cons, bne_iff_ne, ne_eq, hp, not_false_iff, if_true, reduceIte]
      by_cases hp' : a = k'
      · simp [dlookup, hp']
      · simp [dlookup, hp', ih]

theorem ddel_nodup {α : Type} (l : List (Nat × α)) (k : Nat)
    (h : (l.map Prod.fst).Nodup) : ((ddel l k).map Prod.fst).Nodup := by
  rw [ddel_map_fst]
  exact List.Nodup.filter _ h

/-! ## C6 and C9: the `default_empty_behavior` contract -/

/-- C6: on an empty `HeapDict`, each of `min_item`, `max_item`,
`pop_min_item`, `pop_max_item` raises `ValueError` when no `default` is
supplied, and returns exactly the supplied default (with the state untouched)
when one is. -/
theorem C6_empty_default_contract (d : HeapDict) (h : d.heap = []) :
    min_item d none = .error () ∧ max_item d none = .error () ∧
    pop_min_item d none = .error () ∧ pop_max_item d none = .error () ∧
    (∀ v : Nat × Int,
      min_item d (some v) = .ok (v, d) ∧ max_item d (some v) = .ok (v, d) ∧
      pop_min_item d (some v) = .ok (v, d) ∧ pop_max_item d (some v) = .ok (v, d)) := by
  have hlen : d.heap.length = 0 := by rw [h]; rfl
  refine ⟨?_, ?_, ?_, ?_, fun v => ⟨?_, ?_, ?_, ?_⟩⟩ <;>
    simp [min_item, max_item, pop_min_item, pop_max_item, default_empty_behavior, hlen]

theorem C6_empty_default_contract_witness :
    (⟨[], [], []⟩ : HeapDict).heap = [] ∧
    (min_item ⟨[], [], []⟩ none = .error () ∧ max_item ⟨[], [], []⟩ none = .error () ∧
     pop_min_item ⟨[], [], []⟩ none = .error () ∧ pop_max_item ⟨[], [], []⟩ none = .error () ∧
     (∀ v : Nat × Int,
       min_item ⟨[], [], []⟩ (some v) = .ok (v, ⟨[], [], []⟩) ∧
       max_item ⟨[], [], []⟩ (some v) = .ok (v, ⟨[], [], []⟩) ∧
       pop_min_item ⟨[], [], []⟩ (some v) = .ok (v, ⟨[], [], []⟩) ∧
       pop_max_item ⟨[], [], []⟩ (some v) = .ok (v, ⟨[], [], []⟩))) :=
  ⟨rfl, C6_empty_default_contract ⟨[], [], []⟩ rfl⟩

/-- C9: on a nonempty `HeapDict`, each of `min_item`, `max_item`,
`pop_min_item`, `pop_max_item` ignores a supplied `default`: result and final
state are identical with and without it. -/
theorem C9_default_ignored_when_nonempty (d : HeapDict) (h : d.heap.length ≠ 0)
    (v : Nat × Int) :
    min_item d (some v) = min_item d none ∧
    max_item d (some v) = max_item d none ∧
    pop_min_item d (some v) = pop_min_item d none ∧
    pop_max_item d (some v) = pop_max_item d none := by
  refine ⟨?_, ?_, ?_, ?_⟩ <;>
    simp [min_item, max_item, pop_min_item, pop_max_item, default_empty_behavior, h]

theorem C9_default_ignored_when_nonempty_witness :
    (⟨[(0, 1)], [0], [(0, 0)]⟩ : HeapDict).heap.length ≠ 0 ∧
    (min_item ⟨[(0, 1)], [0], [(0, 0)]⟩ (some (5, 5))
        = min_item ⟨[(0, 1)], [0], [(0, 0)]⟩ none ∧
     max_item ⟨[(0, 1)], [0], [(0, 0)]⟩ (some (5, 5))
        = max_item ⟨[(0, 1)], [0], [(0, 0)]⟩ none ∧
     pop_min_item ⟨[(0, 1)], [0], [(0, 0)]⟩ (some (5, 5))
        = pop_min_item ⟨[(0, 1)], [0], [(0, 0)]⟩ none ∧
     pop_max_item ⟨[(0, 1)], [0], [(0, 0)]⟩ (some (5, 5))
        = pop_max_item ⟨[(0, 1)], [0], [(0, 0)]⟩ none) :=
  ⟨by decide, C9_default_ignored_when_nonempty _ (by decide) (5, 5)⟩

/-! ## Heap-repair operations never touch `_priorities` -/

theorem swap_priorities (d : HeapDict) (i j : Nat) :
    (swap d i j).priorities = d.priorities := rfl

theorem push_down_fuel_priorities (lev : Nat) :
    ∀ (fuel : Nat) (d : HeapDict) (i : Nat),
      (push_down_fuel lev fuel d i).priorities = d.priorities := by
  intro fuel
  induction fuel with
  | zero => intro d i; rfl
  | succ n ih =>
    intro d i
    rw [push_down_fuel]
    split <;> split
    · rfl
    · rw [ih]; rfl
    · rfl
    · rw [ih]; rfl

theorem push_up_fuel_priorities (lev : Nat) :
    ∀ (fuel : Nat) (d : HeapDict) (i : Nat),
      (push_up_fuel lev fuel d i).priorities = d.priorities := by
  intro fuel
  induction fuel with
  | zero => intro d i; rfl
  | succ n ih =>
    intro d i
    rw [push_up_fuel]
    split
    · dsimp only
      split
      · rfl
      · rw [ih]; rfl
    · rfl

theorem push_down_priorities (d : HeapDict) (i : Nat) :
    (push_down d i).priorities = d.priorities := by
  rw [← push_down_run_eq]
  exact push_down_fuel_priorities _ _ _ _

theorem push_up_priorities (d : HeapDict) (i : Nat) :
    (push_up d i).priorities = d.priorities := by
  rw [← push_up_run_eq]
  unfold push_up_run
  split
  · rfl
  · dsimp only
    split
    · rw [push_up_fuel_priorities]; rfl
    · rw [push_up_fuel_priorities]

theorem heapify_priorities (d : HeapDict) :
    (heapify d).priorities = d.priorities := by
  unfold heapify
  generalize (List.range (d.heap.length / 2)).reverse = l
  induction l generalizing d with
  | nil => rfl
  | cons x xs ih =>
    rw [List.foldl_cons, ih, push_down_priorities]

theorem fromPairs_priorities (pairs : List (Nat × Int)) :
    (fromPairs pairs).priorities
      = pairs.foldl (fun acc kv => dset acc kv.1 kv.2) [] := by
  unfold fromPairs
  rw [heapify_priorities]

/-! ## C7: construction semantics for duplicate keys -/

theorem foldl_dset_lookup {pairs : List (Nat × Int)} :
    ∀ (acc : List (Nat × Int)) (k : Nat),
      dlookup (pairs.foldl (fun a kv => dset a kv.1 kv.2) acc) k
        = match (pairs.filterMap (fun p => if p.1 = k then some p.2 else none)).getLast? with
          | some v => some v
          | none => dlookup acc k := by
  induction pairs using List.reverseRecOn with
  | nil => intro acc k; rfl
  | append_singleton rest p ih =>
    intro acc k
    rw [List.foldl_append, List.foldl_cons, List.foldl_nil, List.filterMap_append]
    by_cases hp : p.1 = k
    · simp only [List.filterMap_cons, List.filterMap_nil, hp, if_true, reduceIte,
        List.getLast?_concat]
      rw [← hp, dlookup_dset_self]
    · simp only [List.filterMap_cons, List.filterMap_nil, hp, if_false, reduceIte,
        List.append_nil]
      rw [dlookup_dset_ne _ _ _ _ (fun h => hp h.symm), ih]

theorem foldl_dset_keys {pairs : List (Nat × Int)} :
    ∀ (acc : List (Nat × Int)),
      (pairs.foldl (fun a kv => dset a kv.1 kv.2) acc).map Prod.fst
        = (pairs.map Prod.fst).foldl
            (fun ks k => if k ∈ ks then ks else ks ++ [k]) (acc.map Prod.fst) := by
  induction pairs with
  | nil => intro acc; rfl
  | cons p rest ih =>
    intro acc
    rw [List.map_cons, List.foldl_cons, List.foldl_cons, ih]
    by_cases hp : p.1 ∈ acc.map Prod.fst
    · rw [dset_map_fst_of_mem _ _ _ hp, if_pos hp]
    · rw [dset_map_fst_of_not_mem _ _ _ hp, if_neg hp]

/-- C7: constructing a `HeapDict` from a pair sequence with repeated keys
keeps, for each key, the priority of its **last** occurrence, while the key's
position in iteration order (the order of `_priorities`, which `__iter__`
iterates) is that of its **first** occurrence: the key list equals the input
key list deduplicated keeping first occurrences. -/
theorem C7_duplicate_key_construction (pairs : List (Nat × Int)) :
    (∀ k, dlookup (fromPairs pairs).priorities k
        = (pairs.filterMap (fun p => if p.1 = k then some p.2 else none)).getLast?) ∧
    (fromPairs pairs).priorities.map Prod.fst
      = (pairs.map Prod.fst).foldl (fun ks k => if k ∈ ks then ks else ks ++ [k]) [] := by
  constructor
  · intro k
    rw [fromPairs_priorities, foldl_dset_lookup]
    cases h : (pairs.filterMap (fun p => if p.1 = k then some p.2 else none)).getLast? <;>
      simp [h, dlookup]
  · rw [fromPairs_priorities, foldl_dset_keys]
    rfl

/-! ## C1: `popitem` pops the most recently inserted pair, not an extremal one -/

instance instDecEqExcept {ε α : Type} [DecidableEq ε] [DecidableEq α] :
    DecidableEq (Except ε α) := fun a b =>
  match a, b with
  | .ok x, .ok y =>
    if h : x = y then isTrue (by rw [h]) else isFalse (by intro hc; cases hc; exact h rfl)
  | .error x, .error y =>
    if h : x = y then isTrue (by rw [h]) else isFalse (by intro hc; cases hc; exact h rfl)
  | .ok _, .error _ => isFalse (by intro hc; cases hc)
  | .error _, .ok _ => isFalse (by intro hc; cases hc)

/-- Counterexample to C1: on `HeapDict([(0, 1), (1, 3), (2, 2)])` the method
`popitem` returns the pair `(2, 2)` — the last-inserted key with a priority
strictly between the minimum and the maximum — although `min_item` is `(0, 1)`
and `max_item` is `(1, 3)`.  So `popitem` does not return an extremal entry. -/
theorem C1_counterexample :
    popitem (fromPairs [(0, 1), (1, 3), (2, 2)])
        = .ok ((2, 2), fromPairs [(0, 1), (1, 3)]) ∧
    min_item (fromPairs [(0, 1), (1, 3), (2, 2)]) none
        = .ok ((0, 1), fromPairs [(0, 1), (1, 3), (2, 2)]) ∧
    max_item (fromPairs [(0, 1), (1, 3), (2, 2)]) none
        = .ok ((1, 3), fromPairs [(0, 1), (1, 3), (2, 2)]) ∧
    ((2 : Nat), (2 : Int)) ≠ ((0 : Nat), (1 : Int)) ∧
    ((2 : Nat), (2 : Int)) ≠ ((1 : Nat), (3 : Int)) := by
  refine ⟨?_, ?_, ?_, by decide, by decide⟩ <;>
    simp only [← popitem_run_eq, ← fromPairs_run_eq] <;> decide

/-!
## Exception-level model of `__setitem__` (for C8 and C10)

The `Nat`/`Int` model above cannot express unhashable keys or priorities of
incomparable types, so the exception behaviour of `__setitem__` is embedded
separately, over:
  * `PyKey` — a key that is either hashable or unhashable (`hash(key)` raises
    `TypeError` for the latter, which is what every Python dict operation on
    the key does first, mutating nothing),
  * `PyVal` — a priority that is an int or a str (comparing an int with a str
    raises `TypeError`).
An operation returns `PyResult`: either `done s` (normal return) or
`raised s`, where `s` is the (possibly partially mutated, since Python
attribute mutations are in place) state at the moment the exception
propagates.
-/

inductive PyKey where
  | hashable (n : Nat)
  | unhashable (n : Nat)
deriving Repr, DecidableEq

def keyHashable : PyKey → Bool
  | .hashable _ => true
  | .unhashable _ => false

inductive PyVal where
  | int (n : Int)
  | str (n : Nat)
deriving Repr, DecidableEq

/-- Python `a < b` on priorities: defined within ints and within strs (the str
payload is abstracted to a code), `TypeError` (`none`) across types. -/
def pyLt : PyVal → PyVal → Option Bool
  | .int a, .int b => some (decide (a < b))
  | .str a, .str b => some (decide (a < b))
  | _, _ => none

/-- Python `a > b` on priorities. -/
def pyGt : PyVal → PyVal → Option Bool
  | .int a, .int b => some (decide (b < a))
  | .str a, .str b => some (decide (b < a))
  | _, _ => none

structure HeapDictE where
  priorities : List (PyKey × PyVal)
  heap : List PyKey
  indexes : List (PyKey × Nat)
deriving Repr, DecidableEq

inductive PyResult (σ : Type) where
  | done (s : σ)
  | raised (s : σ)
deriving Repr, DecidableEq

def priOfE (d : HeapDictE) (k : PyKey) : PyVal := (dlookup d.priorities k).getD (.int 0)

def hvalE (d : HeapDictE) (i : Nat) : PyVal := priOfE d (d.heap.getD i (.hashable 0))

def swapE (d : HeapDictE) (i j : Nat) : HeapDictE :=
  let ki := d.heap.getD i (.hashable 0)
  let kj := d.heap.getD j (.hashable 0)
  { d with
    indexes := dset (dset d.indexes ki j) kj i
    heap := (d.heap.set i kj).set j ki }

def with_childrenE (d : HeapDictE) (i : Nat) : List Nat :=
  i :: List.range' (2 * i + 1) (min d.heap.length (2 * i + 3) - (2 * i + 1))

def with_grandchildrenE (d : HeapDictE) (i : Nat) : List Nat :=
  i :: List.range' (4 * i + 3) (min d.heap.length (4 * i + 7) - (4 * i + 3))

/-- The fold inside Python `min`/`max` with a fallible comparison: it raises
(`none`) at the first incomparable pair it reaches. -/
def pySelectE_go (ltE : PyVal → PyVal → Option Bool) (key : Nat → PyVal) :
    Nat → List Nat → Option Nat
  | best, [] => some best
  | best, j :: rest =>
    match ltE (key j) (key best) with
    | none => none
    | some c => pySelectE_go ltE key (if c then j else best) rest

/-- Python `min`/`max` with a fallible comparison. -/
def pySelectE (ltE : PyVal → PyVal → Option Bool) (key : Nat → PyVal) :
    List Nat → Option Nat
  | [] => none
  | x :: xs => pySelectE_go ltE key x xs

def selectE (d : HeapDictE) (level : Nat) (l : List Nat) : Option Nat :=
  if level % 2 = 0 then pySelectE pyLt (hvalE d) l
  else pySelectE pyGt (hvalE d) l

theorem pySelectE_go_mem (ltE : PyVal → PyVal → Option Bool) (key : Nat → PyVal) :
    ∀ (xs : List Nat) (b r : Nat),
      pySelectE_go ltE key b xs = some r → r = b ∨ r ∈ xs := by
  intro xs
  induction xs with
  | nil =>
    intro b r h
    exact Or.inl (Option.some_injective _ h).symm
  | cons y ys ih =>
    intro b r h
    rw [pySelectE_go] at h
    rcases hc : ltE (key y) (key b) with _ | c
    · rw [hc] at h; cases h
    · rw [hc] at h
      rcases ih _ r h with h' | h'
      · by_cases hcc : c = true
        · subst hcc; rw [if_pos rfl] at h'; right; rw [h']; exact List.mem_cons_self y ys
        · rw [Bool.not_eq_true] at hcc; subst hcc
          rw [if_neg (by simp)] at h'
          exact Or.inl h'
      · exact Or.inr (List.mem_cons_of_mem y h')

theorem selectE_mem {d : HeapDictE} {level : Nat} {x r : Nat} {xs : List Nat}
    (h : selectE d level (x :: xs) = some r) : r ∈ x :: xs := by
  unfold selectE pySelectE at h
  by_cases hp : level % 2 = 0
  · rw [if_pos hp] at h
    rcases pySelectE_go_mem pyLt (hvalE d) xs x r h with h' | h'
    · rw [h']; exact List.mem_cons_self x xs
    · exact List.mem_cons_of_mem x h'
  · rw [if_neg hp] at h
    rcases pySelectE_go_mem pyGt (hvalE d) xs x r h with h' | h'
    · rw [h']; exact List.mem_cons_self x xs
    · exact List.mem_cons_of_mem x h'

theorem swapE_heap_length (d : HeapDictE) (i j : Nat) :
    (swapE d i j).heap.length = d.heap.length := by
  simp [swapE]

theorem mem_with_grandchildrenE {d : HeapDictE} {i j : Nat}
    (h : j ∈ with_grandchildrenE d i) :
    j = i ∨ (4 * i + 3 ≤ j ∧ j < d.heap.length) := by
  rcases List.mem_cons.mp h with h' | h'
  · exact Or.inl h'
  · right
    have := List.mem_range'_1.mp h'
    omega

theorem push_downE_dec {d d1 : HeapDictE} {lev i sbg : Nat}
    (hlen : d1.heap.length = d.heap.length)
    (hs : selectE d1 lev (with_grandchildrenE d1 i) = some sbg)
    (hne : ¬ sbg = i) :
    (swapE d1 i sbg).heap.length - sbg < d.heap.length - i := by
  have hmem : sbg ∈ with_grandchildrenE d1 i := by
    have := @selectE_mem d1 lev i sbg
      (List.range' (4 * i + 3) (min d1.heap.length (4 * i + 7) - (4 * i + 3))) hs
    exact this
  rcases mem_with_grandchildrenE hmem with h' | h'
  · exact absurd h' hne
  · rw [swapE_heap_length]; omega

/-- `_push_down` over the exception-level model: a `TypeError` in a selector
comparison propagates with the state mutated so far. -/
def push_down_iterE (lev : Nat) (d : HeapDictE) (i : Nat) : PyResult HeapDictE :=
  match selectE d lev (with_childrenE d i) with
  | none => .raised d
  | some sbp =>
    let d1 := if sbp ≠ i then swapE d i sbp else d
    match hs : selectE d1 lev (with_grandchildrenE d1 i) with
    | none => .raised d1
    | some sbg =>
      if hg : sbg = i then .done d1
      else push_down_iterE lev (swapE d1 i sbg) sbg
termination_by d.heap.length - i
decreasing_by
  exact push_downE_dec
    (by split
        · exact swapE_heap_length _ _ _
        · rfl) hs hg

def push_downE (d : HeapDictE) (i : Nat) : PyResult HeapDictE :=
  push_down_iterE (get_level i) d i

/-- The grandparent loop of `_push_up` over the exception-level model. -/
def push_up_iterE (lev : Nat) (d : HeapDictE) (i : Nat) : PyResult HeapDictE :=
  if h3 : 3 ≤ i then
    let grandparent := (i - 3) / 4
    match selectE d lev [grandparent, i] with
    | none => .raised d
    | some s =>
      if s = grandparent then .done d
      else push_up_iterE lev (swapE d i grandparent) grandparent
  else .done d
termination_by i
decreasing_by
  omega

/-- `_push_up` over the exception-level model. -/
def push_upE (d : HeapDictE) (i : Nat) : PyResult HeapDictE :=
  if i = 0 then .done d
  else
    let parent := (i - 1) / 2
    match selectE d (get_level parent) [parent, i] with
    | none => .raised d
    | some s =>
      if s = i then
        push_up_iterE (get_level parent) (swapE d i parent) parent
      else
        push_up_iterE (get_level i) d i

/-- `__setitem__` over the exception-level model.  The first statement,
`self._priorities[key] = priority`, hashes the key and raises `TypeError` on
an unhashable key before mutating anything; after that assignment succeeds,
comparisons during the heap repair can still raise, leaving the partially
updated state behind. -/
def setitemE (d : HeapDictE) (key : PyKey) (priority : PyVal) : PyResult HeapDictE :=
  if keyHashable key = false then .raised d
  else
    let d0 : HeapDictE := { d with priorities := dset d.priorities key priority }
    match dlookup d0.indexes key with
    | some i =>
      match push_upE d0 i with
      | .raised s => .raised s
      | .done s1 => push_downE s1 i
    | none =>
      let heap := d0.heap ++ [key]
      let i := heap.length - 1
      let d1 : HeapDictE := { d0 with heap := heap, indexes := dset d0.indexes key i }
      push_upE d1 i

/-- C8: calling `__setitem__` with an unhashable key raises and leaves the
structure exactly as it was: the raised state is the original `d`, with
`_priorities`, `_heap` and `_indexes` untouched, because the failing
statement `self._priorities[key] = priority` is the first one executed and a
Python dict assignment with an unhashable key mutates nothing. -/
theorem C8_unhashable_key_atomic (d : HeapDictE) (key : PyKey) (priority : PyVal)
    (h : keyHashable key = false) :
    setitemE d key priority = .raised d ∧
    ∀ s, setitemE d key priority = .raised s →
      s.priorities = d.priorities ∧ s.heap = d.heap ∧ s.indexes = d.indexes := by
  constructor
  · unfold setitemE
    rw [if_pos h]
  · intro s hs
    unfold setitemE at hs
    rw [if_pos h] at hs
    obtain rfl : d = s := by
      cases hs
      rfl
    exact ⟨rfl, rfl, rfl⟩

theorem C8_unhashable_key_atomic_witness :
    keyHashable (.unhashable 0) = false ∧
    (setitemE ⟨[(.hashable 0, .int 1)], [.hashable 0], [(.hashable 0, 0)]⟩
        (.unhashable 0) (.int 5)
      = .raised ⟨[(.hashable 0, .int 1)], [.hashable 0], [(.hashable 0, 0)]⟩ ∧
     ∀ s, setitemE ⟨[(.hashable 0, .int 1)], [.hashable 0], [(.hashable 0, 0)]⟩
        (.unhashable 0) (.int 5) = .raised s →
       s.priorities = [(.hashable 0, .int 1)] ∧ s.heap = [.hashable 0] ∧
       s.indexes = [(.hashable 0, 0)]) :=
  ⟨rfl, C8_unhashable_key_atomic ⟨[(.hashable 0, .int 1)], [.hashable 0], [(.hashable 0, 0)]⟩
    (.unhashable 0) (.int 5) rfl⟩

/-- C10: inserting a *new hashable* key whose priority is incomparable with an
existing priority raises during the sift-up comparison, **after** the key was
already added to `_priorities`, `_heap` and `_indexes`: the failed call leaves
the structure modified, so the all-or-nothing guarantee stops at key-hashing
failures.  Concretely: starting from `{k0: 1}` (an int priority), inserting
`k1` with a str priority raises, and afterwards `k1` is present in all three
views. -/
theorem C10_incomparable_priority_not_atomic :
    setitemE ⟨[(.hashable 0, .int 1)], [.hashable 0], [(.hashable 0, 0)]⟩
        (.hashable 1) (.str 0)
      = .raised ⟨[(.hashable 0, .int 1), (.hashable 1, .str 0)],
                 [.hashable 0, .hashable 1],
                 [(.hashable 0, 0), (.hashable 1, 1)]⟩ ∧
    dlookup ([(.hashable 0, .int 1), (.hashable 1, .str 0)] : List (PyKey × PyVal))
        (.hashable 1) = some (.str 0) ∧
    (PyKey.hashable 1) ∈ ([.hashable 0, .hashable 1] : List PyKey) ∧
    dlookup ([(.hashable 0, 0), (.hashable 1, 1)] : List (PyKey × Nat))
        (.hashable 1) = some 1 := by
  refine ⟨?_, by decide, by decide, by decide⟩
  decide

/-!
## Min-max heap order: ancestors, levels, and the global heap relation

Heap slot `(j - 1) / 2` is the parent of slot `j` (for `j ≥ 1`), matching
`_get_parent`; `SAnc a j` says `a` is a strict ancestor of `j`.
-/

inductive SAnc : Nat → Nat → Prop where
  | parent (j : Nat) : 1 ≤ j → SAnc ((j - 1) / 2) j
  | step (a j : Nat) : 1 ≤ j → SAnc a ((j - 1) / 2) → SAnc a j

theorem SAnc.pos {a j : Nat} (h : SAnc a j) : 1 ≤ j := by
  cases h <;> assumption

theorem SAnc.lt {a j : Nat} (h : SAnc a j) : a < j := by
  induction h with
  | parent j hj => omega
  | step a j hj _ ih => omega

theorem SAnc.comp {a b c : Nat} (h1 : SAnc a b) (h2 : SAnc b c) : SAnc a c := by
  induction h2 with
  | parent j hj => exact SAnc.step _ _ hj h1
  | step b j hj _ ih => exact SAnc.step _ _ hj (ih h1)

theorem SAnc.zero {j : Nat} (h : 1 ≤ j) : SAnc 0 j := by
  induction j using Nat.strong_induction_on with
  | _ j ih =>
    by_cases hp : (j - 1) / 2 = 0
    · have hpar := SAnc.parent j h
      rwa [hp] at hpar
    · exact SAnc.step _ _ h (ih ((j - 1) / 2) (by omega) (by omega))

theorem SAnc.cases_decomp {a j : Nat} (h : SAnc a j) :
    a = (j - 1) / 2 ∨ (1 ≤ (j - 1) / 2 ∧ SAnc a ((j - 1) / 2)) := by
  cases h with
  | parent _ _ => exact Or.inl rfl
  | step _ _ hj h' => exact Or.inr ⟨h'.pos, h'⟩

theorem SAnc.lower {a j : Nat} (h : SAnc a j) : 2 * a + 1 ≤ j := by
  induction h with
  | parent j hj => omega
  | step a j hj _ ih => omega

theorem SAnc.compare : ∀ {j a b : Nat}, SAnc a j → SAnc b j →
    a = b ∨ SAnc a b ∨ SAnc b a := by
  intro j
  induction j using Nat.strong_induction_on with
  | _ j ih =>
    intro a b ha hb
    rcases ha.cases_decomp with h1 | ⟨hp1, h1⟩ <;> rcases hb.cases_decomp with h2 | ⟨hp2, h2⟩
    · left; rw [h1, h2]
    · right; right; rw [h1]; exact h2
    · right; left; rw [h2]; exact h1
    · exact ih ((j - 1) / 2) (by have := ha.pos; omega) h1 h2

/-- `j` is in the subtree rooted at `i`. -/
def InSub (i j : Nat) : Prop := i = j ∨ SAnc i j

theorem InSub.self (i : Nat) : InSub i i := Or.inl rfl

theorem InSub.le {i j : Nat} (h : InSub i j) : i ≤ j := by
  rcases h with rfl | h
  · exact Nat.le_refl _
  · exact Nat.le_of_lt h.lt

theorem InSub.of_sanc_of_not_insub {i a x : Nat} (hx : InSub i x) (ha : SAnc a x)
    (hni : ¬ InSub i a) : SAnc a i := by
  rcases hx with rfl | hx
  · exact ha
  · rcases SAnc.compare ha hx with h | h | h
    · exact absurd (Or.inl h.symm) hni
    · exact h
    · exact absurd (Or.inr h) hni

/-! ### Level arithmetic -/

theorem get_level_zero : get_level 0 = 0 := rfl

theorem get_level_parent {j : Nat} (hj : 1 ≤ j) :
    get_level ((j - 1) / 2) + 1 = get_level j := by
  rw [get_level_eq_log2, get_level_eq_log2]
  rw [show (j - 1) / 2 + 1 = (j + 1) / 2 by omega]
  conv_rhs => rw [Nat.log2]
  rw [if_pos (by omega : j + 1 ≥ 2)]

theorem get_level_grandparent {j : Nat} (hj : 3 ≤ j) :
    get_level ((j - 3) / 4) + 2 = get_level j := by
  have h1 : (j - 3) / 4 = ((j - 1) / 2 - 1) / 2 := by omega
  have h2 := get_level_parent (j := (j - 1) / 2) (by omega)
  have h3 := get_level_parent (j := j) (by omega)
  rw [h1]
  omega

theorem SAnc.gp {j : Nat} (hj : 3 ≤ j) : SAnc ((j - 3) / 4) j := by
  have h1 : (j - 3) / 4 = ((j - 1) / 2 - 1) / 2 := by omega
  rw [h1]
  exact SAnc.step _ _ (by omega) (SAnc.parent ((j - 1) / 2) (by omega))

theorem parity_parent {j : Nat} (hj : 1 ≤ j) :
    get_level ((j - 1) / 2) % 2 ≠ get_level j % 2 := by
  have := get_level_parent hj
  omega

theorem parity_gp {j : Nat} (hj : 3 ≤ j) :
    get_level ((j - 3) / 4) % 2 = get_level j % 2 := by
  have := get_level_grandparent hj
  omega

/-- A same-parity strict ancestor is the grandparent or above it. -/
theorem SAnc.same_parity_decomp {a j : Nat} (h : SAnc a j)
    (hpar : get_level a % 2 = get_level j % 2) :
    3 ≤ j ∧ (a = (j - 3) / 4 ∨ SAnc a ((j - 3) / 4)) := by
  rcases h.cases_decomp with h1 | ⟨hp1, h1⟩
  · exfalso
    exact parity_parent h.pos (h1 ▸ hpar)
  · have hj3 : 3 ≤ j := by
      have := h1.pos
      omega
    have hgp : (j - 3) / 4 = ((j - 1) / 2 - 1) / 2 := by omega
    rcases h1.cases_decomp with h2 | ⟨hp2, h2⟩
    · exact ⟨hj3, Or.inl (by rw [hgp]; exact h2)⟩
    · exact ⟨hj3, Or.inr (by rw [hgp]; exact h2)⟩

/-! ### The global min-max heap relation -/

/-- The ordering constraint between a strict ancestor `a` and a descendant
`x`: positions on even (min) levels are lower bounds for their subtrees,
positions on odd (max) levels are upper bounds. -/
def rel (d : HeapDict) (a x : Nat) : Prop :=
  if get_level a % 2 = 0 then hval d a ≤ hval d x else hval d x ≤ hval d a

/-- The min-max heap invariant (I3' of the specification), in global form:
every strict-ancestor pair inside the populated part of the heap array is
ordered according to the ancestor's level parity. -/
def Valid (d : HeapDict) : Prop :=
  ∀ a x, SAnc a x → x < d.heap.length → rel d a x

theorem rel_congr {d d' : HeapDict} {a x : Nat}
    (ha : hval d' a = hval d a) (hx : hval d' x = hval d x) :
    rel d a x → rel d' a x := by
  unfold rel
  split <;> rw [ha, hx] <;> exact id

/-! ### Selector semantics (totally ordered priorities) -/

theorem foldl_min_spec (key : Nat → Int) :
    ∀ (l : List Nat) (b : Nat),
      (key (l.foldl (fun best j => if key j < key best then j else best) b) ≤ key b) ∧
      (∀ y ∈ l, key (l.foldl (fun best j => if key j < key best then j else best) b) ≤ key y) ∧
      (l.foldl (fun best j => if key j < key best then j else best) b = b ∨
        key (l.foldl (fun best j => if key j < key best then j else best) b) < key b) := by
  intro l
  induction l with
  | nil =>
    intro b
    exact ⟨le_refl _, by simp, Or.inl rfl⟩
  | cons y ys ih =>
    intro b
    rw [List.foldl_cons]
    by_cases h : key y < key b
    · rw [if_pos h]
      obtain ⟨h1, h2, h3⟩ := ih y
      refine ⟨le_trans h1 (le_of_lt h), ?_, ?_⟩
      · intro z hz
        rcases List.mem_cons.mp hz with rfl | hz'
        · exact h1
        · exact h2 z hz'
      · right
        rcases h3 with h3 | h3
        · rw [h3]; exact h
        · exact lt_trans h3 h
    · rw [if_neg h]
      obtain ⟨h1, h2, h3⟩ := ih b
      have hby : key b ≤ key y := not_lt.mp h
      refine ⟨h1, ?_, h3⟩
      intro z hz
      rcases List.mem_cons.mp hz with rfl | hz'
      · exact le_trans h1 hby
      · exact h2 z hz'

theorem foldl_max_spec (key : Nat → Int) :
    ∀ (l : List Nat) (b : Nat),
      (key b ≤ key (l.foldl (fun best j => if key best < key j then j else best) b)) ∧
      (∀ y ∈ l, key y ≤ key (l.foldl (fun best j => if key best < key j then j else best) b)) ∧
      (l.foldl (fun best j => if key best < key j then j else best) b = b ∨
        key b < key (l.foldl (fun best j => if key best < key j then j else best) b)) := by
  intro l
  induction l with
  | nil =>
    intro b
    exact ⟨le_refl _, by simp, Or.inl rfl⟩
  | cons y ys ih =>
    intro b
    rw [List.foldl_cons]
    by_cases h : key b < key y
    · rw [if_pos h]
      obtain ⟨h1, h2, h3⟩ := ih y
      refine ⟨le_trans (le_of_lt h) h1, ?_, ?_⟩
      · intro z hz
        rcases List.mem_cons.mp hz with rfl | hz'
        · exact h1
        · exact h2 z hz'
      · right
        rcases h3 with h3 | h3
        · rw [h3]; exact h
        · exact lt_trans h h3
    · rw [if_neg h]
      obtain ⟨h1, h2, h3⟩ := ih b
      have hby : key y ≤ key b := not_lt.mp h
      refine ⟨h1, ?_, h3⟩
      intro z hz
      rcases List.mem_cons.mp hz with rfl | hz'
      · exact le_trans hby h1
      · exact h2 z hz'

/-- On an even (min) level the selector result is a lower bound for the whole
candidate list. -/
theorem select_min_le {d : HeapDict} {lev : Nat} (hl : lev % 2 = 0) (x : Nat)
    (xs : List Nat) : ∀ y ∈ x :: xs, hval d (select d lev (x :: xs)) ≤ hval d y := by
  intro y hy
  unfold select pySelect
  rw [if_pos hl]
  simp only [decide_eq_true_eq]
  rcases List.mem_cons.mp hy with rfl | hy'
  · exact (foldl_min_spec (hval d) xs y).1
  · exact (foldl_min_spec (hval d) xs x).2.1 y hy'

theorem select_min_strict {d : HeapDict} {lev : Nat} (hl : lev % 2 = 0) (x : Nat)
    (xs : List Nat) (hne : select d lev (x :: xs) ≠ x) :
    hval d (select d lev (x :: xs)) < hval d x := by
  have hsel : select d lev (x :: xs)
      = xs.foldl (fun best j => if hval d j < hval d best then j else best) x := by
    unfold select pySelect
    rw [if_pos hl]
    simp only [decide_eq_true_eq]
  rcases (foldl_min_spec (hval d) xs x).2.2 with h | h
  · rw [hsel] at hne; exact absurd h hne
  · rw [hsel]; exact h

theorem select_max_ge {d : HeapDict} {lev : Nat} (hl : lev % 2 = 1) (x : Nat)
    (xs : List Nat) : ∀ y ∈ x :: xs, hval d y ≤ hval d (select d lev (x :: xs)) := by
  intro y hy
  unfold select pySelect
  rw [if_neg (by omega)]
  simp only [decide_eq_true_eq]
  rcases List.mem_cons.mp hy with rfl | hy'
  · exact (foldl_max_spec (hval d) xs y).1
  · exact (foldl_max_spec (hval d) xs x).2.1 y hy'

theorem select_max_strict {d : HeapDict} {lev : Nat} (hl : lev % 2 = 1) (x : Nat)
    (xs : List Nat) (hne : select d lev (x :: xs) ≠ x) :
    hval d x < hval d (select d lev (x :: xs)) := by
  have hsel : select d lev (x :: xs)
      = xs.foldl (fun best j => if hval d best < hval d j then j else best) x := by
    unfold select pySelect
    rw [if_neg (by omega)]
    simp only [decide_eq_true_eq]
  rcases (foldl_max_spec (hval d) xs x).2.2 with h | h
  · rw [hsel] at hne; exact absurd h hne
  · rw [hsel]; exact h

/-! ### Candidate lists -/

theorem mem_with_children {d : HeapDict} {i j : Nat} (h : j ∈ with_children d i) :
    j = i ∨ (2 * i + 1 ≤ j ∧ j ≤ 2 * i + 2 ∧ j < d.heap.length) := by
  rcases List.mem_cons.mp h with h' | h'
  · exact Or.inl h'
  · right
    have := List.mem_range'_1.mp h'
    omega

theorem mem_with_children_of {d : HeapDict} {i j : Nat}
    (hj : 2 * i + 1 ≤ j) (hj2 : j ≤ 2 * i + 2) (hlen : j < d.heap.length) :
    j ∈ with_children d i := by
  apply List.mem_cons_of_mem
  apply List.mem_range'_1.mpr
  omega

theorem mem_with_grandchildren_of {d : HeapDict} {i j : Nat}
    (hj : 4 * i + 3 ≤ j) (hj2 : j ≤ 4 * i + 6) (hlen : j < d.heap.length) :
    j ∈ with_grandchildren d i := by
  apply List.mem_cons_of_mem
  apply List.mem_range'_1.mpr
  omega

/-! ### Heap-slot values before and after a `_swap` -/

theorem getD_of_getElem? {l : List Nat} {n k : Nat} (h : l[n]? = some k) :
    l.getD n 0 = k := by
  rw [List.getD_eq_getElem?_getD, h]
  rfl

theorem getElem?_of_getD {l : List Nat} {n : Nat} (h : n < l.length) :
    l[n]? = some (l.getD n 0) := by
  rw [List.getD_eq_getElem?_getD]
  rcases List.getElem?_eq_some_iff.mpr ⟨h, rfl⟩ with hx
  rw [hx]
  rfl

theorem swap_heap_getElem? {d : HeapDict} {i j : Nat}
    (hi : i < d.heap.length) (hj : j < d.heap.length) (n : Nat) :
    (swap d i j).heap[n]? =
      if n = j then some (d.heap.getD i 0)
      else if n = i then some (d.heap.getD j 0)
      else d.heap[n]? := by
  show ((d.heap.set i (d.heap.getD j 0)).set j (d.heap.getD i 0))[n]? = _
  by_cases hnj : n = j
  · subst hnj
    rw [if_pos rfl, List.getElem?_set_self (by rw [List.length_set]; exact hj)]
  · rw [if_neg hnj, List.getElem?_set_ne (fun h => hnj h.symm)]
    by_cases hni : n = i
    · subst hni
      rw [if_pos rfl, List.getElem?_set_self hi]
    · rw [if_neg hni, List.getElem?_set_ne (fun h => hni h.symm)]

theorem swap_hval {d : HeapDict} {i j : Nat}
    (hi : i < d.heap.length) (hj : j < d.heap.length) (n : Nat) :
    hval (swap d i j) n =
      if n = j then hval d i
      else if n = i then hval d j
      else hval d n := by
  have hpri : (swap d i j).priorities = d.priorities := rfl
  unfold hval priOf
  rw [hpri]
  congr 1
  rw [List.getD_eq_getElem?_getD, swap_heap_getElem? hi hj n]
  by_cases hnj : n = j
  · rw [if_pos hnj, if_pos hnj]; rfl
  · rw [if_neg hnj, if_neg hnj]
    by_cases hni : n = i
    · rw [if_pos hni, if_pos hni]; rfl
    · rw [if_neg hni, if_neg hni, List.getD_eq_getElem?_getD]

/-! ### The index map as the inverse of the heap array -/

/-- I2 of the specification: `_indexes` is the exact inverse of `_heap`. -/
def Inv (d : HeapDict) : Prop :=
  ∀ k n, dlookup d.indexes k = some n ↔ d.heap[n]? = some k

theorem Inv.inj {d : HeapDict} (hInv : Inv d) {n m k : Nat}
    (hn : d.heap[n]? = some k) (hm : d.heap[m]? = some k) : n = m := by
  have h1 := (hInv k n).mpr hn
  have h2 := (hInv k m).mpr hm
  rw [h1] at h2
  exact Option.some_injective _ h2

theorem Inv.getD_self {d : HeapDict} (hInv : Inv d) {n : Nat} (h : n < d.heap.length) :
    dlookup d.indexes (d.heap.getD n 0) = some n :=
  (hInv _ n).mpr (getElem?_of_getD h)

theorem dset_mem_keys {α : Type} (l : List (Nat × α)) (k0 : Nat) (v : α) (k : Nat) :
    k ∈ (dset l k0 v).map Prod.fst ↔ k = k0 ∨ k ∈ l.map Prod.fst := by
  by_cases h : k0 ∈ l.map Prod.fst
  · rw [dset_map_fst_of_mem _ _ _ h]
    constructor
    · exact Or.inr
    · rintro (rfl | hk)
      · exact h
      · exact hk
  · rw [dset_map_fst_of_not_mem _ _ _ h]
    simp [or_comm]

theorem swap_Inv {d : HeapDict} {i j : Nat} (hInv : Inv d)
    (hi : i < d.heap.length) (hj : j < d.heap.length) (hij : i ≠ j) :
    Inv (swap d i j) := by
  have hgi : d.heap[i]? = some (d.heap.getD i 0) := getElem?_of_getD hi
  have hgj : d.heap[j]? = some (d.heap.getD j 0) := getElem?_of_getD hj
  have hkij : d.heap.getD i 0 ≠ d.heap.getD j 0 := by
    intro he
    exact hij (hInv.inj hgi (he ▸ hgj))
  intro k n
  have hidx : (swap d i j).indexes
      = dset (dset d.indexes (d.heap.getD i 0) j) (d.heap.getD j 0) i := rfl
  rw [hidx, swap_heap_getElem? hi hj n]
  by_cases hk : k = d.heap.getD j 0
  · subst hk
    rw [dlookup_dset_self]
    constructor
    · intro h
      have hn : n = i := (Option.some_injective _ h).symm
      subst hn
      rw [if_neg hij, if_pos rfl]
    · intro h
      by_cases hnj : n = j
      · rw [if_pos hnj] at h
        exact absurd (Option.some_injective _ h) hkij
      · rw [if_neg hnj] at h
        by_cases hni : n = i
        · rw [hni]
        · rw [if_neg hni] at h
          have hl := (hInv _ n).mpr h
          have hj' := (hInv _ j).mpr hgj
          rw [hl] at hj'
          exact absurd (Option.some_injective _ hj') hnj
  · rw [dlookup_dset_ne _ _ _ _ hk]
    by_cases hk' : k = d.heap.getD i 0
    · subst hk'
      rw [dlookup_dset_self]
      constructor
      · intro h
        have hn : n = j := (Option.some_injective _ h).symm
        subst hn
        rw [if_pos rfl]
      · intro h
        by_cases hnj : n = j
        · rw [hnj]
        · rw [if_neg hnj] at h
          by_cases hni : n = i
          · rw [if_pos hni] at h
            exact absurd (Option.some_injective _ h).symm hk
          · rw [if_neg hni] at h
            have hl := (hInv _ n).mpr h
            have hi' := (hInv _ i).mpr hgi
            rw [hl] at hi'
            exact absurd (Option.some_injective _ hi') hni
    · rw [dlookup_dset_ne _ _ _ _ hk']
      rw [hInv k n]
      by_cases hnj : n = j
      · subst hnj
        rw [if_pos rfl, hgj]
        constructor
        · intro h
          exact absurd ((Option.some_injective _ h).symm) hk
        · intro h
          exact absurd (Option.some_injective _ h) (fun he => hk' he.symm)
      · rw [if_neg hnj]
        by_cases hni : n = i
        · subst hni
          rw [if_pos rfl, hgi]
          constructor
          · intro h
            exact absurd ((Option.some_injective _ h).symm) hk'
          · intro h
            exact absurd (Option.some_injective _ h) (fun he => hk he.symm)
        · rw [if_neg hni]

theorem swap_indexes_nodup {d : HeapDict} {i j : Nat}
    (hnd : (d.indexes.map Prod.fst).Nodup) :
    ((swap d i j).indexes.map Prod.fst).Nodup :=
  dset_nodup _ _ _ (dset_nodup _ _ _ hnd)

theorem swap_indexes_keys {d : HeapDict} {i j : Nat} (hInv : Inv d)
    (hi : i < d.heap.length) (hj : j < d.heap.length) (k : Nat) :
    k ∈ (swap d i j).indexes.map Prod.fst ↔ k ∈ d.indexes.map Prod.fst := by
  have hgi : d.heap[i]? = some (d.heap.getD i 0) := getElem?_of_getD hi
  have hgj : d.heap[j]? = some (d.heap.getD j 0) := getElem?_of_getD hj
  have hmi : d.heap.getD i 0 ∈ d.indexes.map Prod.fst :=
    (dlookup_isSome_iff_mem _ _).mp ⟨i, (hInv _ i).mpr hgi⟩
  have hmj : d.heap.getD j 0 ∈ d.indexes.map Prod.fst :=
    (dlookup_isSome_iff_mem _ _).mp ⟨j, (hInv _ j).mpr hgj⟩
  have hidx : (swap d i j).indexes
      = dset (dset d.indexes (d.heap.getD i 0) j) (d.heap.getD j 0) i := rfl
  rw [hidx, dset_mem_keys, dset_mem_keys]
  constructor
  · rintro (rfl | rfl | hk)
    · exact hmj
    · exact hmi
    · exact hk
  · intro hk
    exact Or.inr (Or.inr hk)

/-! ### Bundled structural facts preserved by the heap-repair loops -/

/-- The structural relation between the state before (`d`) and after (`d'`)
a heap-repair step: the inverse invariant still holds, the index map still
has duplicate-free keys, its key set is unchanged, and the heap length is
unchanged. -/
def StateOk (d d' : HeapDict) : Prop :=
  Inv d' ∧ (d'.indexes.map Prod.fst).Nodup ∧
  (∀ k, k ∈ d'.indexes.map Prod.fst ↔ k ∈ d.indexes.map Prod.fst) ∧
  d'.heap.length = d.heap.length

theorem StateOk.base {d : HeapDict} (hInv : Inv d)
    (hnd : (d.indexes.map Prod.fst).Nodup) : StateOk d d :=
  ⟨hInv, hnd, fun _ => Iff.rfl, rfl⟩

theorem StateOk.join {d d1 d2 : HeapDict} (h1 : StateOk d d1) (h2 : StateOk d1 d2) :
    StateOk d d2 :=
  ⟨h2.1, h2.2.1, fun k => (h2.2.2.1 k).trans (h1.2.2.1 k), h2.2.2.2.trans h1.2.2.2⟩

theorem swap_StateOk {d : HeapDict} {i j : Nat} (hInv : Inv d)
    (hnd : (d.indexes.map Prod.fst).Nodup)
    (hi : i < d.heap.length) (hj : j < d.heap.length) (hij : i ≠ j) :
    StateOk d (swap d i j) :=
  ⟨swap_Inv hInv hi hj hij, swap_indexes_nodup hnd,
   swap_indexes_keys hInv hi hj, swap_heap_length d i j⟩

theorem push_down_fuel_StateOk (lev : Nat) :
    ∀ (fuel : Nat) (d : HeapDict) (i : Nat), Inv d →
      (d.indexes.map Prod.fst).Nodup →
      StateOk d (push_down_fuel lev fuel d i) := by
  intro fuel
  induction fuel with
  | zero =>
    intro d i hInv hnd
    exact StateOk.base hInv hnd
  | succ n ih =>
    intro d i hInv hnd
    rw [push_down_fuel]
    have hmc : select d lev (with_children d i) ∈ with_children d i :=
      select_mem d lev i _
    have hstep1 : StateOk d (if select d lev (with_children d i) ≠ i
        then swap d i (select d lev (with_children d i)) else d) := by
      split
      next hc =>
        rcases mem_with_children hmc with h' | h'
        · exact absurd h' hc
        · exact swap_StateOk hInv hnd (by omega) h'.2.2 (by omega)
      next hc => exact StateOk.base hInv hnd
    generalize hd1 : (if select d lev (with_children d i) ≠ i
        then swap d i (select d lev (with_children d i)) else d) = d1 at hstep1 ⊢
    have hmg : select d1 lev (with_grandchildren d1 i) ∈ with_grandchildren d1 i :=
      select_mem d1 lev i _
    split
    next hg => exact hstep1
    next hg =>
      rcases mem_with_grandchildren hmg with h' | h'
      · exact absurd h' hg
      · have hswap : StateOk d1 (swap d1 i (select d1 lev (with_grandchildren d1 i))) :=
          swap_StateOk hstep1.1 hstep1.2.1 (by omega) h'.2.2 (by omega)
        exact (hstep1.join hswap).join (ih _ _ hswap.1 hswap.2.1)

theorem push_up_fuel_StateOk (lev : Nat) :
    ∀ (fuel : Nat) (d : HeapDict) (i : Nat), Inv d →
      (d.indexes.map Prod.fst).Nodup → i < d.heap.length →
      StateOk d (push_up_fuel lev fuel d i) := by
  intro fuel
  induction fuel with
  | zero =>
    intro d i hInv hnd _
    exact StateOk.base hInv hnd
  | succ n ih =>
    intro d i hInv hnd hi
    rw [push_up_fuel]
    split
    next h3 =>
      dsimp only
      split
      next hs => exact StateOk.base hInv hnd
      next hs =>
        have hg : (i - 3) / 4 < d.heap.length := by omega
        have hswap : StateOk d (swap d i ((i - 3) / 4)) :=
          swap_StateOk hInv hnd hi hg (by omega)
        refine hswap.join (ih _ _ hswap.1 hswap.2.1 ?_)
        rw [swap_heap_length]
        omega
    next h3 => exact StateOk.base hInv hnd

/-! ### Polarity-neutral order facts

`ple mn u v` reads "`u` is at least as good as `v`" for the selector of a
level with parity `mn` (`true` = min level, `false` = max level); `plt` is the
strict version.  They let the min-level and max-level halves of the heap
arguments share one proof.
-/

def ple : Bool → Int → Int → Prop
  | true, u, v => u ≤ v
  | false, u, v => v ≤ u

def plt : Bool → Int → Int → Prop
  | true, u, v => u < v
  | false, u, v => v < u

theorem ple_refl (mn : Bool) (u : Int) : ple mn u u := by
  cases mn <;> exact le_refl u

theorem ple_trans {mn : Bool} {u v w : Int} (h1 : ple mn u v) (h2 : ple mn v w) :
    ple mn u w := by
  cases mn
  · exact le_trans h2 h1
  · exact le_trans h1 h2

theorem plt_ple {mn : Bool} {u v : Int} (h : plt mn u v) : ple mn u v := by
  cases mn <;> exact le_of_lt h

theorem ple_of_ple_of_plt {mn : Bool} {u v w : Int} (h1 : ple mn u v) (h2 : plt mn v w) :
    ple mn u w :=
  ple_trans h1 (plt_ple h2)

/-- On a level of parity matching `lev`, `rel` is exactly the `ple` fact. -/
theorem rel_pol {d : HeapDict} {lev a x : Nat} (hpar : get_level a % 2 = lev % 2) :
    rel d a x ↔ ple (decide (lev % 2 = 0)) (hval d a) (hval d x) := by
  unfold rel
  rcases Nat.mod_two_eq_zero_or_one lev with h | h
  · rw [decide_eq_true h, if_pos (by omega)]
    exact Iff.rfl
  · rw [decide_eq_false (by omega), if_neg (by omega)]
    exact Iff.rfl

/-- On a level of parity opposite to `lev`, `rel` is the flipped `ple` fact. -/
theorem rel_pol_op {d : HeapDict} {lev a x : Nat} (hpar : get_level a % 2 ≠ lev % 2) :
    rel d a x ↔ ple (decide (lev % 2 = 0)) (hval d x) (hval d a) := by
  unfold rel
  rcases Nat.mod_two_eq_zero_or_one lev with h | h
  · rw [decide_eq_true h, if_neg (by omega)]
    exact Iff.rfl
  · rw [decide_eq_false (by omega), if_pos (by omega)]
    exact Iff.rfl

/-- `rel` only depends on the two slot values. -/
theorem rel_transport {d d' : HeapDict} {a x y : Nat}
    (ha : hval d' a = hval d a) (hx : hval d' x = hval d y) :
    rel d a y → rel d' a x := by
  unfold rel
  split <;> rw [ha, hx] <;> exact id

/-- Polarity form of the selector lower/upper bound. -/
theorem select_pol_le {d : HeapDict} {lev : Nat} (x : Nat) (xs : List Nat) :
    ∀ y ∈ x :: xs,
      ple (decide (lev % 2 = 0)) (hval d (select d lev (x :: xs))) (hval d y) := by
  intro y hy
  rcases Nat.mod_two_eq_zero_or_one lev with h | h
  · rw [decide_eq_true h]
    exact select_min_le h x xs y hy
  · rw [decide_eq_false (by omega)]
    exact select_max_ge h x xs y hy

theorem select_pol_strict {d : HeapDict} {lev : Nat} (x : Nat) (xs : List Nat)
    (hne : select d lev (x :: xs) ≠ x) :
    plt (decide (lev % 2 = 0)) (hval d (select d lev (x :: xs))) (hval d x) := by
  rcases Nat.mod_two_eq_zero_or_one lev with h | h
  · rw [decide_eq_true h]
    exact select_min_strict h x xs hne
  · rw [decide_eq_false (by omega)]
    exact select_max_strict h x xs hne

theorem select_wc_le {d : HeapDict} {lev : Nat} (i : Nat) :
    ∀ y ∈ with_children d i,
      ple (decide (lev % 2 = 0)) (hval d (select d lev (with_children d i))) (hval d y) :=
  select_pol_le i _

theorem select_wc_strict {d : HeapDict} {lev : Nat} (i : Nat)
    (hne : select d lev (with_children d i) ≠ i) :
    plt (decide (lev % 2 = 0)) (hval d (select d lev (with_children d i))) (hval d i) :=
  select_pol_strict i _ hne

theorem select_wgc_le {d : HeapDict} {lev : Nat} (i : Nat) :
    ∀ y ∈ with_grandchildren d i,
      ple (decide (lev % 2 = 0)) (hval d (select d lev (with_grandchildren d i))) (hval d y) :=
  select_pol_le i _

/-! ### Decomposing a subtree into children, grandchildren and deeper slots -/

theorem SAnc.to_depth {i x : Nat} (h : SAnc i x) :
    (x - 1) / 2 = i ∨ ((x - 3) / 4 = i ∧ 3 ≤ x) ∨
      (∃ w, SAnc w x ∧ (w - 3) / 4 = i ∧ 3 ≤ w) := by
  induction x using Nat.strong_induction_on with
  | _ x ih =>
    rcases h.cases_decomp with h1 | ⟨hp1, h1⟩
    · exact Or.inl h1.symm
    · have hx1 : 1 ≤ x := h.pos
      have hx3 : 3 ≤ x := by omega
      rcases ih ((x - 1) / 2) (by omega) h1 with h2 | ⟨h2, h2b⟩ | ⟨w, hw1, hw2, hw3⟩
      · refine Or.inr (Or.inl ⟨?_, hx3⟩)
        omega
      · refine Or.inr (Or.inr ⟨(x - 1) / 2, SAnc.parent x hx1, ?_, h2b⟩)
        omega
      · exact Or.inr (Or.inr ⟨w, SAnc.step w x hx1 hw1, hw2, hw3⟩)

/-- A child of `i` has no strict ancestor inside the subtree of `i` other
than `i` itself. -/
theorem no_middle_ancestor {i a c : Nat} (hc : (c - 1) / 2 = i) (hc1 : 1 ≤ c)
    (hia : InSub i a) (hai : a ≠ i) (h : SAnc a c) : False := by
  rcases h.cases_decomp with h1 | ⟨hp1, h1⟩
  · exact hai (h1.trans hc)
  · rw [hc] at h1
    have hle : i ≤ a := hia.le
    exact absurd h1.lt (by omega)

/-- Subtree bound: a value that is at least as good as `i`'s children and
grandchildren bounds the whole populated subtree of `i`, provided all pairs
inside the subtree not rooted at `i` already satisfy the heap relation. -/
theorem subtree_bound {d1 : HeapDict} {lev i : Nat} {u : Int}
    (hpar : lev % 2 = get_level i % 2)
    (hpre1 : ∀ a x, SAnc a x → x < d1.heap.length → InSub i a → a ≠ i → rel d1 a x)
    (hchildu : ∀ c, 2 * i + 1 ≤ c → c ≤ 2 * i + 2 → c < d1.heap.length →
      ple (decide (lev % 2 = 0)) u (hval d1 c))
    (hgcu : ∀ q, 4 * i + 3 ≤ q → q ≤ 4 * i + 6 → q < d1.heap.length →
      ple (decide (lev % 2 = 0)) u (hval d1 q)) :
    ∀ x, SAnc i x → x < d1.heap.length → ple (decide (lev % 2 = 0)) u (hval d1 x) := by
  intro x hx hxlen
  rcases hx.to_depth with h1 | ⟨h1, h1b⟩ | ⟨w, hw1, hw2, hw3⟩
  · exact hchildu x (by have := hx.pos; omega) (by have := hx.pos; omega) hxlen
  · exact hgcu x (by omega) (by omega) hxlen
  · have hwb1 : 4 * i + 3 ≤ w := by omega
    have hwb2 : w ≤ 4 * i + 6 := by omega
    have hwlen : w < d1.heap.length := lt_trans hw1.lt hxlen
    have hiw : SAnc i w := by
      have := SAnc.gp hw3
      rwa [hw2] at this
    have hwpar : get_level w % 2 = lev % 2 := by
      have hparw := parity_gp hw3
      rw [hw2] at hparw
      omega
    have hrel := hpre1 w x hw1 hxlen (Or.inr hiw) (by omega)
    exact ple_trans (hgcu w hwb1 hwb2 hwlen) ((rel_pol hwpar).mp hrel)

theorem InSub.chain {i g j : Nat} (h1 : InSub i g) (h2 : InSub g j) : InSub i j := by
  rcases h1 with rfl | h1
  · exact h2
  · rcases h2 with rfl | h2
    · exact Or.inr h1
    · exact Or.inr (h1.comp h2)

/-- The precondition of one `_push_down` visit at slot `i`: every
strict-ancestor pair inside the subtree of `i`, except those whose ancestor
is `i` itself, already satisfies the heap relation. -/
def PDPre (d : HeapDict) (i : Nat) : Prop :=
  ∀ a x, SAnc a x → x < d.heap.length → InSub i a → a ≠ i → rel d a x

/-- The postcondition of `_push_down` from slot `i`: the subtree of `i` fully
satisfies the heap relation, slots outside it keep their values, and slots
inside it hold values drawn from inside it. -/
def PDConcl (d d' : HeapDict) (i : Nat) : Prop :=
  (∀ a x, SAnc a x → x < d.heap.length → InSub i a → rel d' a x) ∧
  (∀ j, ¬ InSub i j → hval d' j = hval d j) ∧
  (∀ j, InSub i j → j < d.heap.length →
    ∃ y, InSub i y ∧ y < d.heap.length ∧ hval d' j = hval d y)

/-- One iteration of the `_push_down` loop, after the child phase: if the
subtree of `i` is a heap except possibly at `i`, and the value at `i` is
already at least as good as its children, then the grandchild phase (and the
remaining iterations) repair the whole subtree. -/
theorem push_down_step_valid (lev n : Nat)
    (IH : ∀ d i, d.heap.length ≤ i + n → lev % 2 = get_level i % 2 → PDPre d i →
      PDConcl d (push_down_fuel lev n d i) i)
    (d1 : HeapDict) (i : Nat)
    (hlen : d1.heap.length ≤ i + n + 1)
    (hil : i < d1.heap.length)
    (hpar : lev % 2 = get_level i % 2)
    (hpre1 : PDPre d1 i)
    (hchild : ∀ c, 2 * i + 1 ≤ c → c ≤ 2 * i + 2 → c < d1.heap.length →
      ple (decide (lev % 2 = 0)) (hval d1 i) (hval d1 c)) :
    PDConcl d1
      (if select d1 lev (with_grandchildren d1 i) = i then d1
       else push_down_fuel lev n
         (swap d1 i (select d1 lev (with_grandchildren d1 i)))
         (select d1 lev (with_grandchildren d1 i))) i := by
  have hgmem : select d1 lev (with_grandchildren d1 i) ∈ with_grandchildren d1 i :=
    select_mem d1 lev i _
  set g := select d1 lev (with_grandchildren d1 i) with hgdef
  have hGi : ple (decide (lev % 2 = 0)) (hval d1 g) (hval d1 i) := by
    have h0 := @select_wgc_le d1 lev i i (List.mem_cons_self i _)
    rwa [← hgdef] at h0
  have hGq : ∀ q, 4 * i + 3 ≤ q → q ≤ 4 * i + 6 → q < d1.heap.length →
      ple (decide (lev % 2 = 0)) (hval d1 g) (hval d1 q) := by
    intro q h1 h2 h3
    have h0 := @select_wgc_le d1 lev i q (mem_with_grandchildren_of h1 h2 h3)
    rwa [← hgdef] at h0
  by_cases hgi : g = i
  · rw [if_pos hgi]
    refine ⟨?_, fun j _ => rfl, fun j hj hjl => ⟨j, hj, hjl, rfl⟩⟩
    intro a x hax hxl hia
    by_cases hai : a = i
    · subst hai
      rw [rel_pol hpar.symm]
      refine subtree_bound hpar hpre1 hchild ?_ x hax hxl
      intro q h1 h2 h3
      have h0 := hGq q h1 h2 h3
      rwa [hgi] at h0
    · exact hpre1 a x hax hxl hia hai
  · rw [if_neg hgi]
    have hgb : 4 * i + 3 ≤ g ∧ g ≤ 4 * i + 6 ∧ g < d1.heap.length := by
      rcases mem_with_grandchildren hgmem with h | h
      · exact absurd h hgi
      · exact h
    have hswap := swap_hval (d := d1) (i := i) (j := g) hil hgb.2.2
    have hlen2 : (swap d1 i g).heap.length = d1.heap.length := swap_heap_length d1 i g
    have hig : SAnc i g := by
      have hgp := SAnc.gp (show 3 ≤ g by omega)
      rwa [show (g - 3) / 4 = i by omega] at hgp
    have hpar2 : lev % 2 = get_level g % 2 := by
      have h0 := parity_gp (show 3 ≤ g by omega)
      rw [show (g - 3) / 4 = i by omega] at h0
      omega
    have hv2i : hval (swap d1 i g) i = hval d1 g := by
      rw [hswap]
      rw [if_neg (by omega), if_pos rfl]
    have hv2g : hval (swap d1 i g) g = hval d1 i := by
      rw [hswap]
      rw [if_pos rfl]
    have hv2o : ∀ j, j ≠ i → j ≠ g → hval (swap d1 i g) j = hval d1 j := by
      intro j h1 h2
      rw [hswap]
      rw [if_neg h2, if_neg h1]
    have hpre2 : PDPre (swap d1 i g) g := by
      intro a x hax hxl hga hag
      have hga' : SAnc g a := by
        rcases hga with heq | h
        · exact absurd heq.symm hag
        · exact h
      have hax' := hax.lt
      have hga'' := hga'.lt
      have hxl1 : x < d1.heap.length := by rw [hlen2] at hxl; exact hxl
      have hva : hval (swap d1 i g) a = hval d1 a := hv2o a (by omega) (by omega)
      have hvx : hval (swap d1 i g) x = hval d1 x := hv2o x (by omega) (by omega)
      exact rel_transport hva hvx
        (hpre1 a x hax hxl1 (Or.inr (hig.comp hga')) (by omega))
    obtain ⟨R1, R2, R3⟩ := IH (swap d1 i g) g (by rw [hlen2]; omega) hpar2 hpre2
    have hgnotsubi : ¬ InSub g i := fun h => by have := h.le; omega
    refine ⟨?_, ?_, ?_⟩
    · intro a x hax hxl hia
      by_cases hag : InSub g a
      · exact R1 a x hax (by rw [hlen2]; exact hxl) hag
      · have hxi : x ≠ i := by
          have h1 := hia.le
          have h2 := hax.lt
          omega
        by_cases hai : a = i
        · subst hai
          rw [rel_pol hpar.symm]
          have hv'a : hval (push_down_fuel lev n (swap d1 a g) g) a = hval d1 g := by
            rw [R2 a hgnotsubi, hv2i]
          rw [hv'a]
          by_cases hxg : InSub g x
          · obtain ⟨y2, hy2g, hy2l, hy2v⟩ := R3 x hxg (by rw [hlen2]; exact hxl)
            rw [hy2v]
            by_cases hy2 : y2 = g
            · subst hy2
              rw [hv2g]
              exact hGi
            · have hy2g' : SAnc g y2 := by
                rcases hy2g with heq | h
                · exact absurd heq.symm hy2
                · exact h
              rw [hv2o y2 (by have := hy2g'.lt; omega) hy2]
              exact (rel_pol hpar2.symm).mp
                (hpre1 g y2 hy2g' (by rw [hlen2] at hy2l; exact hy2l)
                  (Or.inr hig) (by omega))
          · have hxg' : x ≠ g := fun h => hxg (h ▸ InSub.self g)
            rw [R2 x hxg, hv2o x hxi hxg']
            refine subtree_bound hpar hpre1 ?_ hGq x hax hxl
            intro c h1 h2 h3
            exact ple_trans hGi (hchild c h1 h2 h3)
        · have hag' : a ≠ g := fun h => hag (h ▸ InSub.self g)
          have hva : hval (push_down_fuel lev n (swap d1 i g) g) a = hval d1 a := by
            rw [R2 a hag, hv2o a hai hag']
          by_cases hxg : InSub g x
          · have hagg : SAnc a g := InSub.of_sanc_of_not_insub hxg hax hag
            have hpa : a = (g - 1) / 2 := by
              rcases hagg.cases_decomp with h | ⟨hp, h⟩
              · exact h
              · exact absurd h
                  (fun hcon => no_middle_ancestor
                    (show ((g - 1) / 2 - 1) / 2 = i by omega) (by omega) hia hai hcon)
            have haparity : get_level a % 2 ≠ lev % 2 := by
              have h0 := parity_parent (show 1 ≤ g by omega)
              rw [← hpa] at h0
              omega
            rw [rel_pol_op haparity, hva]
            obtain ⟨y2, hy2g, hy2l, hy2v⟩ := R3 x hxg (by rw [hlen2]; exact hxl)
            rw [hy2v]
            by_cases hy2 : y2 = g
            · subst hy2
              rw [hv2g]
              exact hchild a (by omega) (by omega) (by omega)
            · have hy2g' : SAnc g y2 := by
                rcases hy2g with heq | h
                · exact absurd heq.symm hy2
                · exact h
              rw [hv2o y2 (by have := hy2g'.lt; omega) hy2]
              exact (rel_pol_op haparity).mp
                (hpre1 a y2 (hagg.comp hy2g') (by rw [hlen2] at hy2l; exact hy2l) hia hai)
          · have hxg' : x ≠ g := fun h => hxg (h ▸ InSub.self g)
            have hvx : hval (push_down_fuel lev n (swap d1 i g) g) x = hval d1 x := by
              rw [R2 x hxg, hv2o x hxi hxg']
            exact rel_transport hva hvx (hpre1 a x hax hxl hia hai)
    · intro j hj
      have hjg : ¬ InSub g j := fun h => hj (InSub.chain (Or.inr hig) h)
      have hji : j ≠ i := fun h => hj (h ▸ InSub.self i)
      have hjg' : j ≠ g := fun h => hj (h ▸ Or.inr hig)
      rw [R2 j hjg, hv2o j hji hjg']
    · intro j hj hjl
      by_cases hjg : InSub g j
      · obtain ⟨y2, hy2g, hy2l, hy2v⟩ := R3 j hjg (by rw [hlen2]; exact hjl)
        by_cases hy2 : y2 = g
        · subst hy2
          exact ⟨i, InSub.self i, hil, by rw [hy2v, hv2g]⟩
        · have hy2g' : SAnc g y2 := by
            rcases hy2g with heq | h
            · exact absurd heq.symm hy2
            · exact h
          refine ⟨y2, InSub.chain (Or.inr hig) hy2g, ?_, ?_⟩
          · rw [hlen2] at hy2l
            exact hy2l
          · rw [hy2v, hv2o y2 (by have := hy2g'.lt; omega) hy2]
      · have hvj := R2 j hjg
        by_cases hji : j = i
        · subst hji
          exact ⟨g, Or.inr hig, hgb.2.2, by rw [hvj, hv2i]⟩
        · have hjg' : j ≠ g := fun h => hjg (h ▸ InSub.self g)
          exact ⟨j, hj, hjl, by rw [hvj, hv2o j hji hjg']⟩

/-- Correctness of the `_push_down` loop: from a subtree that is a min-max
heap except possibly at its root, the loop produces a subtree that is a
min-max heap outright, touching only the subtree. -/
theorem push_down_fuel_valid (lev : Nat) :
    ∀ (fuel : Nat) (d : HeapDict) (i : Nat),
      d.heap.length ≤ i + fuel →
      lev % 2 = get_level i % 2 →
      PDPre d i →
      PDConcl d (push_down_fuel lev fuel d i) i := by
  intro fuel
  induction fuel with
  | zero =>
    intro d i hlen hpar hpre
    refine ⟨?_, fun j _ => rfl, fun j hj hjl => ⟨j, hj, hjl, rfl⟩⟩
    intro a x hax hxl hia
    by_cases hai : a = i
    · subst hai
      exact absurd hxl (by have := hax.lt; omega)
    · exact hpre a x hax hxl hia hai
  | succ n ih =>
    intro d i hlen hpar hpre
    rw [push_down_fuel]
    by_cases hir : d.heap.length ≤ i
    · rw [with_children_of_le (by omega), select_single]
      simp only [ne_eq, not_true_eq_false, if_false, reduceIte]
      rw [with_grandchildren_of_le (by omega), select_single, if_pos rfl]
      refine ⟨?_, fun j _ => rfl, fun j hj hjl => ⟨j, hj, hjl, rfl⟩⟩
      intro a x hax hxl hia
      by_cases hai : a = i
      · subst hai
        exact absurd hxl (by have := hax.lt; omega)
      · exact hpre a x hax hxl hia hai
    · have hil : i < d.heap.length := by omega
      have hmc : select d lev (with_children d i) ∈ with_children d i :=
        select_mem d lev i _
      by_cases hc : select d lev (with_children d i) ≠ i
      · rw [if_pos hc]
        set p := select d lev (with_children d i) with hpdef
        have hpb : 2 * i + 1 ≤ p ∧ p ≤ 2 * i + 2 ∧ p < d.heap.length := by
          rcases mem_with_children hmc with h | h
          · exact absurd h hc
          · exact h
        have hip : SAnc i p := by
          have h0 := SAnc.parent p (by omega)
          rwa [show (p - 1) / 2 = i by omega] at h0
        have hswap := swap_hval (d := d) (i := i) (j := p) hil hpb.2.2
        have hv1i : hval (swap d i p) i = hval d p := by
          rw [hswap]
          rw [if_neg (by omega), if_pos rfl]
        have hv1p : hval (swap d i p) p = hval d i := by
          rw [hswap]
          rw [if_pos rfl]
        have hv1o : ∀ j, j ≠ i → j ≠ p → hval (swap d i p) j = hval d j := by
          intro j h1 h2
          rw [hswap]
          rw [if_neg h2, if_neg h1]
        have hps : plt (decide (lev % 2 = 0)) (hval d p) (hval d i) := by
          have h0 := @select_wc_strict d lev i
            (by rw [← hpdef]; exact hc)
          rwa [← hpdef] at h0
        have hple : ∀ c ∈ with_children d i,
            ple (decide (lev % 2 = 0)) (hval d p) (hval d c) := by
          intro c hcm
          have h0 := @select_wc_le d lev i c hcm
          rwa [← hpdef] at h0
        have hlen1 : (swap d i p).heap.length = d.heap.length :=
          swap_heap_length d i p
        have hparp : get_level p % 2 ≠ lev % 2 := by
          have h0 := parity_parent (show 1 ≤ p by omega)
          rw [show (p - 1) / 2 = i by omega] at h0
          omega
        have hpre1 : PDPre (swap d i p) i := by
          intro a x hax hxl1 hia hai
          have hxl : x < d.heap.length := by rw [hlen1] at hxl1; exact hxl1
          have hxi : x ≠ i := by
            have h1 := hia.le
            have h2 := hax.lt
            omega
          by_cases hap : a = p
          · subst hap
            rw [rel_pol_op hparp]
            have hxa : x ≠ p := ne_of_gt hax.lt
            rw [hv1p, hv1o x hxi hxa]
            have h1 : ple (decide (lev % 2 = 0)) (hval d x) (hval d p) :=
              (rel_pol_op hparp).mp (hpre p x hax hxl (Or.inr hip) (by omega))
            exact ple_of_ple_of_plt h1 hps
          · have hxp : x ≠ p := fun hxx =>
              no_middle_ancestor (show (p - 1) / 2 = i by omega) (by omega)
                hia hai (hxx ▸ hax)
            exact rel_transport (hv1o a hai hap) (hv1o x hxi hxp)
              (hpre a x hax hxl hia hai)
        have hchild1 : ∀ c, 2 * i + 1 ≤ c → c ≤ 2 * i + 2 →
            c < (swap d i p).heap.length →
            ple (decide (lev % 2 = 0)) (hval (swap d i p) i) (hval (swap d i p) c) := by
          intro c h1 h2 h3
          rw [hlen1] at h3
          rw [hv1i]
          by_cases hcp : c = p
          · subst hcp
            rw [hv1p]
            exact plt_ple hps
          · rw [hv1o c (by omega) hcp]
            exact hple c (mem_with_children_of h1 h2 h3)
        obtain ⟨S1, S2, S3⟩ := push_down_step_valid lev n ih (swap d i p) i
          (by rw [hlen1]; omega) (by rw [hlen1]; omega) hpar hpre1 hchild1
        refine ⟨?_, ?_, ?_⟩
        · intro a x hax hxl hia
          exact S1 a x hax (by rw [hlen1]; exact hxl) hia
        · intro j hj
          have hji : j ≠ i := fun h => hj (h ▸ InSub.self i)
          have hjp : j ≠ p := fun h => hj (h ▸ Or.inr hip)
          rw [S2 j hj, hv1o j hji hjp]
        · intro j hj hjl
          obtain ⟨y, hy1, hy2, hy3⟩ := S3 j hj (by rw [hlen1]; exact hjl)
          rw [hlen1] at hy2
          by_cases hyi : y = i
          · subst hyi
            exact ⟨p, Or.inr hip, hpb.2.2, by rw [hy3, hv1i]⟩
          · by_cases hyp : y = p
            · subst hyp
              exact ⟨i, InSub.self i, hil, by rw [hy3, hv1p]⟩
            · exact ⟨y, hy1, hy2, by rw [hy3, hv1o y hyi hyp]⟩
      · rw [if_neg hc]
        have hceq : select d lev (with_children d i) = i := not_not.mp hc
        have hchild1 : ∀ c, 2 * i + 1 ≤ c → c ≤ 2 * i + 2 → c < d.heap.length →
            ple (decide (lev % 2 = 0)) (hval d i) (hval d c) := by
          intro c h1 h2 h3
          have h0 := @select_wc_le d lev i c (mem_with_children_of h1 h2 h3)
          rwa [hceq] at h0
        exact push_down_step_valid lev n ih d i hlen hil hpar hpre hchild1

/-- Derived form of the `_push_up` loop postcondition when the loop stops:
the heap relation holds for every pair whose ancestor is not the dirty slot
`t`, given the three loop invariants and the same-parity ancestor bound on
the climbing slot `j`. -/
theorem push_up_stop (d : HeapDict) (j t : Nat)
    (hjt : InSub j t)
    (PA : ∀ a x, SAnc a x → x < d.heap.length → a ≠ j → a ≠ t → x ≠ j → rel d a x)
    (PB : j ≠ t → ∀ x, SAnc j x → x < d.heap.length → rel d j x)
    (PC : ∀ a, SAnc a j → get_level a % 2 ≠ get_level j % 2 → rel d a j)
    (hsame : ∀ a, SAnc a j → get_level a % 2 = get_level j % 2 → a ≠ t → rel d a j) :
    ∀ a x, SAnc a x → x < d.heap.length → a ≠ t → rel d a x := by
  intro a x hax hxl hat
  by_cases haj : a = j
  · subst haj
    by_cases hjt' : a = t
    · exact absurd hjt' hat
    · exact PB hjt' x hax hxl
  · by_cases hxj : x = j
    · subst hxj
      by_cases hp : get_level a % 2 = get_level x % 2
      · exact hsame a hax hp hat
      · exact PC a hax hp
    · exact PA a x hax hxl haj hat hxj

/-- No strict ancestor of a slot `j ≤ 2` except the root. -/
theorem sanc_of_small {a j : Nat} (h : SAnc a j) (hj : j ≤ 2) : a = 0 ∧ 1 ≤ j := by
  refine ⟨?_, h.pos⟩
  rcases h.cases_decomp with h1 | ⟨hp, h1⟩
  · have := h.pos
    omega
  · have := h1.pos
    omega

/-- Correctness of the grandparent loop of `_push_up`.  `j` is the climbing
slot (parity of `lev`), `t` is the one slot in `j`'s subtree whose subtree
relations are not guaranteed (the original repair slot).  The three
invariants: all pairs avoiding `j` (ancestor side also avoiding `t`) hold;
the climbing value bounds its whole subtree (unless `j` is itself the dirty
slot); and opposite-parity ancestors of `j` already bound the climbing
value.  After the loop, every pair whose ancestor is not `t` holds. -/
theorem push_up_fuel_valid (lev : Nat) :
    ∀ (fuel : Nat) (d : HeapDict) (j t : Nat),
      j ≤ fuel →
      j < d.heap.length →
      lev % 2 = get_level j % 2 →
      InSub j t →
      (∀ a x, SAnc a x → x < d.heap.length → a ≠ j → a ≠ t → x ≠ j → rel d a x) →
      (j ≠ t → ∀ x, SAnc j x → x < d.heap.length → rel d j x) →
      (∀ a, SAnc a j → get_level a % 2 ≠ get_level j % 2 → rel d a j) →
      ∀ a x, SAnc a x → x < d.heap.length → a ≠ t →
        rel (push_up_fuel lev fuel d j) a x := by
  intro fuel
  induction fuel with
  | zero =>
    intro d j t hfuel hjl hpar hjt PA PB PC
    obtain rfl : j = 0 := by omega
    refine push_up_stop d 0 t hjt PA PB PC ?_
    intro a ha _ _
    exact absurd ha.pos (by have := ha.lt; omega)
  | succ n ih =>
    intro d j t hfuel hjl hpar hjt PA PB PC
    by_cases h3 : 3 ≤ j
    · have hunf : push_up_fuel lev (n + 1) d j =
          (if select d lev [(j - 3) / 4, j] = (j - 3) / 4 then d
           else push_up_fuel lev n (swap d j ((j - 3) / 4)) ((j - 3) / 4)) := by
        rw [push_up_fuel, if_pos h3]
      rw [hunf]
      have hgl : (j - 3) / 4 < j := by omega
      have hglen : (j - 3) / 4 < d.heap.length := by omega
      have hgj : SAnc ((j - 3) / 4) j := SAnc.gp h3
      have hjt' : j ≤ t := hjt.le
      have hgpar : get_level ((j - 3) / 4) % 2 = get_level j % 2 := parity_gp h3
      by_cases hs : select d lev [(j - 3) / 4, j] = (j - 3) / 4
      · rw [if_pos hs]
        have hstop : ple (decide (lev % 2 = 0)) (hval d ((j - 3) / 4)) (hval d j) := by
          have h0 := @select_pol_le d lev ((j - 3) / 4) [j] j
            (List.mem_cons_of_mem _ (List.mem_cons_self j []))
          rwa [hs] at h0
        refine push_up_stop d j t hjt PA PB PC ?_
        intro a ha hap hat
        rw [rel_pol (by omega : get_level a % 2 = lev % 2)]
        rcases ha.same_parity_decomp hap with ⟨hj3, hag | hag⟩
        · rw [hag]
          exact hstop
        · have h1 := PA a ((j - 3) / 4) hag (by omega)
            (by have := hag.lt; omega) hat (by omega)
          exact ple_trans
            ((rel_pol (by omega : get_level a % 2 = lev % 2)).mp h1) hstop
      · rw [if_neg hs]
        have hseq : select d lev [(j - 3) / 4, j] = j := by
          have hsel_mem := select_mem d lev ((j - 3) / 4) [j]
          rcases List.mem_cons.mp hsel_mem with h | h
          · exact absurd h hs
          · rcases List.mem_cons.mp h with h' | h'
            · exact h'
            · cases h'
        have hstrict : plt (decide (lev % 2 = 0)) (hval d j) (hval d ((j - 3) / 4)) := by
          have h0 := @select_pol_strict d lev ((j - 3) / 4) [j] hs
          rwa [hseq] at h0
        have hv2g : hval (swap d j ((j - 3) / 4)) ((j - 3) / 4) = hval d j := by
          rw [swap_hval hjl hglen, if_pos rfl]
        have hv2j : hval (swap d j ((j - 3) / 4)) j = hval d ((j - 3) / 4) := by
          rw [swap_hval hjl hglen, if_neg (by omega), if_pos rfl]
        have hv2o : ∀ m, m ≠ j → m ≠ (j - 3) / 4 →
            hval (swap d j ((j - 3) / 4)) m = hval d m := by
          intro m h1 h2
          rw [swap_hval hjl hglen, if_neg h2, if_neg h1]
        have hlen2 : (swap d j ((j - 3) / 4)).heap.length = d.heap.length :=
          swap_heap_length _ _ _
        have hPA2 : ∀ a x, SAnc a x → x < (swap d j ((j - 3) / 4)).heap.length →
            a ≠ (j - 3) / 4 → a ≠ t → x ≠ (j - 3) / 4 →
            rel (swap d j ((j - 3) / 4)) a x := by
          intro a x hax hxl2 hag hat hxg
          rw [hlen2] at hxl2
          by_cases hxj : x = j
          · subst hxj
            have haj : a ≠ x := Nat.ne_of_lt hax.lt
            have hva : hval (swap d x ((x - 3) / 4)) a = hval d a := hv2o a haj hag
            rcases hax.cases_decomp with h1 | ⟨hp1, h1⟩
            · have hpa : get_level a % 2 ≠ lev % 2 := by
                have hpp := parity_parent (show 1 ≤ x by omega)
                rw [← h1] at hpp
                omega
              rw [rel_pol_op hpa, hv2j, hva]
              have hga : SAnc ((x - 3) / 4) a := by
                rw [h1, show (x - 3) / 4 = ((x - 1) / 2 - 1) / 2 by omega]
                exact SAnc.parent ((x - 1) / 2) (by omega)
              have h2 := PA ((x - 3) / 4) a hga (by omega) (by omega) (by omega) haj
              exact (rel_pol (by omega : get_level ((x - 3) / 4) % 2 = lev % 2)).mp h2
            · rcases h1.cases_decomp with h2 | ⟨hp2, h2⟩
              · exact absurd (by omega : a = (x - 3) / 4) hag
              · have hag' : SAnc a ((x - 3) / 4) := by
                  rw [show (x - 3) / 4 = ((x - 1) / 2 - 1) / 2 by omega]
                  exact h2
                have h4 := PA a ((x - 3) / 4) hag' hglen
                  (by have := hag'.lt; omega) hat (by omega)
                exact rel_transport hva hv2j h4
          · have hvx : hval (swap d j ((j - 3) / 4)) x = hval d x := hv2o x hxj hxg
            by_cases haj : a = j
            · subst haj
              rw [rel_pol (by omega : get_level a % 2 = lev % 2), hv2j, hvx]
              have hgx : SAnc ((a - 3) / 4) x := hgj.comp hax
              have h4 := PA ((a - 3) / 4) x hgx hxl2 (by omega) (by omega) hxj
              exact (rel_pol (by omega : get_level ((a - 3) / 4) % 2 = lev % 2)).mp h4
            · have hva : hval (swap d j ((j - 3) / 4)) a = hval d a := hv2o a haj hag
              exact rel_transport hva hvx (PA a x hax hxl2 haj hat hxj)
        have hPB2 : (j - 3) / 4 ≠ t → ∀ x, SAnc ((j - 3) / 4) x →
            x < (swap d j ((j - 3) / 4)).heap.length →
            rel (swap d j ((j - 3) / 4)) ((j - 3) / 4) x := by
          intro _ x hgx hxl2
          rw [hlen2] at hxl2
          rw [rel_pol (by omega : get_level ((j - 3) / 4) % 2 = lev % 2), hv2g]
          by_cases hxj : x = j
          · subst hxj
            rw [hv2j]
            exact plt_ple hstrict
          · have hxg : x ≠ (j - 3) / 4 := Nat.ne_of_gt hgx.lt
            rw [hv2o x hxj hxg]
            have h4 := PA ((j - 3) / 4) x hgx hxl2 (by omega) (by omega) hxj
            exact ple_trans (plt_ple hstrict)
              ((rel_pol (by omega : get_level ((j - 3) / 4) % 2 = lev % 2)).mp h4)
        have hPC2 : ∀ a, SAnc a ((j - 3) / 4) →
            get_level a % 2 ≠ get_level ((j - 3) / 4) % 2 →
            rel (swap d j ((j - 3) / 4)) a ((j - 3) / 4) := by
          intro a ha hap
          have hal : a < (j - 3) / 4 := ha.lt
          have hva : hval (swap d j ((j - 3) / 4)) a = hval d a :=
            hv2o a (by omega) (by omega)
          rw [rel_pol_op (by omega : get_level a % 2 ≠ lev % 2), hva, hv2g]
          have h4 := PA a ((j - 3) / 4) ha hglen (by omega) (by omega) (by omega)
          exact ple_trans (plt_ple hstrict)
            ((rel_pol_op (by omega : get_level a % 2 ≠ lev % 2)).mp h4)
        intro a x hax hxl hat
        exact ih (swap d j ((j - 3) / 4)) ((j - 3) / 4) t (by omega)
          (by rw [hlen2]; exact hglen) (by omega)
          (InSub.chain (Or.inr hgj) hjt) hPA2 hPB2 hPC2 a x hax
          (by rw [hlen2]; exact hxl) hat
    · have hunf : push_up_fuel lev (n + 1) d j = d := by
        rw [push_up_fuel, if_neg h3]
      rw [hunf]
      refine push_up_stop d j t hjt PA PB PC ?_
      intro a ha hap hat
      have hj2 : j ≤ 2 := by omega
      obtain ⟨rfl, hj1⟩ := sanc_of_small ha hj2
      have hlj : get_level j = 1 := by
        interval_cases j
        · rfl
        · rfl
      rw [get_level_zero, hlj] at hap
      exact absurd hap (by omega)


/-- Correctness of `_push_up(i)`: if every strict-ancestor pair not
involving slot `i` holds, then after `_push_up(i)` every pair whose
ancestor is not `i` holds (pairs rooted at `i` are the business of the
subsequent `_push_down(i)`, or are vacuous when `i` is a fresh leaf). -/
theorem push_up_valid (d : HeapDict) (i : Nat)
    (hil : i < d.heap.length)
    (E1 : ∀ a x, SAnc a x → x < d.heap.length → a ≠ i → x ≠ i → rel d a x) :
    ∀ a x, SAnc a x → x < d.heap.length → a ≠ i → rel (push_up d i) a x := by
  rw [← push_up_run_eq]
  by_cases hi0 : i = 0
  · have hunf : push_up_run d i = d := by
      unfold push_up_run
      rw [if_pos hi0]
    rw [hunf]
    intro a x hax hxl hai
    by_cases hxi : x = i
    · rw [hxi, hi0] at hax
      exact absurd hax.pos (by omega)
    · exact E1 a x hax hxl hai hxi
  · have hige : 1 ≤ i := by omega
    have hplt : (i - 1) / 2 < i := by omega
    have hplen : (i - 1) / 2 < d.heap.length := by omega
    have hpi : SAnc ((i - 1) / 2) i := SAnc.parent i hige
    have hppar : get_level ((i - 1) / 2) % 2 ≠ get_level i % 2 := parity_parent hige
    by_cases hsel : select d (get_level ((i - 1) / 2)) [(i - 1) / 2, i] = i
    · have hunf : push_up_run d i =
          push_up_fuel (get_level ((i - 1) / 2)) ((i - 1) / 2)
            (swap d i ((i - 1) / 2)) ((i - 1) / 2) := by
        unfold push_up_run
        rw [if_neg hi0]
        show (if select d (get_level ((i - 1) / 2)) [(i - 1) / 2, i] = i
            then push_up_fuel (get_level ((i - 1) / 2)) ((i - 1) / 2)
              (swap d i ((i - 1) / 2)) ((i - 1) / 2)
            else push_up_fuel (get_level i) i d i) = _
        rw [if_pos hsel]
      have hne : select d (get_level ((i - 1) / 2)) [(i - 1) / 2, i] ≠ (i - 1) / 2 := by
        rw [hsel]
        omega
      have hstrictP : plt (decide (get_level ((i - 1) / 2) % 2 = 0))
          (hval d i) (hval d ((i - 1) / 2)) := by
        have h0 := @select_pol_strict d (get_level ((i - 1) / 2)) ((i - 1) / 2) [i] hne
        rwa [hsel] at h0
      have hv1p : hval (swap d i ((i - 1) / 2)) ((i - 1) / 2) = hval d i := by
        rw [swap_hval hil hplen, if_pos rfl]
      have hv1i : hval (swap d i ((i - 1) / 2)) i = hval d ((i - 1) / 2) := by
        rw [swap_hval hil hplen, if_neg (by omega), if_pos rfl]
      have hv1o : ∀ m, m ≠ i → m ≠ (i - 1) / 2 →
          hval (swap d i ((i - 1) / 2)) m = hval d m := by
        intro m h1 h2
        rw [swap_hval hil hplen, if_neg h2, if_neg h1]
      have hlen1 : (swap d i ((i - 1) / 2)).heap.length = d.heap.length :=
        swap_heap_length _ _ _
      have hPA : ∀ a x, SAnc a x → x < (swap d i ((i - 1) / 2)).heap.length →
          a ≠ (i - 1) / 2 → a ≠ i → x ≠ (i - 1) / 2 →
          rel (swap d i ((i - 1) / 2)) a x := by
        intro a x hax hxl1 hap hai hxp
        rw [hlen1] at hxl1
        by_cases hxi : x = i
        · have hva : hval (swap d i ((i - 1) / 2)) a = hval d a := hv1o a hai hap
          rcases hax.cases_decomp with h1 | ⟨hp1, h1⟩
          · exact absurd (by rw [h1, hxi]) hap
          · have h1' : SAnc a ((i - 1) / 2) := by
              rw [← (by rw [hxi] : (x - 1) / 2 = (i - 1) / 2)]
              exact h1
            have h4 := E1 a ((i - 1) / 2) h1' hplen hai (by omega)
            rw [hxi]
            exact rel_transport hva hv1i h4
        · have hvx : hval (swap d i ((i - 1) / 2)) x = hval d x := hv1o x hxi hxp
          have hva : hval (swap d i ((i - 1) / 2)) a = hval d a := hv1o a hai hap
          exact rel_transport hva hvx (E1 a x hax hxl1 hai hxi)
      have hPB : (i - 1) / 2 ≠ i → ∀ x, SAnc ((i - 1) / 2) x →
          x < (swap d i ((i - 1) / 2)).heap.length →
          rel (swap d i ((i - 1) / 2)) ((i - 1) / 2) x := by
        intro _ x hpx hxl1
        rw [hlen1] at hxl1
        rw [@rel_pol (swap d i ((i - 1) / 2)) (get_level ((i - 1) / 2)) ((i - 1) / 2) x rfl,
          hv1p]
        by_cases hxi : x = i
        · rw [hxi, hv1i]
          exact plt_ple hstrictP
        · have hxp : x ≠ (i - 1) / 2 := Nat.ne_of_gt hpx.lt
          rw [hv1o x hxi hxp]
          have h4 := E1 ((i - 1) / 2) x hpx hxl1 (by omega) hxi
          exact ple_trans (plt_ple hstrictP)
            ((@rel_pol d (get_level ((i - 1) / 2)) ((i - 1) / 2) x rfl).mp h4)
      have hPC : ∀ a, SAnc a ((i - 1) / 2) →
          get_level a % 2 ≠ get_level ((i - 1) / 2) % 2 →
          rel (swap d i ((i - 1) / 2)) a ((i - 1) / 2) := by
        intro a ha hap
        have hal : a < (i - 1) / 2 := ha.lt
        have hva : hval (swap d i ((i - 1) / 2)) a = hval d a :=
          hv1o a (by omega) (by omega)
        rw [@rel_pol_op (swap d i ((i - 1) / 2)) (get_level ((i - 1) / 2)) a ((i - 1) / 2) hap,
          hva, hv1p]
        have h4 := E1 a ((i - 1) / 2) ha hplen (by omega) (by omega)
        exact ple_trans (plt_ple hstrictP)
          ((@rel_pol_op d (get_level ((i - 1) / 2)) a ((i - 1) / 2) hap).mp h4)
      rw [hunf]
      intro a x hax hxl hai
      exact push_up_fuel_valid (get_level ((i - 1) / 2)) ((i - 1) / 2)
        (swap d i ((i - 1) / 2)) ((i - 1) / 2) i (le_refl _)
        (by rw [hlen1]; exact hplen) rfl (Or.inr hpi) hPA hPB hPC a x hax
        (by rw [hlen1]; exact hxl) hai
    · have hunf : push_up_run d i = push_up_fuel (get_level i) i d i := by
        unfold push_up_run
        rw [if_neg hi0]
        show (if select d (get_level ((i - 1) / 2)) [(i - 1) / 2, i] = i
            then push_up_fuel (get_level ((i - 1) / 2)) ((i - 1) / 2)
              (swap d i ((i - 1) / 2)) ((i - 1) / 2)
            else push_up_fuel (get_level i) i d i) = _
        rw [if_neg hsel]
      have hseq : select d (get_level ((i - 1) / 2)) [(i - 1) / 2, i] = (i - 1) / 2 := by
        have hm := select_mem d (get_level ((i - 1) / 2)) ((i - 1) / 2) [i]
        rcases List.mem_cons.mp hm with h | h
        · exact h
        · rcases List.mem_cons.mp h with h' | h'
          · exact absurd h' hsel
          · cases h'
      have hple : ple (decide (get_level ((i - 1) / 2) % 2 = 0))
          (hval d ((i - 1) / 2)) (hval d i) := by
        have h0 := @select_pol_le d (get_level ((i - 1) / 2)) ((i - 1) / 2) [i] i
          (List.mem_cons_of_mem _ (List.mem_cons_self i []))
        rwa [hseq] at h0
      have hPC : ∀ a, SAnc a i → get_level a % 2 ≠ get_level i % 2 → rel d a i := by
        intro a ha hap
        rcases ha.cases_decomp with h1 | ⟨hp1, h1⟩
        · rw [h1]
          exact (@rel_pol d (get_level ((i - 1) / 2)) ((i - 1) / 2) i rfl).mpr hple
        · have hpar2 : get_level a % 2 = get_level ((i - 1) / 2) % 2 := by omega
          have h4 := E1 a ((i - 1) / 2) h1 hplen (by have := h1.lt; omega) (by omega)
          exact (@rel_pol d (get_level ((i - 1) / 2)) a i hpar2).mpr
            (ple_trans ((@rel_pol d (get_level ((i - 1) / 2)) a ((i - 1) / 2) hpar2).mp h4)
              hple)
      rw [hunf]
      intro a x hax hxl hai
      exact push_up_fuel_valid (get_level i) i d i i (le_refl _) hil rfl
        (InSub.self i)
        (fun a x hax hxl1 hai1 _ hxi => E1 a x hax hxl1 hai1 hxi)
        (fun h => absurd rfl h) hPC a x hax hxl hai


theorem push_down_fuel_heap_length (lev : Nat) :
    ∀ (fuel : Nat) (d : HeapDict) (i : Nat),
      (push_down_fuel lev fuel d i).heap.length = d.heap.length := by
  intro fuel
  induction fuel with
  | zero => intro d i; rfl
  | succ n ih =>
    intro d i
    rw [push_down_fuel]
    have h1 : (if select d lev (with_children d i) ≠ i
        then swap d i (select d lev (with_children d i)) else d).heap.length
        = d.heap.length := by
      split
      · rw [swap_heap_length]
      · rfl
    generalize hd1 : (if select d lev (with_children d i) ≠ i
        then swap d i (select d lev (with_children d i)) else d) = d1 at h1 ⊢
    split
    · exact h1
    · rw [ih, swap_heap_length]
      exact h1

theorem push_up_fuel_heap_length (lev : Nat) :
    ∀ (fuel : Nat) (d : HeapDict) (i : Nat),
      (push_up_fuel lev fuel d i).heap.length = d.heap.length := by
  intro fuel
  induction fuel with
  | zero => intro d i; rfl
  | succ n ih =>
    intro d i
    rw [push_up_fuel]
    split
    · dsimp only
      split
      · rfl
      · rw [ih, swap_heap_length]
    · rfl

theorem push_down_heap_length (d : HeapDict) (i : Nat) :
    (push_down d i).heap.length = d.heap.length := by
  rw [← push_down_run_eq]
  exact push_down_fuel_heap_length _ _ _ _

theorem push_up_heap_length (d : HeapDict) (i : Nat) :
    (push_up d i).heap.length = d.heap.length := by
  rw [← push_up_run_eq]
  unfold push_up_run
  split
  · rfl
  · dsimp only
    split
    · rw [push_up_fuel_heap_length, swap_heap_length]
    · exact push_up_fuel_heap_length _ _ _ _

/-- Correctness of `_push_down(i)` over the whole heap: if every pair whose
ancestor is not `i` holds, the repaired heap satisfies the full min-max
invariant. -/
theorem push_down_valid (d : HeapDict) (i : Nat)
    (E1 : ∀ a x, SAnc a x → x < d.heap.length → a ≠ i → rel d a x) :
    Valid (push_down d i) := by
  have hconcl := push_down_fuel_valid (get_level i) d.heap.length d i (by omega) rfl
    (fun a x hax hxl _ hai => E1 a x hax hxl hai)
  rw [← push_down_run_eq]
  unfold push_down_run
  intro a x hax hxl
  rw [push_down_fuel_heap_length] at hxl
  by_cases hia : InSub i a
  · exact hconcl.1 a x hax hxl hia
  · have hva := hconcl.2.1 a hia
    have hane : a ≠ i := fun h => hia (by rw [h]; exact InSub.self i)
    by_cases hix : InSub i x
    · obtain ⟨y, hiy, hyl, hvx⟩ := hconcl.2.2 x hix hxl
      have hay : SAnc a y := by
        have hai : SAnc a i := InSub.of_sanc_of_not_insub hix hax hia
        rcases hiy with rfl | hiy
        · exact hai
        · exact hai.comp hiy
      exact rel_transport hva hvx (E1 a y hay hyl hane)
    · have hvx := hconcl.2.1 x hix
      exact rel_transport hva hvx (E1 a x hax hxl hane)

/-- The `_push_up(i); _push_down(i)` repair sequence used by `__setitem__`
on an existing key and by `__delitem__`: starting from a heap that is valid
except at pairs involving slot `i`, it restores the full invariant. -/
theorem repair_valid (d : HeapDict) (i : Nat) (hil : i < d.heap.length)
    (E1 : ∀ a x, SAnc a x → x < d.heap.length → a ≠ i → x ≠ i → rel d a x) :
    Valid (push_down (push_up d i) i) := by
  have h1 := push_up_valid d i hil E1
  apply push_down_valid
  intro a x hax hxl hai
  rw [push_up_heap_length] at hxl
  exact h1 a x hax hxl hai

/-- When slot `i` has no children inside the heap (in particular when it is
the freshly appended last slot), `_push_up(i)` alone restores the full
invariant. -/
theorem push_up_leaf_valid (d : HeapDict) (i : Nat) (hil : i < d.heap.length)
    (hleaf : d.heap.length ≤ 2 * i + 1)
    (E1 : ∀ a x, SAnc a x → x < d.heap.length → a ≠ i → x ≠ i → rel d a x) :
    Valid (push_up d i) := by
  have h1 := push_up_valid d i hil E1
  intro a x hax hxl
  rw [push_up_heap_length] at hxl
  by_cases hai : a = i
  · subst hai
    exact absurd hxl (by have := hax.lower; omega)
  · exact h1 a x hax hxl hai


theorem push_down_StateOk {d : HeapDict} {i : Nat} (hInv : Inv d)
    (hnd : (d.indexes.map Prod.fst).Nodup) :
    StateOk d (push_down d i) := by
  rw [← push_down_run_eq]
  exact push_down_fuel_StateOk _ _ _ _ hInv hnd

theorem push_up_StateOk {d : HeapDict} {i : Nat} (hInv : Inv d)
    (hnd : (d.indexes.map Prod.fst).Nodup) (hi : i < d.heap.length) :
    StateOk d (push_up d i) := by
  rw [← push_up_run_eq]
  unfold push_up_run
  split
  next h0 => exact StateOk.base hInv hnd
  next h0 =>
    dsimp only
    have hp : (i - 1) / 2 < d.heap.length := by omega
    split
    next hs =>
      have hswap : StateOk d (swap d i ((i - 1) / 2)) :=
        swap_StateOk hInv hnd hi hp (by omega)
      refine hswap.join (push_up_fuel_StateOk _ _ _ _ hswap.1 hswap.2.1 ?_)
      rw [swap_heap_length]
      omega
    next hs => exact push_up_fuel_StateOk _ _ _ _ hInv hnd hi

/-! ### Well-formed (reachable) states

`Wf` collects the structural invariants I1, I2 and I3' of the specification:
the three views are key-duplicate-free and agree on their key sets, the
index map is the exact inverse of the heap array, and the min-max heap
relation holds globally.  Every public mutator preserves it.
-/

theorem dlookup_of_mem_nodup {α : Type} {l : List (Nat × α)} {k : Nat} {v : α}
    (hnd : (l.map Prod.fst).Nodup) (hm : (k, v) ∈ l) : dlookup l k = some v := by
  induction l with
  | nil => cases hm
  | cons q rest ih =>
    rcases q with ⟨a, b⟩
    simp only [List.map_cons, List.nodup_cons] at hnd
    rcases List.mem_cons.mp hm with h | hm'
    · have ha : a = k := (congrArg Prod.fst h).symm
      have hb : b = v := (congrArg Prod.snd h).symm
      simp [dlookup, ha, hb]
    · have hk : k ∈ rest.map Prod.fst := List.mem_map.mpr ⟨(k, v), hm', rfl⟩
      have hne : a ≠ k := fun hh => hnd.1 (hh ▸ hk)
      simp [dlookup, hne, ih hnd.2 hm']

theorem mem_of_dlookup {α : Type} {l : List (Nat × α)} {k : Nat} {v : α}
    (h : dlookup l k = some v) : (k, v) ∈ l := by
  induction l with
  | nil => cases h
  | cons q rest ih =>
    rcases q with ⟨a, b⟩
    by_cases ha : a = k
    · subst ha
      have h' : (if a = a then some b else dlookup rest a) = some v := h
      rw [if_pos rfl] at h'
      rw [← Option.some_injective _ h']
      exact List.mem_cons_self _ _
    · have h' : (if a = k then some b else dlookup rest k) = some v := h
      rw [if_neg ha] at h'
      exact List.mem_cons_of_mem _ (ih h')

/-- With `Inv`, a key lies in the heap array iff it is a key of the index
map. -/
theorem Inv.mem_heap_iff {d : HeapDict} (hInv : Inv d) (k : Nat) :
    k ∈ d.heap ↔ k ∈ d.indexes.map Prod.fst := by
  rw [← dlookup_isSome_iff_mem]
  constructor
  · intro hk
    obtain ⟨n, hn⟩ := List.mem_iff_getElem?.mp hk
    exact ⟨n, (hInv k n).mpr hn⟩
  · rintro ⟨n, hn⟩
    exact List.getElem?_mem ((hInv k n).mp hn)

/-- `Inv` forces the heap array to be duplicate-free. -/
theorem Inv.heap_nodup {d : HeapDict} (hInv : Inv d) : d.heap.Nodup := by
  rw [List.nodup_iff_injective_get]
  intro i j hij
  have hi : d.heap[(i : Nat)]? = some (d.heap.get i) := by
    rw [List.getElem?_eq_getElem i.isLt, List.get_eq_getElem]
  have hj : d.heap[(j : Nat)]? = some (d.heap.get j) := by
    rw [List.getElem?_eq_getElem j.isLt, List.get_eq_getElem]
  rw [hij] at hi
  exact Fin.ext (hInv.inj hi hj)

/-- The structural invariants of a reachable `HeapDict` state. -/
def Wf (d : HeapDict) : Prop :=
  (d.priorities.map Prod.fst).Nodup ∧
  (d.indexes.map Prod.fst).Nodup ∧
  (∀ k, k ∈ d.priorities.map Prod.fst ↔ k ∈ d.heap) ∧
  Inv d ∧
  Valid d

theorem wf_empty : Wf ⟨[], [], []⟩ := by
  refine ⟨List.nodup_nil, List.nodup_nil, ?_, ?_, ?_⟩
  · intro k
    constructor
    · intro h
      cases h
    · intro h
      cases h
  · intro k n
    constructor
    · intro h
      cases h
    · intro h
      rw [List.getElem?_eq_none (by simp : ([] : List Nat).length ≤ n)] at h
      cases h
  · intro a x _ hxl
    exact absurd hxl (by simp)

theorem clear_wf (d : HeapDict) : Wf (clear d) := wf_empty

/-- The three views of a well-formed state have the same cardinality. -/
theorem Wf.lengths {d : HeapDict} (hWf : Wf d) :
    d.priorities.length = d.heap.length ∧ d.indexes.length = d.heap.length := by
  obtain ⟨hpnd, hind, hmem, hInv, _⟩ := hWf
  have hperm : (d.priorities.map Prod.fst).Perm d.heap :=
    (List.perm_ext_iff_of_nodup hpnd hInv.heap_nodup).mpr hmem
  have hperm2 : (d.indexes.map Prod.fst).Perm d.heap :=
    (List.perm_ext_iff_of_nodup hind hInv.heap_nodup).mpr
      (fun k => (hInv.mem_heap_iff k).symm)
  constructor
  · rw [← List.length_map d.priorities Prod.fst]
    exact hperm.length_eq
  · rw [← List.length_map d.indexes Prod.fst]
    exact hperm2.length_eq

/-! ### `__setitem__` preserves well-formedness -/

theorem setitem_eq_existing {d : HeapDict} {key : Nat} {i : Nat} (p : Int)
    (h : dlookup d.indexes key = some i) :
    setitem d key p =
      push_down (push_up ⟨dset d.priorities key p, d.heap, d.indexes⟩ i) i := by
  simp only [setitem, h]

theorem setitem_eq_new {d : HeapDict} {key : Nat} (p : Int)
    (h : dlookup d.indexes key = none) :
    setitem d key p =
      push_up ⟨dset d.priorities key p, d.heap ++ [key],
        dset d.indexes key d.heap.length⟩ d.heap.length := by
  simp only [setitem, h, List.length_append, List.length_singleton, Nat.add_sub_cancel]

theorem setitem_wf {d : HeapDict} (hWf : Wf d) (key : Nat) (p : Int) :
    Wf (setitem d key p) := by
  obtain ⟨hpnd, hind, hmem, hInv, hVal⟩ := hWf
  cases hidx : dlookup d.indexes key with
  | some i =>
    have hik : d.heap[i]? = some key := (hInv key i).mp hidx
    have hil : i < d.heap.length := by
      by_contra hc
      rw [List.getElem?_eq_none (by omega)] at hik
      cases hik
    have hInv0 : Inv (⟨dset d.priorities key p, d.heap, d.indexes⟩ : HeapDict) :=
      hInv
    have hnd0 : ((⟨dset d.priorities key p, d.heap, d.indexes⟩ : HeapDict).indexes.map
        Prod.fst).Nodup := hind
    have hval0 : ∀ m, m < d.heap.length → m ≠ i →
        hval (⟨dset d.priorities key p, d.heap, d.indexes⟩ : HeapDict) m = hval d m := by
      intro m hm hmi
      have hkm : d.heap[m]? = some (d.heap.getD m 0) := getElem?_of_getD hm
      have hne : d.heap.getD m 0 ≠ key := by
        intro he
        exact hmi (hInv.inj (he ▸ hkm) hik)
      show (dlookup (dset d.priorities key p) (d.heap.getD m 0)).getD 0
        = (dlookup d.priorities (d.heap.getD m 0)).getD 0
      rw [dlookup_dset_ne _ _ _ _ hne]
    have hE1 : ∀ a x, SAnc a x →
        x < (⟨dset d.priorities key p, d.heap, d.indexes⟩ : HeapDict).heap.length →
        a ≠ i → x ≠ i →
        rel (⟨dset d.priorities key p, d.heap, d.indexes⟩ : HeapDict) a x := by
      intro a x hax hxl hai hxi
      have hxl' : x < d.heap.length := hxl
      exact rel_transport (hval0 a (by have := hax.lt; omega) hai)
        (hval0 x hxl' hxi) (hVal a x hax hxl')
    have hSO1 := push_up_StateOk hInv0 hnd0 hil
    have hSO2 := push_down_StateOk (i := i) hSO1.1 hSO1.2.1
    have hSO := hSO1.join hSO2
    rw [setitem_eq_existing p hidx]
    refine ⟨?_, hSO.2.1, ?_, hSO.1, repair_valid _ i hil hE1⟩
    · rw [push_down_priorities, push_up_priorities]
      exact dset_nodup _ _ _ hpnd
    · intro k
      rw [push_down_priorities, push_up_priorities]
      rw [hSO.1.mem_heap_iff k, hSO.2.2.1 k]
      show k ∈ (dset d.priorities key p).map Prod.fst ↔ k ∈ d.indexes.map Prod.fst
      rw [← hInv.mem_heap_iff k, dset_mem_keys]
      constructor
      · rintro (rfl | hk)
        · exact List.getElem?_mem hik
        · exact (hmem k).mp hk
      · intro hk
        exact Or.inr ((hmem k).mpr hk)
  | none =>
    have hknoti : key ∉ d.indexes.map Prod.fst := (dlookup_eq_none_iff _ _).mp hidx
    have hknh : key ∉ d.heap := fun h => hknoti ((hInv.mem_heap_iff key).mp h)
    have hInv1 : Inv (⟨dset d.priorities key p, d.heap ++ [key],
        dset d.indexes key d.heap.length⟩ : HeapDict) := by
      intro k n
      show dlookup (dset d.indexes key d.heap.length) k = some n
        ↔ (d.heap ++ [key])[n]? = some k
      rcases eq_or_ne k key with rfl | hk
      · rw [dlookup_dset_self]
        constructor
        · intro h'
          have hn : n = d.heap.length := (Option.some_injective _ h').symm
          subst hn
          rw [List.getElem?_append_right (le_refl _)]
          simp
        · intro h'
          by_cases hn : n < d.heap.length
          · rw [List.getElem?_append, if_pos hn] at h'
            exact absurd (List.getElem?_mem h') hknh
          · rw [List.getElem?_append_right (by omega)] at h'
            by_cases hz : n - d.heap.length = 0
            · rw [show n = d.heap.length by omega]
            · rw [List.getElem?_eq_none (by simp; omega)] at h'
              cases h'
      · rw [dlookup_dset_ne _ _ _ _ hk, hInv k n]
        constructor
        · intro h'
          have hn : n < d.heap.length := by
            by_contra hc
            have hnone : d.heap[n]? = none := List.getElem?_eq_none (by omega)
            rw [hnone] at h'
            cases h'
          rw [List.getElem?_append, if_pos hn]
          exact h'
        · intro h'
          by_cases hn : n < d.heap.length
          · rwa [List.getElem?_append, if_pos hn] at h'
          · rw [List.getElem?_append_right (by omega)] at h'
            by_cases hz : n - d.heap.length = 0
            · rw [hz] at h'
              simp only [List.getElem?_cons_zero] at h'
              exact absurd (Option.some_injective _ h') (Ne.symm hk)
            · rw [List.getElem?_eq_none (by simp; omega)] at h'
              cases h'
    have hnd1 : ((⟨dset d.priorities key p, d.heap ++ [key],
        dset d.indexes key d.heap.length⟩ : HeapDict).indexes.map
        Prod.fst).Nodup := dset_nodup _ _ _ hind
    have hval1 : ∀ m, m < d.heap.length →
        hval (⟨dset d.priorities key p, d.heap ++ [key],
          dset d.indexes key d.heap.length⟩ : HeapDict) m = hval d m := by
      intro m hm
      have hgm : (d.heap ++ [key]).getD m 0 = d.heap.getD m 0 := by
        rw [List.getD_eq_getElem?_getD, List.getD_eq_getElem?_getD,
          List.getElem?_append, if_pos hm]
      show (dlookup (dset d.priorities key p) ((d.heap ++ [key]).getD m 0)).getD 0
        = (dlookup d.priorities (d.heap.getD m 0)).getD 0
      rw [hgm]
      have hkm : d.heap[m]? = some (d.heap.getD m 0) := getElem?_of_getD hm
      have hne : d.heap.getD m 0 ≠ key := fun he =>
        hknh (he ▸ List.getElem?_mem hkm)
      rw [dlookup_dset_ne _ _ _ _ hne]
    have hlen1 : ((⟨dset d.priorities key p, d.heap ++ [key],
        dset d.indexes key d.heap.length⟩ : HeapDict)).heap.length
        = d.heap.length + 1 := by
      show (d.heap ++ [key]).length = d.heap.length + 1
      rw [List.length_append, List.length_singleton]
    have hE1 : ∀ a x, SAnc a x →
        x < ((⟨dset d.priorities key p, d.heap ++ [key],
          dset d.indexes key d.heap.length⟩ : HeapDict)).heap.length →
        a ≠ d.heap.length → x ≠ d.heap.length →
        rel (⟨dset d.priorities key p, d.heap ++ [key],
          dset d.indexes key d.heap.length⟩ : HeapDict) a x := by
      intro a x hax hxl hai hxi
      rw [hlen1] at hxl
      have hxl' : x < d.heap.length := by omega
      exact rel_transport (hval1 a (by have := hax.lt; omega)) (hval1 x hxl')
        (hVal a x hax hxl')
    have hil1 : d.heap.length < (⟨dset d.priorities key p, d.heap ++ [key],
        dset d.indexes key d.heap.length⟩ : HeapDict).heap.length := by
      rw [hlen1]
      omega
    have hleaf1 : (⟨dset d.priorities key p, d.heap ++ [key],
        dset d.indexes key d.heap.length⟩ : HeapDict).heap.length
        ≤ 2 * d.heap.length + 1 := by
      rw [hlen1]
      omega
    have hVal1 : Valid (push_up (⟨dset d.priorities key p, d.heap ++ [key],
        dset d.indexes key d.heap.length⟩ : HeapDict) d.heap.length) :=
      push_up_leaf_valid _ _ hil1 hleaf1 hE1
    have hSO := push_up_StateOk hInv1 hnd1 hil1
    rw [setitem_eq_new p hidx]
    refine ⟨?_, hSO.2.1, ?_, hSO.1, hVal1⟩
    · rw [push_up_priorities]
      exact dset_nodup _ _ _ hpnd
    · intro k
      rw [push_up_priorities]
      rw [hSO.1.mem_heap_iff k, hSO.2.2.1 k]
      show k ∈ (dset d.priorities key p).map Prod.fst
        ↔ k ∈ (dset d.indexes key d.heap.length).map Prod.fst
      rw [dset_mem_keys, dset_mem_keys]
      constructor
      · rintro (rfl | hk)
        · exact Or.inl rfl
        · exact Or.inr ((hInv.mem_heap_iff k).mp ((hmem k).mp hk))
      · rintro (rfl | hk)
        · exact Or.inl rfl
        · exact Or.inr ((hmem k).mpr ((hInv.mem_heap_iff k).mpr hk))

/-! ### `__delitem__` preserves well-formedness -/

theorem delitem_eq_none {d : HeapDict} {key : Nat}
    (h : dlookup d.indexes key = none) : delitem d key = none := by
  simp only [delitem, h]

theorem delitem_eq_some {d : HeapDict} {key : Nat} {i : Nat}
    (h : dlookup d.indexes key = some i) :
    delitem d key = some (
      if i < d.heap.dropLast.length then
        push_down (push_up ⟨ddel d.priorities key,
          d.heap.dropLast.set i (d.heap.getLast?.getD 0),
          dset (ddel d.indexes key) (d.heap.getLast?.getD 0) i⟩ i) i
      else ⟨ddel d.priorities key, d.heap.dropLast, ddel d.indexes key⟩) := by
  simp only [delitem, h]
  split
  · rfl
  · rfl

theorem delitem_wf {d : HeapDict} (hWf : Wf d) {key : Nat} {d' : HeapDict}
    (h : delitem d key = some d') : Wf d' := by
  obtain ⟨hpnd, hind, hmem, hInv, hVal⟩ := hWf
  cases hidx : dlookup d.indexes key with
  | none =>
    rw [delitem_eq_none hidx] at h
    cases h
  | some i =>
    rw [delitem_eq_some hidx] at h
    have hd' := (Option.some_injective _ h).symm
    have hik : d.heap[i]? = some key := (hInv key i).mp hidx
    have hil : i < d.heap.length := by
      by_contra hc
      have hnone : d.heap[i]? = none := List.getElem?_eq_none (by omega)
      rw [hnone] at hik
      cases hik
    have hek : d.heap[d.heap.length - 1]? = some (d.heap.getLast?.getD 0) := by
      rw [List.getLast?_eq_getElem?, List.getElem?_eq_getElem (by omega)]
      rfl
    have hdropl : d.heap.dropLast.length = d.heap.length - 1 := List.length_dropLast _
    have hdrop : ∀ n : Nat,
        d.heap.dropLast[n]? = if n < d.heap.length - 1 then d.heap[n]? else none := by
      intro n
      rw [List.dropLast_eq_take, List.getElem?_take]
    by_cases hcase : i < d.heap.dropLast.length
    · rw [if_pos hcase] at hd'
      rw [hdropl] at hcase
      have hkek : key ≠ d.heap.getLast?.getD 0 := by
        intro he
        have h2 := hek
        rw [← he] at h2
        have := hInv.inj hik h2
        omega
      have hh2 : ∀ n : Nat, (d.heap.dropLast.set i (d.heap.getLast?.getD 0))[n]? =
          if n = i then some (d.heap.getLast?.getD 0) else d.heap.dropLast[n]? := by
        intro n
        by_cases hni : n = i
        · rw [if_pos hni, hni, List.getElem?_set_self (by rw [hdropl]; omega)]
        · rw [if_neg hni, List.getElem?_set_ne (fun hh => hni hh.symm)]
      have hlen2 : (d.heap.dropLast.set i (d.heap.getLast?.getD 0)).length
          = d.heap.length - 1 := by
        rw [List.length_set, hdropl]
      have hInv2 : Inv (⟨ddel d.priorities key,
          d.heap.dropLast.set i (d.heap.getLast?.getD 0),
          dset (ddel d.indexes key) (d.heap.getLast?.getD 0) i⟩ : HeapDict) := by
        intro k n
        show dlookup (dset (ddel d.indexes key) (d.heap.getLast?.getD 0) i) k = some n
          ↔ (d.heap.dropLast.set i (d.heap.getLast?.getD 0))[n]? = some k
        rcases eq_or_ne k (d.heap.getLast?.getD 0) with rfl | hkek'
        · rw [dlookup_dset_self]
          constructor
          · intro h'
            have hn : n = i := (Option.some_injective _ h').symm
            subst hn
            rw [hh2, if_pos rfl]
          · intro h'
            rw [hh2] at h'
            by_cases hni : n = i
            · rw [hni]
            · rw [if_neg hni, hdrop] at h'
              by_cases hn1 : n < d.heap.length - 1
              · rw [if_pos hn1] at h'
                exact absurd (hInv.inj h' hek) (by omega)
              · rw [if_neg hn1] at h'
                cases h'
        · rw [dlookup_dset_ne _ _ _ _ hkek']
          rcases eq_or_ne k key with rfl | hkk
          · rw [dlookup_ddel_self]
            constructor
            · intro h'
              cases h'
            · intro h'
              rw [hh2] at h'
              by_cases hni : n = i
              · rw [if_pos hni] at h'
                exact absurd (Option.some_injective _ h').symm hkek'
              · rw [if_neg hni, hdrop] at h'
                by_cases hn1 : n < d.heap.length - 1
                · rw [if_pos hn1] at h'
                  exact absurd (hInv.inj h' hik) hni
                · rw [if_neg hn1] at h'
                  cases h'
          · rw [dlookup_ddel_ne _ _ _ hkk, hInv k n]
            constructor
            · intro h'
              have hn : n < d.heap.length := by
                by_contra hc
                have hnone : d.heap[n]? = none := List.getElem?_eq_none (by omega)
                rw [hnone] at h'
                cases h'
              have hni : n ≠ i := fun hh => hkk (by
                rw [hh] at h'
                exact (Option.some_injective _ (hik.symm.trans h')).symm)
              have hn1 : n ≠ d.heap.length - 1 := fun hh => hkek' (by
                rw [hh] at h'
                exact (Option.some_injective _ (hek.symm.trans h')).symm)
              rw [hh2, if_neg hni, hdrop, if_pos (by omega)]
              exact h'
            · intro h'
              rw [hh2] at h'
              by_cases hni : n = i
              · rw [if_pos hni] at h'
                exact absurd (Option.some_injective _ h').symm hkek'
              · rw [if_neg hni, hdrop] at h'
                by_cases hn1 : n < d.heap.length - 1
                · rw [if_pos hn1] at h'
                  exact h'
                · rw [if_neg hn1] at h'
                  cases h'
      have hnd2 : (((⟨ddel d.priorities key,
          d.heap.dropLast.set i (d.heap.getLast?.getD 0),
          dset (ddel d.indexes key) (d.heap.getLast?.getD 0) i⟩ : HeapDict)).indexes.map
          Prod.fst).Nodup := dset_nodup _ _ _ (ddel_nodup _ _ hind)
      have hval2 : ∀ m, m < d.heap.length - 1 → m ≠ i →
          hval (⟨ddel d.priorities key,
            d.heap.dropLast.set i (d.heap.getLast?.getD 0),
            dset (ddel d.indexes key) (d.heap.getLast?.getD 0) i⟩ : HeapDict) m
          = hval d m := by
        intro m hm hmi
        have hg2 : (d.heap.dropLast.set i (d.heap.getLast?.getD 0))[m]? = d.heap[m]? := by
          rw [hh2, if_neg hmi, hdrop, if_pos hm]
        have hkm : d.heap[m]? = some (d.heap.getD m 0) := getElem?_of_getD (by omega)
        have hne : d.heap.getD m 0 ≠ key := fun he => hmi (hInv.inj (he ▸ hkm) hik)
        show (dlookup (ddel d.priorities key)
            ((d.heap.dropLast.set i (d.heap.getLast?.getD 0)).getD m 0)).getD 0
          = (dlookup d.priorities (d.heap.getD m 0)).getD 0
        rw [List.getD_eq_getElem?_getD, hg2, ← List.getD_eq_getElem?_getD]
        rw [dlookup_ddel_ne _ _ _ hne]
      have hE1 : ∀ a x, SAnc a x →
          x < ((⟨ddel d.priorities key,
            d.heap.dropLast.set i (d.heap.getLast?.getD 0),
            dset (ddel d.indexes key) (d.heap.getLast?.getD 0) i⟩ : HeapDict)).heap.length →
          a ≠ i → x ≠ i →
          rel (⟨ddel d.priorities key,
            d.heap.dropLast.set i (d.heap.getLast?.getD 0),
            dset (ddel d.indexes key) (d.heap.getLast?.getD 0) i⟩ : HeapDict) a x := by
        intro a x hax hxl hai hxi
        have hxl' : x < d.heap.length - 1 := by
          have hb : x < (d.heap.dropLast.set i (d.heap.getLast?.getD 0)).length := hxl
          rw [hlen2] at hb
          exact hb
        exact rel_transport (hval2 a (by have := hax.lt; omega) hai)
          (hval2 x hxl' hxi) (hVal a x hax (by omega))
      have hil2 : i < ((⟨ddel d.priorities key,
          d.heap.dropLast.set i (d.heap.getLast?.getD 0),
          dset (ddel d.indexes key) (d.heap.getLast?.getD 0) i⟩ : HeapDict)).heap.length := by
        show i < (d.heap.dropLast.set i (d.heap.getLast?.getD 0)).length
        rw [hlen2]
        omega
      have hVal2 := repair_valid _ i hil2 hE1
      have hSO1 := push_up_StateOk hInv2 hnd2 hil2
      have hSO2 := push_down_StateOk (i := i) hSO1.1 hSO1.2.1
      have hSO := hSO1.join hSO2
      rw [hd']
      refine ⟨?_, hSO.2.1, ?_, hSO.1, hVal2⟩
      · rw [push_down_priorities, push_up_priorities]
        exact ddel_nodup _ _ hpnd
      · intro k
        rw [push_down_priorities, push_up_priorities]
        rw [hSO.1.mem_heap_iff k, hSO.2.2.1 k]
        show k ∈ (ddel d.priorities key).map Prod.fst
          ↔ k ∈ (dset (ddel d.indexes key) (d.heap.getLast?.getD 0) i).map Prod.fst
        rw [ddel_map_fst, dset_mem_keys, ddel_map_fst, List.mem_filter, List.mem_filter]
        simp only [bne_iff_ne, ne_eq, decide_eq_true_eq]
        constructor
        · rintro ⟨hk1, hk2⟩
          exact Or.inr ⟨(hInv.mem_heap_iff k).mp ((hmem k).mp hk1), hk2⟩
        · rintro (rfl | ⟨hk1, hk2⟩)
          · exact ⟨(hmem _).mpr (List.getElem?_mem hek), Ne.symm hkek⟩
          · exact ⟨(hmem k).mpr ((hInv.mem_heap_iff k).mpr hk1), hk2⟩
    · rw [if_neg hcase] at hd'
      rw [hdropl] at hcase
      have hieq : i = d.heap.length - 1 := by omega
      have hInv3 : Inv (⟨ddel d.priorities key, d.heap.dropLast,
          ddel d.indexes key⟩ : HeapDict) := by
        intro k n
        show dlookup (ddel d.indexes key) k = some n ↔ d.heap.dropLast[n]? = some k
        rcases eq_or_ne k key with rfl | hkk
        · rw [dlookup_ddel_self]
          constructor
          · intro h'
            cases h'
          · intro h'
            rw [hdrop] at h'
            by_cases hn1 : n < d.heap.length - 1
            · rw [if_pos hn1] at h'
              have := hInv.inj h' hik
              omega
            · rw [if_neg hn1] at h'
              cases h'
        · rw [dlookup_ddel_ne _ _ _ hkk, hInv k n]
          constructor
          · intro h'
            have hn : n < d.heap.length := by
              by_contra hc
              have hnone : d.heap[n]? = none := List.getElem?_eq_none (by omega)
              rw [hnone] at h'
              cases h'
            have hni : n ≠ i := fun hh => hkk (by
              rw [hh] at h'
              exact (Option.some_injective _ (hik.symm.trans h')).symm)
            rw [hdrop, if_pos (by omega)]
            exact h'
          · intro h'
            rw [hdrop] at h'
            by_cases hn1 : n < d.heap.length - 1
            · rw [if_pos hn1] at h'
              exact h'
            · rw [if_neg hn1] at h'
              cases h'
      have hval3 : ∀ m, m < d.heap.length - 1 →
          hval (⟨ddel d.priorities key, d.heap.dropLast,
            ddel d.indexes key⟩ : HeapDict) m = hval d m := by
        intro m hm
        have hg3 : d.heap.dropLast[m]? = d.heap[m]? := by
          rw [hdrop, if_pos hm]
        have hkm : d.heap[m]? = some (d.heap.getD m 0) := getElem?_of_getD (by omega)
        have hne : d.heap.getD m 0 ≠ key := fun he => (by
          have := hInv.inj (he ▸ hkm) hik
          omega : False)
        show (dlookup (ddel d.priorities key) (d.heap.dropLast.getD m 0)).getD 0
          = (dlookup d.priorities (d.heap.getD m 0)).getD 0
        rw [List.getD_eq_getElem?_getD, hg3, ← List.getD_eq_getElem?_getD]
        rw [dlookup_ddel_ne _ _ _ hne]
      have hVal3 : Valid (⟨ddel d.priorities key, d.heap.dropLast,
          ddel d.indexes key⟩ : HeapDict) := by
        intro a x hax hxl
        have hxl' : x < d.heap.length - 1 := by
          have hb : x < d.heap.dropLast.length := hxl
          rw [hdropl] at hb
          exact hb
        exact rel_transport (hval3 a (by have := hax.lt; omega)) (hval3 x hxl')
          (hVal a x hax (by omega))
      rw [hd']
      refine ⟨ddel_nodup _ _ hpnd, ddel_nodup _ _ hind, ?_, hInv3, hVal3⟩
      intro k
      show k ∈ (ddel d.priorities key).map Prod.fst ↔ k ∈ d.heap.dropLast
      rw [ddel_map_fst, List.mem_filter]
      simp only [bne_iff_ne, ne_eq, decide_eq_true_eq]
      constructor
      · rintro ⟨hk1, hk2⟩
        obtain ⟨n, hn⟩ := List.mem_iff_getElem?.mp ((hmem k).mp hk1)
        have hnlen : n < d.heap.length := by
          by_contra hc
          have hnone : d.heap[n]? = none := List.getElem?_eq_none (by omega)
          rw [hnone] at hn
          cases hn
        have hni : n ≠ i := fun hh => hk2 (by
          rw [hh] at hn
          exact (Option.some_injective _ (hik.symm.trans hn)).symm)
        apply List.getElem?_mem (n := n)
        rw [hdrop, if_pos (by omega)]
        exact hn
      · intro hk
        obtain ⟨n, hn⟩ := List.mem_iff_getElem?.mp hk
        rw [hdrop] at hn
        by_cases hn1 : n < d.heap.length - 1
        · rw [if_pos hn1] at hn
          have hkm : k ∈ d.heap := List.getElem?_mem hn
          refine ⟨(hmem k).mpr hkm, fun hh => ?_⟩
          rw [hh] at hn
          have := hInv.inj hn hik
          omega
        · rw [if_neg hn1] at hn
          cases hn

/-! ### Construction (`__init__`) produces a well-formed state -/

theorem foldl_dset_nodup (pairs : List (Nat × Int)) :
    ∀ acc : List (Nat × Int), (acc.map Prod.fst).Nodup →
    ((pairs.foldl (fun a kv => dset a kv.1 kv.2) acc).map Prod.fst).Nodup := by
  induction pairs with
  | nil =>
    intro acc h
    exact h
  | cons q rest ih =>
    intro acc h
    exact ih _ (dset_nodup _ _ _ h)

/-- Looking up a key in the inverted enumeration of a duplicate-free list
finds exactly the position of that key. -/
theorem dlookup_enum_swap : ∀ (l : List Nat) (off : Nat), l.Nodup →
    ∀ k n, dlookup ((List.enumFrom off l).map (fun p => (p.2, p.1))) k = some n
      ↔ (off ≤ n ∧ l[n - off]? = some k) := by
  intro l
  induction l with
  | nil =>
    intro off _ k n
    constructor
    · intro h
      cases h
    · rintro ⟨_, h⟩
      simp at h
  | cons a rest ih =>
    intro off hnd k n
    have he : List.enumFrom off (a :: rest) = (off, a) :: List.enumFrom (off + 1) rest := rfl
    rw [he]
    simp only [List.map_cons]
    by_cases hak : a = k
    · subst hak
      have hl : dlookup ((a, off) :: (List.enumFrom (off + 1) rest).map (fun p => (p.2, p.1))) a
          = some off := by
        show (if a = a then some off else _) = some off
        rw [if_pos rfl]
      rw [hl]
      constructor
      · intro h'
        have hn : n = off := (Option.some_injective _ h').symm
        subst hn
        refine ⟨le_refl _, ?_⟩
        rw [Nat.sub_self]
        simp
      · rintro ⟨h1, h2⟩
        rcases Nat.eq_or_lt_of_le h1 with heq | hlt
        · rw [← heq]
        · exfalso
          rw [show n - off = (n - off - 1) + 1 by omega] at h2
          simp only [List.getElem?_cons_succ] at h2
          exact (List.nodup_cons.mp hnd).1 (List.getElem?_mem h2)
    · have hl : dlookup ((a, off) :: (List.enumFrom (off + 1) rest).map (fun p => (p.2, p.1))) k
          = dlookup ((List.enumFrom (off + 1) rest).map (fun p => (p.2, p.1))) k := by
        show (if a = k then some off else _) = _
        rw [if_neg hak]
      rw [hl, ih (off + 1) (List.nodup_cons.mp hnd).2 k n]
      constructor
      · rintro ⟨h1, h2⟩
        refine ⟨by omega, ?_⟩
        rw [show n - off = (n - off - 1) + 1 by omega]
        simp only [List.getElem?_cons_succ]
        rw [show n - off - 1 = n - (off + 1) by omega]
        exact h2
      · rintro ⟨h1, h2⟩
        rcases Nat.eq_or_lt_of_le h1 with heq | hlt
        · rw [← heq, Nat.sub_self] at h2
          simp only [List.getElem?_cons_zero] at h2
          exact absurd (Option.some_injective _ h2) hak
        · refine ⟨by omega, ?_⟩
          rw [show n - off = (n - off - 1) + 1 by omega] at h2
          simp only [List.getElem?_cons_succ] at h2
          rw [show n - (off + 1) = n - off - 1 by omega]
          exact h2

/-- The state built by `__init__` before the heapify loop. -/
def initState (pairs : List (Nat × Int)) : HeapDict :=
  let priorities := pairs.foldl (fun acc kv => dset acc kv.1 kv.2) []
  let heap := priorities.map Prod.fst
  ⟨priorities, heap, heap.enum.map (fun p => (p.2, p.1))⟩

theorem fromPairs_eq_heapify (pairs : List (Nat × Int)) :
    fromPairs pairs = heapify (initState pairs) := rfl

theorem heapify_go_StateOk : ∀ (l : List Nat) (d : HeapDict), Inv d →
    (d.indexes.map Prod.fst).Nodup →
    StateOk d (l.foldl (fun acc i => push_down acc i) d) := by
  intro l
  induction l with
  | nil =>
    intro d hInv hnd
    exact StateOk.base hInv hnd
  | cons x xs ih =>
    intro d hInv hnd
    show StateOk d (xs.foldl (fun acc i => push_down acc i) (push_down d x))
    have h1 := push_down_StateOk (i := x) hInv hnd
    exact h1.join (ih _ h1.1 h1.2.1)

theorem heapify_StateOk {d : HeapDict} (hInv : Inv d)
    (hnd : (d.indexes.map Prod.fst).Nodup) : StateOk d (heapify d) :=
  heapify_go_StateOk _ d hInv hnd

/-- The bottom-up heapify loop: once every slot `≥ n` already dominates its
subtree, folding `push_down` over `n-1, …, 0` repairs the whole heap. -/
theorem heapify_go_valid : ∀ (n : Nat) (d : HeapDict),
    (∀ a x, SAnc a x → x < d.heap.length → n ≤ a → rel d a x) →
    ((List.range n).reverse.foldl (fun acc i => push_down acc i) d).heap.length
        = d.heap.length ∧
    (∀ a x, SAnc a x → x < d.heap.length →
      rel ((List.range n).reverse.foldl (fun acc i => push_down acc i) d) a x) := by
  intro n
  induction n with
  | zero =>
    intro d hpre
    exact ⟨rfl, fun a x hax hxl => hpre a x hax hxl (Nat.zero_le a)⟩
  | succ m ih =>
    intro d hpre
    have hrev : (List.range (m + 1)).reverse = m :: (List.range m).reverse := by
      rw [List.range_succ, List.reverse_append]
      rfl
    rw [hrev]
    simp only [List.foldl_cons]
    have hpdpre : PDPre d m := by
      intro a x hax hxl hia ham
      refine hpre a x hax hxl ?_
      rcases hia with rfl | hia
      · exact absurd rfl ham
      · have := hia.lt
        omega
    have hconcl := push_down_fuel_valid (get_level m) d.heap.length d m (by omega) rfl hpdpre
    have hpd : push_down d m = push_down_fuel (get_level m) d.heap.length d m :=
      (push_down_run_eq d m).symm
    have hlen1 : (push_down d m).heap.length = d.heap.length := push_down_heap_length d m
    have hnext : ∀ a x, SAnc a x → x < (push_down d m).heap.length → m ≤ a →
        rel (push_down d m) a x := by
      intro a x hax hxl ham
      rw [hlen1] at hxl
      rw [hpd]
      by_cases him : InSub m a
      · exact hconcl.1 a x hax hxl him
      · have ham' : a ≠ m := fun hh => him (by rw [hh]; exact InSub.self m)
        have hnx : ¬ InSub m x := by
          intro hx
          have hsam := InSub.of_sanc_of_not_insub hx hax him
          have := hsam.lt
          omega
        exact rel_transport (hconcl.2.1 a him) (hconcl.2.1 x hnx)
          (hpre a x hax hxl (by omega))
    obtain ⟨hlen2, hval2⟩ := ih (push_down d m) hnext
    refine ⟨by rw [hlen2, hlen1], ?_⟩
    intro a x hax hxl
    exact hval2 a x hax (by rw [hlen1]; omega)

theorem heapify_valid (d : HeapDict) :
    (heapify d).heap.length = d.heap.length ∧
    (∀ a x, SAnc a x → x < d.heap.length → rel (heapify d) a x) := by
  have hpre : ∀ a x, SAnc a x → x < d.heap.length → d.heap.length / 2 ≤ a →
      rel d a x := by
    intro a x hax hxl ha
    have := hax.lower
    omega
  exact heapify_go_valid (d.heap.length / 2) d hpre

theorem initState_Inv (pairs : List (Nat × Int)) : Inv (initState pairs) := by
  intro k n
  show dlookup ((List.enumFrom 0
      ((pairs.foldl (fun acc kv => dset acc kv.1 kv.2) []).map Prod.fst)).map
      (fun p => (p.2, p.1))) k = some n
    ↔ ((pairs.foldl (fun acc kv => dset acc kv.1 kv.2) []).map Prod.fst)[n]? = some k
  rw [dlookup_enum_swap _ 0 (foldl_dset_nodup pairs [] List.nodup_nil) k n]
  constructor
  · rintro ⟨_, h2⟩
    rw [Nat.sub_zero] at h2
    exact h2
  · intro h2
    exact ⟨Nat.zero_le n, by rw [Nat.sub_zero]; exact h2⟩

theorem initState_indexes_keys (pairs : List (Nat × Int)) :
    (initState pairs).indexes.map Prod.fst = (initState pairs).heap := by
  show (((pairs.foldl (fun acc kv => dset acc kv.1 kv.2) []).map
      Prod.fst).enum.map (fun p => (p.2, p.1))).map Prod.fst = _
  rw [List.map_map]
  have hc : (Prod.fst ∘ fun p : Nat × Nat => (p.2, p.1)) = Prod.snd := rfl
  rw [hc, List.enum_map_snd]
  rfl

theorem fromPairs_wf (pairs : List (Nat × Int)) : Wf (fromPairs pairs) := by
  have hpnd0 : (((initState pairs).priorities).map Prod.fst).Nodup :=
    foldl_dset_nodup pairs [] List.nodup_nil
  have hInv0 := initState_Inv pairs
  have hnd0 : ((initState pairs).indexes.map Prod.fst).Nodup := by
    rw [initState_indexes_keys]
    exact hpnd0
  have hSO := heapify_StateOk hInv0 hnd0
  have hv := heapify_valid (initState pairs)
  rw [fromPairs_eq_heapify]
  refine ⟨?_, hSO.2.1, ?_, hSO.1, ?_⟩
  · rw [heapify_priorities]
    exact hpnd0
  · intro k
    rw [heapify_priorities]
    rw [hSO.1.mem_heap_iff k, hSO.2.2.1 k, ← hInv0.mem_heap_iff k]
    show k ∈ ((initState pairs).heap : List Nat) ↔ _
    exact Iff.rfl
  · intro a x hax hxl
    have hxl' : x < (initState pairs).heap.length := by
      have hb := hv.1
      omega
    exact hv.2 a x hax hxl'

/-! ### All public mutators preserve well-formedness -/

theorem applyOp_wf {d : HeapDict} (hWf : Wf d) (op : Op) : Wf (applyOp d op) := by
  cases op with
  | set k p => exact setitem_wf hWf k p
  | del k =>
    show Wf ((delitem d k).getD d)
    cases hdl : delitem d k with
    | none => exact hWf
    | some d1 => exact delitem_wf hWf hdl
  | clr => exact clear_wf d
  | popMin =>
    show Wf (match pop_min_item d none with
      | .ok (_, d') => d'
      | .error _ => d)
    by_cases hlen : d.heap.length ≠ 0
    · have hpop : pop_min_item d none = .ok ((d.heap.getD 0 0, priOf d (d.heap.getD 0 0)),
          (delitem d (d.heap.getD 0 0)).getD d) := by
        unfold pop_min_item default_empty_behavior
        rw [if_pos hlen]
      rw [hpop]
      cases hdl : delitem d (d.heap.getD 0 0) with
      | none => exact hWf
      | some d1 => exact delitem_wf hWf hdl
    · have hpop : pop_min_item d none = .error () := by
        unfold pop_min_item default_empty_behavior
        rw [if_neg hlen]
      rw [hpop]
      exact hWf
  | popMax =>
    show Wf (match pop_max_item d none with
      | .ok (_, d') => d'
      | .error _ => d)
    by_cases hlen : d.heap.length ≠ 0
    · have hpop : pop_max_item d none
          = .ok ((d.heap.getD (get_max_index d) 0, priOf d (d.heap.getD (get_max_index d) 0)),
            (delitem d (d.heap.getD (get_max_index d) 0)).getD d) := by
        unfold pop_max_item default_empty_behavior
        rw [if_pos hlen]
      rw [hpop]
      cases hdl : delitem d (d.heap.getD (get_max_index d) 0) with
      | none => exact hWf
      | some d1 => exact delitem_wf hWf hdl
    · have hpop : pop_max_item d none = .error () := by
        unfold pop_max_item default_empty_behavior
        rw [if_neg hlen]
      rw [hpop]
      exact hWf
  | popLast =>
    show Wf (match popitem d with
      | .ok (_, d') => d'
      | .error _ => d)
    by_cases hlen : d.heap.length = 0
    · have hpop : popitem d = .error () := by
        unfold popitem
        rw [if_pos hlen]
      rw [hpop]
      exact hWf
    · have hpop : popitem d
          = .ok (((d.priorities.map Prod.fst).getLast?.getD 0,
              priOf d ((d.priorities.map Prod.fst).getLast?.getD 0)),
            (delitem d ((d.priorities.map Prod.fst).getLast?.getD 0)).getD d) := by
        unfold popitem
        rw [if_neg hlen]
      rw [hpop]
      cases hdl : delitem d ((d.priorities.map Prod.fst).getLast?.getD 0) with
      | none => exact hWf
      | some d1 => exact delitem_wf hWf hdl

theorem applyOps_wf {d : HeapDict} (hWf : Wf d) (ops : List Op) :
    Wf (applyOps d ops) := by
  induction ops generalizing d with
  | nil => exact hWf
  | cons op rest ih => exact ih (applyOp_wf hWf op)

/-! ### Extremal slots: the root holds the minimum, `_get_max_index` the
maximum -/

theorem rel_root {d : HeapDict} (hVal : Valid d) {i : Nat} (h1 : 1 ≤ i)
    (hi : i < d.heap.length) : hval d 0 ≤ hval d i := by
  have hrel := hVal 0 i (SAnc.zero h1) hi
  unfold rel at hrel
  rw [get_level_zero] at hrel
  simpa using hrel

theorem rel_max_level {d : HeapDict} (hVal : Valid d) {r i : Nat}
    (hr : get_level r = 1) (h : SAnc r i) (hi : i < d.heap.length) :
    hval d i ≤ hval d r := by
  have hrel := hVal r i h hi
  unfold rel at hrel
  rw [hr] at hrel
  simpa using hrel

/-- Every slot other than the root is `1`, `2`, or below one of them. -/
theorem anc_one_two : ∀ i, 1 ≤ i → i = 1 ∨ i = 2 ∨ SAnc 1 i ∨ SAnc 2 i := by
  intro i
  induction i using Nat.strong_induction_on with
  | _ i ih =>
    intro hi
    by_cases h3 : 3 ≤ i
    · have hp1 : 1 ≤ (i - 1) / 2 := by omega
      have hpl : (i - 1) / 2 < i := by omega
      have hpar : SAnc ((i - 1) / 2) i := SAnc.parent i (by omega)
      rcases ih _ hpl hp1 with h | h | h | h
      · exact Or.inr (Or.inr (Or.inl (h ▸ hpar)))
      · exact Or.inr (Or.inr (Or.inr (h ▸ hpar)))
      · exact Or.inr (Or.inr (Or.inl (h.comp hpar)))
      · exact Or.inr (Or.inr (Or.inr (h.comp hpar)))
    · have hb : i ≤ 2 := by omega
      interval_cases i
      · exact Or.inl rfl
      · exact Or.inr (Or.inl rfl)

theorem valid_min_at_zero {d : HeapDict} (hVal : Valid d) :
    ∀ i, i < d.heap.length → hval d 0 ≤ hval d i := by
  intro i hi
  by_cases h0 : i = 0
  · rw [h0]
  · exact rel_root hVal (by omega) hi

theorem get_max_index_lt {d : HeapDict} (hne : d.heap.length ≠ 0) :
    get_max_index d < d.heap.length := by
  unfold get_max_index
  split
  · next h =>
    have hm := select_mem d 1 1 [2]
    rcases List.mem_cons.mp hm with h' | h'
    · rw [h']
      omega
    · rcases List.mem_cons.mp h' with h'' | h''
      · rw [h'']
        omega
      · cases h''
  · omega

theorem valid_max_at_index {d : HeapDict} (hVal : Valid d) (hne : d.heap.length ≠ 0) :
    ∀ i, i < d.heap.length → hval d i ≤ hval d (get_max_index d) := by
  intro i hi
  unfold get_max_index
  by_cases h2 : 2 < d.heap.length
  · rw [if_pos h2]
    have hsel : ∀ y ∈ [1, 2], hval d y ≤ hval d (select d 1 [1, 2]) := by
      intro y hy
      have h0 := @select_pol_le d 1 1 [2] y hy
      have hd : decide ((1 : Nat) % 2 = 0) = false := rfl
      rw [hd] at h0
      exact h0
    have hg12 : select d 1 [1, 2] = 1 ∨ select d 1 [1, 2] = 2 := by
      have hm := select_mem d 1 1 [2]
      rcases List.mem_cons.mp hm with h' | h'
      · exact Or.inl h'
      · rcases List.mem_cons.mp h' with h'' | h''
        · exact Or.inr h''
        · cases h''
    have hglt : select d 1 [1, 2] < d.heap.length := by
      rcases hg12 with h | h <;> rw [h] <;> omega
    have hg1 : 1 ≤ select d 1 [1, 2] := by
      rcases hg12 with h | h <;> rw [h] <;> omega
    by_cases h0 : i = 0
    · rw [h0]
      exact rel_root hVal hg1 hglt
    · rcases anc_one_two i (by omega) with h | h | h | h
      · rw [h]
        exact hsel 1 (List.mem_cons_self 1 [2])
      · rw [h]
        exact hsel 2 (List.mem_cons_of_mem _ (List.mem_cons_self 2 []))
      · exact le_trans (rel_max_level hVal (show get_level 1 = 1 from rfl) h hi)
          (hsel 1 (List.mem_cons_self 1 [2]))
      · exact le_trans (rel_max_level hVal (show get_level 2 = 1 from rfl) h hi)
          (hsel 2 (List.mem_cons_of_mem _ (List.mem_cons_self 2 [])))
  · rw [if_neg h2]
    have hlen : d.heap.length = 1 ∨ d.heap.length = 2 := by omega
    rcases hlen with h1 | h1
    · have hi0 : i = 0 := by omega
      rw [hi0, h1]
    · rw [h1]
      have : i = 0 ∨ i = 1 := by omega
      rcases this with rfl | rfl
      · exact rel_root hVal (by omega) (by omega)
      · exact le_refl _

/-! ### The heap slot values enumerate the stored priorities -/

theorem range_map_getD (l : List Nat) :
    (List.range l.length).map (fun i => l.getD i 0) = l := by
  apply List.ext_getElem
  · rw [List.length_map, List.length_range]
  · intro i h1 h2
    rw [List.getElem_map, List.getElem_range i (by rw [List.length_range]; exact h2),
      List.getD_eq_getElem?_getD, List.getElem?_eq_getElem h2]
    rfl

theorem heap_map_hval (d : HeapDict) :
    (List.range d.heap.length).map (hval d) = d.heap.map (priOf d) := by
  conv_rhs => rw [← range_map_getD d.heap]
  rw [List.map_map]
  rfl

theorem map_fst_priOf {d : HeapDict} (hpnd : (d.priorities.map Prod.fst).Nodup) :
    (d.priorities.map Prod.fst).map (priOf d) = d.priorities.map Prod.snd := by
  rw [List.map_map]
  apply List.map_congr_left
  intro q hq
  show priOf d q.1 = q.2
  unfold priOf
  rw [dlookup_of_mem_nodup hpnd (show (q.1, q.2) ∈ d.priorities from hq)]
  rfl

/-- The multiset of heap slot values is the multiset of stored priorities. -/
theorem heap_vals_perm {d : HeapDict} (hWf : Wf d) :
    ((List.range d.heap.length).map (hval d)).Perm (d.priorities.map Prod.snd) := by
  obtain ⟨hpnd, _, hmem, hInv, _⟩ := hWf
  have hperm : d.heap.Perm (d.priorities.map Prod.fst) :=
    (List.perm_ext_iff_of_nodup hInv.heap_nodup hpnd).mpr (fun k => (hmem k).symm)
  rw [heap_map_hval, ← map_fst_priOf hpnd]
  exact hperm.map (priOf d)

/-- Every stored priority is a heap slot value. -/
theorem mem_pris_to_hval {d : HeapDict} (hWf : Wf d) {v : Int}
    (hv : v ∈ d.priorities.map Prod.snd) :
    ∃ j, j < d.heap.length ∧ hval d j = v := by
  have hperm := heap_vals_perm hWf
  have hv' : v ∈ (List.range d.heap.length).map (hval d) := hperm.mem_iff.mpr hv
  obtain ⟨j, hj, hjv⟩ := List.mem_map.mp hv'
  exact ⟨j, List.mem_range.mp hj, hjv⟩

/-! ### Deleting one entry from the ordered dict, as a permutation -/

theorem ddel_of_not_mem {α : Type} (l : List (Nat × α)) (k : Nat)
    (h : k ∉ l.map Prod.fst) : ddel l k = l := by
  unfold ddel
  apply List.filter_eq_self.mpr
  intro q hq
  rw [bne_iff_ne]
  exact fun hh => h (hh ▸ List.mem_map.mpr ⟨q, hq, rfl⟩)

theorem ddel_perm {α : Type} (l : List (Nat × α)) (k : Nat) (v : α)
    (hnd : (l.map Prod.fst).Nodup) (hl : dlookup l k = some v) :
    l.Perm ((k, v) :: ddel l k) := by
  induction l with
  | nil => cases hl
  | cons q rest ih =>
    rcases q with ⟨a, b⟩
    simp only [List.map_cons, List.nodup_cons] at hnd
    by_cases hak : a = k
    · subst hak
      have h' : (if a = a then some b else dlookup rest a) = some v := hl
      rw [if_pos rfl] at h'
      have hbv : b = v := Option.some_injective _ h'
      subst hbv
      have hdd : ddel ((a, b) :: rest) a = rest := by
        show List.filter (fun p => p.1 != a) ((a, b) :: rest) = rest
        rw [List.filter_cons]
        simp only [bne_self_eq_false, reduceIte]
        exact ddel_of_not_mem rest a hnd.1
      rw [hdd]
    · have h' : (if a = k then some b else dlookup rest k) = some v := hl
      rw [if_neg hak] at h'
      have hdd : ddel ((a, b) :: rest) k = (a, b) :: ddel rest k := by
        show List.filter (fun p => p.1 != k) ((a, b) :: rest) = _
        rw [List.filter_cons]
        simp only [bne_iff_ne, ne_eq, hak, not_false_iff, if_true, reduceIte]
        rfl
      rw [hdd]
      exact ((ih hnd.2 h').cons (a, b)).trans (List.Perm.swap (k, v) (a, b) (ddel rest k))

/-! ### What `__delitem__` does to the other views -/

theorem delitem_priorities {d : HeapDict} {key : Nat} {d' : HeapDict}
    (h : delitem d key = some d') : d'.priorities = ddel d.priorities key := by
  cases hidx : dlookup d.indexes key with
  | none =>
    rw [delitem_eq_none hidx] at h
    cases h
  | some i =>
    rw [delitem_eq_some hidx] at h
    have hd' := (Option.some_injective _ h).symm
    by_cases hcase : i < d.heap.dropLast.length
    · rw [if_pos hcase] at hd'
      rw [hd', push_down_priorities, push_up_priorities]
    · rw [if_neg hcase] at hd'
      rw [hd']

theorem delitem_heap_length {d : HeapDict} {key : Nat} {d' : HeapDict}
    (h : delitem d key = some d') : d'.heap.length = d.heap.length - 1 := by
  cases hidx : dlookup d.indexes key with
  | none =>
    rw [delitem_eq_none hidx] at h
    cases h
  | some i =>
    rw [delitem_eq_some hidx] at h
    have hd' := (Option.some_injective _ h).symm
    by_cases hcase : i < d.heap.dropLast.length
    · rw [if_pos hcase] at hd'
      rw [hd', push_down_heap_length, push_up_heap_length]
      show (d.heap.dropLast.set i (d.heap.getLast?.getD 0)).length = _
      rw [List.length_set, List.length_dropLast]
    · rw [if_neg hcase] at hd'
      rw [hd']
      show d.heap.dropLast.length = _
      rw [List.length_dropLast]

/-! ### One extraction step, with its effect on the stored priorities -/

theorem pop_min_step {d : HeapDict} (hWf : Wf d) (hne : d.heap.length ≠ 0) :
    ∃ d1 : HeapDict,
      pop_min_item d none = .ok ((d.heap.getD 0 0, hval d 0), d1) ∧
      Wf d1 ∧
      d1.heap.length = d.heap.length - 1 ∧
      (d.priorities.map Prod.snd).Perm (hval d 0 :: d1.priorities.map Prod.snd) ∧
      (∀ v ∈ d.priorities.map Prod.snd, hval d 0 ≤ v) := by
  have hInv := hWf.2.2.2.1
  have hk0 : dlookup d.indexes (d.heap.getD 0 0) = some 0 := hInv.getD_self (by omega)
  cases hdl : delitem d (d.heap.getD 0 0) with
  | none =>
    rw [delitem_eq_some hk0] at hdl
    cases hdl
  | some d1 =>
    refine ⟨d1, ?_, delitem_wf hWf hdl, delitem_heap_length hdl, ?_, ?_⟩
    · show (if d.heap.length ≠ 0 then Except.ok
          ((d.heap.getD 0 0, priOf d (d.heap.getD 0 0)),
            (delitem d (d.heap.getD 0 0)).getD d)
        else _) = _
      rw [if_pos hne, hdl]
      rfl
    · have hpri1 := delitem_priorities hdl
      have hkmem : d.heap.getD 0 0 ∈ d.heap :=
        List.getElem?_mem (getElem?_of_getD (by omega))
      have hkp : d.heap.getD 0 0 ∈ d.priorities.map Prod.fst := (hWf.2.2.1 _).mpr hkmem
      obtain ⟨v, hv⟩ := (dlookup_isSome_iff_mem _ _).mpr hkp
      have hveq : hval d 0 = v := by
        show (dlookup d.priorities (d.heap.getD 0 0)).getD 0 = v
        rw [hv]
        rfl
      have hperm := ddel_perm d.priorities (d.heap.getD 0 0) v hWf.1 hv
      rw [hpri1, hveq]
      exact hperm.map Prod.snd
    · intro v hv
      obtain ⟨j, hj, hjv⟩ := mem_pris_to_hval hWf hv
      rw [← hjv]
      exact valid_min_at_zero hWf.2.2.2.2 j hj

theorem pop_max_step {d : HeapDict} (hWf : Wf d) (hne : d.heap.length ≠ 0) :
    ∃ d1 : HeapDict,
      pop_max_item d none
        = .ok ((d.heap.getD (get_max_index d) 0, hval d (get_max_index d)), d1) ∧
      Wf d1 ∧
      d1.heap.length = d.heap.length - 1 ∧
      (d.priorities.map Prod.snd).Perm
        (hval d (get_max_index d) :: d1.priorities.map Prod.snd) ∧
      (∀ v ∈ d.priorities.map Prod.snd, v ≤ hval d (get_max_index d)) := by
  have hInv := hWf.2.2.2.1
  have hgl : get_max_index d < d.heap.length := get_max_index_lt hne
  have hk0 : dlookup d.indexes (d.heap.getD (get_max_index d) 0) = some (get_max_index d) :=
    hInv.getD_self hgl
  cases hdl : delitem d (d.heap.getD (get_max_index d) 0) with
  | none =>
    rw [delitem_eq_some hk0] at hdl
    cases hdl
  | some d1 =>
    refine ⟨d1, ?_, delitem_wf hWf hdl, delitem_heap_length hdl, ?_, ?_⟩
    · show (if d.heap.length ≠ 0 then Except.ok
          ((d.heap.getD (get_max_index d) 0, priOf d (d.heap.getD (get_max_index d) 0)),
            (delitem d (d.heap.getD (get_max_index d) 0)).getD d)
        else _) = _
      rw [if_pos hne, hdl]
      rfl
    · have hpri1 := delitem_priorities hdl
      have hkmem : d.heap.getD (get_max_index d) 0 ∈ d.heap :=
        List.getElem?_mem (getElem?_of_getD hgl)
      have hkp : d.heap.getD (get_max_index d) 0 ∈ d.priorities.map Prod.fst :=
        (hWf.2.2.1 _).mpr hkmem
      obtain ⟨v, hv⟩ := (dlookup_isSome_iff_mem _ _).mpr hkp
      have hveq : hval d (get_max_index d) = v := by
        show (dlookup d.priorities (d.heap.getD (get_max_index d) 0)).getD 0 = v
        rw [hv]
        rfl
      have hperm := ddel_perm d.priorities (d.heap.getD (get_max_index d) 0) v hWf.1 hv
      rw [hpri1, hveq]
      exact hperm.map Prod.snd
    · intro v hv
      obtain ⟨j, hj, hjv⟩ := mem_pris_to_hval hWf hv
      rw [← hjv]
      exact valid_max_at_index hWf.2.2.2.2 hne j hj

/-! ### Sorted-list bookkeeping for extraction sequences -/

theorem sort_cons_min {vals vals1 : List Int} {m : Int}
    (hperm : vals.Perm (m :: vals1)) (hmin : ∀ v ∈ vals, m ≤ v) :
    List.insertionSort (fun a b => a ≤ b) vals
      = m :: List.insertionSort (fun a b => a ≤ b) vals1 := by
  have hp : (List.insertionSort (fun a b => a ≤ b) vals).Perm
      (m :: List.insertionSort (fun a b => a ≤ b) vals1) :=
    (List.perm_insertionSort _ vals).trans
      (hperm.trans ((List.perm_insertionSort _ vals1).symm.cons m))
  have hs2 : (m :: List.insertionSort (fun a b => a ≤ b) vals1).Sorted
      (fun a b => a ≤ b) := by
    rw [List.sorted_cons]
    refine ⟨?_, List.sorted_insertionSort _ vals1⟩
    intro b hb
    have hb1 : b ∈ vals1 := (List.perm_insertionSort _ vals1).mem_iff.mp hb
    exact hmin b (hperm.mem_iff.mpr (List.mem_cons_of_mem m hb1))
  exact List.eq_of_perm_of_sorted hp (List.sorted_insertionSort _ vals) hs2

theorem sort_append_max {vals vals1 : List Int} {m : Int}
    (hperm : vals.Perm (m :: vals1)) (hmax : ∀ v ∈ vals, v ≤ m) :
    List.insertionSort (fun a b => a ≤ b) vals
      = List.insertionSort (fun a b => a ≤ b) vals1 ++ [m] := by
  have hp : (List.insertionSort (fun a b => a ≤ b) vals).Perm
      (List.insertionSort (fun a b => a ≤ b) vals1 ++ [m]) :=
    (List.perm_insertionSort _ vals).trans
      (hperm.trans (((List.perm_insertionSort _ vals1).symm.cons m).trans
        (List.perm_append_singleton m _).symm))
  have hs2 : (List.insertionSort (fun a b => a ≤ b) vals1 ++ [m]).Sorted
      (fun a b => a ≤ b) := by
    rw [List.Sorted, List.pairwise_append]
    refine ⟨List.sorted_insertionSort _ vals1, List.pairwise_singleton _ m, ?_⟩
    intro a ha b hb
    have hb' : b = m := by simpa using hb
    rw [hb']
    exact hmax a (hperm.mem_iff.mpr
      (List.mem_cons_of_mem m ((List.perm_insertionSort _ vals1).mem_iff.mp ha)))
  exact List.eq_of_perm_of_sorted hp (List.sorted_insertionSort _ vals) hs2

/-! ### Extraction sequences -/

/-- Priorities returned by `n` successive `pop_min_item` calls. -/
def popMinPris : Nat → HeapDict → List Int
  | 0, _ => []
  | n + 1, d =>
    match pop_min_item d none with
    | .ok (kp, d') => kp.2 :: popMinPris n d'
    | .error _ => []

/-- Priorities returned by `n` successive `pop_max_item` calls. -/
def popMaxPris : Nat → HeapDict → List Int
  | 0, _ => []
  | n + 1, d =>
    match pop_max_item d none with
    | .ok (kp, d') => kp.2 :: popMaxPris n d'
    | .error _ => []

theorem popMinPris_eq_sort : ∀ (n : Nat) (d : HeapDict), Wf d → n = d.heap.length →
    popMinPris n d
      = List.insertionSort (fun a b => a ≤ b) (d.priorities.map Prod.snd) := by
  intro n
  induction n with
  | zero =>
    intro d hWf hn
    have hpl : d.priorities.length = 0 := by
      have := hWf.lengths.1
      omega
    have hpe : d.priorities = [] := List.length_eq_zero.mp hpl
    rw [hpe]
    rfl
  | succ m ih =>
    intro d hWf hn
    obtain ⟨d1, hpop, hWf1, hlen1, hperm, hmin⟩ := pop_min_step hWf (by omega)
    rw [popMinPris, hpop]
    show hval d 0 :: popMinPris m d1 = _
    rw [ih d1 hWf1 (by omega)]
    exact (sort_cons_min hperm hmin).symm

theorem popMaxPris_eq_sort : ∀ (n : Nat) (d : HeapDict), Wf d → n = d.heap.length →
    popMaxPris n d
      = (List.insertionSort (fun a b => a ≤ b) (d.priorities.map Prod.snd)).reverse := by
  intro n
  induction n with
  | zero =>
    intro d hWf hn
    have hpl : d.priorities.length = 0 := by
      have := hWf.lengths.1
      omega
    have hpe : d.priorities = [] := List.length_eq_zero.mp hpl
    rw [hpe]
    rfl
  | succ m ih =>
    intro d hWf hn
    obtain ⟨d1, hpop, hWf1, hlen1, hperm, hmax⟩ := pop_max_step hWf (by omega)
    rw [popMaxPris, hpop]
    show hval d (get_max_index d) :: popMaxPris m d1 = _
    rw [ih d1 hWf1 (by omega), sort_append_max hperm hmax, List.reverse_append]
    rfl

theorem popMin_applyOps_empty : ∀ (n : Nat) (d : HeapDict), Wf d → n = d.heap.length →
    (applyOps d (List.replicate n Op.popMin)).heap.length = 0 := by
  intro n
  induction n with
  | zero =>
    intro d _ hn
    exact hn.symm
  | succ m ih =>
    intro d hWf hn
    obtain ⟨d1, hpop, hWf1, hlen1, _, _⟩ := pop_min_step hWf (by omega)
    have hstep : applyOp d Op.popMin = d1 := by
      show (match pop_min_item d none with
        | .ok (_, d') => d'
        | .error _ => d) = d1
      rw [hpop]
    rw [List.replicate_succ]
    show (applyOps (applyOp d Op.popMin) (List.replicate m Op.popMin)).heap.length = 0
    rw [hstep]
    exact ih d1 hWf1 (by omega)

theorem popMax_applyOps_empty : ∀ (n : Nat) (d : HeapDict), Wf d → n = d.heap.length →
    (applyOps d (List.replicate n Op.popMax)).heap.length = 0 := by
  intro n
  induction n with
  | zero =>
    intro d _ hn
    exact hn.symm
  | succ m ih =>
    intro d hWf hn
    obtain ⟨d1, hpop, hWf1, hlen1, _, _⟩ := pop_max_step hWf (by omega)
    have hstep : applyOp d Op.popMax = d1 := by
      show (match pop_max_item d none with
        | .ok (_, d') => d'
        | .error _ => d) = d1
      rw [hpop]
    rw [List.replicate_succ]
    show (applyOps (applyOp d Op.popMax) (List.replicate m Op.popMax)).heap.length = 0
    rw [hstep]
    exact ih d1 hWf1 (by omega)

/-- One interleaving of `pop_min_item`/`pop_max_item` calls (`true` pops the
minimum): the priorities returned by the min-pops and by the max-pops, in
call order. -/
def interleavePris : List Bool → HeapDict → List Int × List Int
  | [], _ => ([], [])
  | b :: rest, d =>
    if b then
      match pop_min_item d none with
      | .ok (kp, d') => (kp.2 :: (interleavePris rest d').1, (interleavePris rest d').2)
      | .error _ => ([], [])
    else
      match pop_max_item d none with
      | .ok (kp, d') => ((interleavePris rest d').1, kp.2 :: (interleavePris rest d').2)
      | .error _ => ([], [])

theorem interleave_sorted : ∀ (flags : List Bool) (d : HeapDict), Wf d →
    flags.length = d.heap.length →
    (interleavePris flags d).1 ++ (interleavePris flags d).2.reverse
      = List.insertionSort (fun a b => a ≤ b) (d.priorities.map Prod.snd) := by
  intro flags
  induction flags with
  | nil =>
    intro d hWf hn
    have hpl : d.priorities.length = 0 := by
      have := hWf.lengths.1
      simp only [List.length_nil] at hn
      omega
    have hpe : d.priorities = [] := List.length_eq_zero.mp hpl
    rw [hpe]
    rfl
  | cons b rest ih =>
    intro d hWf hn
    simp only [List.length_cons] at hn
    have hne : d.heap.length ≠ 0 := by omega
    cases b with
    | true =>
      obtain ⟨d1, hpop, hWf1, hlen1, hperm, hmin⟩ := pop_min_step hWf hne
      have hrw : interleavePris (true :: rest) d
          = (hval d 0 :: (interleavePris rest d1).1, (interleavePris rest d1).2) := by
        show (match pop_min_item d none with
          | .ok (kp, d') =>
            (kp.2 :: (interleavePris rest d').1, (interleavePris rest d').2)
          | .error _ => ([], [])) = _
        rw [hpop]
      rw [hrw]
      show (hval d 0 :: (interleavePris rest d1).1)
          ++ (interleavePris rest d1).2.reverse = _
      rw [List.cons_append, ih d1 hWf1 (by omega)]
      exact (sort_cons_min hperm hmin).symm
    | false =>
      obtain ⟨d1, hpop, hWf1, hlen1, hperm, hmax⟩ := pop_max_step hWf hne
      have hrw : interleavePris (false :: rest) d
          = ((interleavePris rest d1).1,
             hval d (get_max_index d) :: (interleavePris rest d1).2) := by
        show (match pop_max_item d none with
          | .ok (kp, d') =>
            ((interleavePris rest d').1, kp.2 :: (interleavePris rest d').2)
          | .error _ => ([], [])) = _
        rw [hpop]
      rw [hrw]
      show (interleavePris rest d1).1
          ++ (hval d (get_max_index d) :: (interleavePris rest d1).2).reverse = _
      rw [List.reverse_cons, ← List.append_assoc, ih d1 hWf1 (by omega)]
      exact (sort_append_max hperm hmax).symm

/-! ### Construction from duplicate-free pairs keeps them verbatim -/

theorem dset_append_of_not_mem {α : Type} (l : List (Nat × α)) (k : Nat) (v : α)
    (h : k ∉ l.map Prod.fst) : dset l k v = l ++ [(k, v)] := by
  induction l with
  | nil => rfl
  | cons q rest ih =>
    rcases q with ⟨a, b⟩
    simp only [List.map_cons, List.mem_cons] at h
    push_neg at h
    show (if a = k then (k, v) :: rest else (a, b) :: dset rest k v)
      = ((a, b) :: rest) ++ [(k, v)]
    rw [if_neg (fun hh => h.1 hh.symm), ih h.2]
    rfl

theorem foldl_dset_fresh : ∀ (pairs : List (Nat × Int)) (acc : List (Nat × Int)),
    (∀ k, k ∈ pairs.map Prod.fst → k ∉ acc.map Prod.fst) →
    (pairs.map Prod.fst).Nodup →
    pairs.foldl (fun a kv => dset a kv.1 kv.2) acc = acc ++ pairs := by
  intro pairs
  induction pairs with
  | nil =>
    intro acc _ _
    simp
  | cons q rest ih =>
    intro acc hdis hnd
    rcases q with ⟨k, v⟩
    simp only [List.map_cons, List.nodup_cons] at hnd
    show rest.foldl (fun a kv => dset a kv.1 kv.2) (dset acc k v)
      = acc ++ (k, v) :: rest
    rw [dset_append_of_not_mem acc k v (hdis k (by simp))]
    rw [ih (acc ++ [(k, v)]) ?_ hnd.2]
    · rw [List.append_assoc]
      rfl
    · intro k' hk'
      rw [List.map_append]
      simp only [List.mem_append]
      rintro (h | h)
      · exact hdis k' (by simp [hk']) h
      · simp only [List.map_cons, List.map_nil, List.mem_singleton] at h
        exact hnd.1 (h ▸ hk')

theorem fromPairs_priorities_of_nodup (pairs : List (Nat × Int))
    (hnd : (pairs.map Prod.fst).Nodup) : (fromPairs pairs).priorities = pairs := by
  rw [fromPairs_priorities]
  have h := foldl_dset_fresh pairs [] (fun k _ => by simp) hnd
  simpa using h

/-! ### Deleting the most recently inserted key drops the last dict entry -/

theorem ddel_last {α : Type} {l : List (Nat × α)} {k : Nat} {v : α}
    (hnd : (l.map Prod.fst).Nodup) (hl : l.getLast? = some (k, v)) :
    ddel l k = l.dropLast := by
  have hne : l ≠ [] := by
    intro h
    rw [h] at hl
    cases hl
  have hsplit : l.dropLast ++ [l.getLast hne] = l := List.dropLast_append_getLast hne
  have hlast : l.getLast hne = (k, v) := by
    have h2 := List.getLast?_eq_getLast l hne
    rw [h2] at hl
    exact Option.some_injective _ hl
  have hknd : k ∉ l.dropLast.map Prod.fst := by
    intro hk
    have hkeys : l.map Prod.fst = l.dropLast.map Prod.fst ++ [k] := by
      conv_lhs => rw [← hsplit, hlast]
      rw [List.map_append]
      rfl
    rw [hkeys] at hnd
    rcases List.nodup_append.mp hnd with ⟨_, _, hdisj⟩
    exact hdisj hk (by simp)
  conv_lhs => rw [← hsplit, hlast]
  show List.filter (fun p => p.1 != k) (l.dropLast ++ [(k, v)]) = l.dropLast
  rw [List.filter_append]
  have h1 : List.filter (fun p : Nat × α => p.1 != k) l.dropLast = l.dropLast :=
    ddel_of_not_mem _ _ hknd
  rw [h1]
  simp [List.filter_cons]

/-! ## Claim theorems C1 – C5 -/

/-- C1 (amended): on every well-formed non-empty `HeapDict`, `popitem`
removes and returns the **most recently inserted** (key, priority) pair —
the last entry of the insertion-ordered `_priorities` dict — implemented as
a lookup of that key followed by its deletion.  (The frozen claim instead
said it returns an extremal entry, which a separate counterexample
refutes.) -/
theorem C1_popitem_last {d : HeapDict} (hWf : Wf d) (hne : d.heap.length ≠ 0) :
    ∃ (kp : Nat × Int) (dr : HeapDict),
      popitem d = .ok (kp, dr) ∧
      d.priorities.getLast? = some kp ∧
      dr.priorities = d.priorities.dropLast := by
  have hplne : d.priorities ≠ [] := by
    intro h
    have hl := hWf.lengths.1
    rw [h] at hl
    simp at hl
    omega
  have hkp : d.priorities.getLast? = some (d.priorities.getLast hplne) :=
    List.getLast?_eq_getLast _ hplne
  have hkmem : d.priorities.getLast hplne ∈ d.priorities := List.getLast_mem hplne
  have hlook : dlookup d.priorities (d.priorities.getLast hplne).1
      = some (d.priorities.getLast hplne).2 :=
    dlookup_of_mem_nodup hWf.1 hkmem
  have hkey : (d.priorities.map Prod.fst).getLast?.getD 0
      = (d.priorities.getLast hplne).1 := by
    rw [List.getLast?_map, hkp]
    rfl
  have hkidx : ∃ i, dlookup d.indexes (d.priorities.getLast hplne).1 = some i := by
    rw [dlookup_isSome_iff_mem]
    refine (hWf.2.2.2.1.mem_heap_iff _).mp ((hWf.2.2.1 _).mp ?_)
    exact List.mem_map.mpr ⟨_, hkmem, rfl⟩
  obtain ⟨i, hi⟩ := hkidx
  cases hdl : delitem d (d.priorities.getLast hplne).1 with
  | none =>
    rw [delitem_eq_some hi] at hdl
    cases hdl
  | some d1 =>
    refine ⟨d.priorities.getLast hplne, d1, ?_, hkp, ?_⟩
    · show (if d.heap.length = 0 then Except.error () else Except.ok
          (((d.priorities.map Prod.fst).getLast?.getD 0,
            priOf d ((d.priorities.map Prod.fst).getLast?.getD 0)),
          (delitem d ((d.priorities.map Prod.fst).getLast?.getD 0)).getD d)) = _
      rw [if_neg hne, hkey]
      have hpv : priOf d (d.priorities.getLast hplne).1
          = (d.priorities.getLast hplne).2 := by
        unfold priOf
        rw [hlook]
        rfl
      rw [hpv, hdl]
      rfl
    · rw [delitem_priorities hdl]
      exact ddel_last hWf.1 (by rw [hkp])

/-- Witness for C1 at a concrete three-element queue. -/
theorem C1_popitem_last_witness :
    ∃ (kp : Nat × Int) (dr : HeapDict),
      popitem (fromPairs [(0, 1), (1, 3), (2, 2)]) = .ok (kp, dr) ∧
      (fromPairs [(0, 1), (1, 3), (2, 2)]).priorities.getLast? = some kp ∧
      dr.priorities = (fromPairs [(0, 1), (1, 3), (2, 2)]).priorities.dropLast :=
  C1_popitem_last (fromPairs_wf [(0, 1), (1, 3), (2, 2)])
    (by rw [← fromPairs_run_eq]; decide)

/-- C2: after every sequence of `__setitem__` / `__delitem__` / `clear` /
pop operations on a constructed `HeapDict`, the structural invariants hold:
the priority dict, heap array and index dict have identical key sets and
cardinalities; the index dict is the exact inverse of the heap array in both
directions; and every slot is related to its parent per the parent's level
parity (even = min, odd = max) and to its grandparent per the grandparent's
(equal) level parity. -/
theorem C2_structural_invariants (pairs : List (Nat × Int)) (ops : List Op) :
    ((∀ k, (k ∈ (applyOps (fromPairs pairs) ops).priorities.map Prod.fst
        ↔ k ∈ (applyOps (fromPairs pairs) ops).heap)
      ∧ (k ∈ (applyOps (fromPairs pairs) ops).priorities.map Prod.fst
        ↔ k ∈ (applyOps (fromPairs pairs) ops).indexes.map Prod.fst))
     ∧ (applyOps (fromPairs pairs) ops).priorities.length
         = (applyOps (fromPairs pairs) ops).heap.length
     ∧ (applyOps (fromPairs pairs) ops).indexes.length
         = (applyOps (fromPairs pairs) ops).heap.length)
    ∧ (∀ k n, dlookup (applyOps (fromPairs pairs) ops).indexes k = some n
        ↔ (applyOps (fromPairs pairs) ops).heap[n]? = some k)
    ∧ (∀ j, 1 ≤ j → j < (applyOps (fromPairs pairs) ops).heap.length →
        rel (applyOps (fromPairs pairs) ops) ((j - 1) / 2) j)
    ∧ (∀ j, 3 ≤ j → j < (applyOps (fromPairs pairs) ops).heap.length →
        rel (applyOps (fromPairs pairs) ops) ((j - 3) / 4) j) := by
  have hW := applyOps_wf (fromPairs_wf pairs) ops
  refine ⟨⟨fun k => ⟨hW.2.2.1 k, (hW.2.2.1 k).trans (hW.2.2.2.1.mem_heap_iff k)⟩,
    hW.lengths.1, hW.lengths.2⟩, hW.2.2.2.1, ?_, ?_⟩
  · intro j h1 hj
    exact hW.2.2.2.2 ((j - 1) / 2) j (SAnc.parent j h1) hj
  · intro j h3 hj
    exact hW.2.2.2.2 ((j - 3) / 4) j (SAnc.gp h3) hj

/-- C3: for a `HeapDict` built from pairs with distinct keys and any
interleaving of `pop_min_item` / `pop_max_item` calls that pops every entry,
the min-popped priorities followed by the reverse of the max-popped
priorities are exactly the non-decreasing sort of all original
priorities. -/
theorem C3_interleaved_extraction (pairs : List (Nat × Int)) (flags : List Bool)
    (hnd : (pairs.map Prod.fst).Nodup)
    (hlen : flags.length = pairs.length) :
    (interleavePris flags (fromPairs pairs)).1
      ++ (interleavePris flags (fromPairs pairs)).2.reverse
      = List.insertionSort (fun a b => a ≤ b) (pairs.map Prod.snd) := by
  have hW := fromPairs_wf pairs
  have hpri : (fromPairs pairs).priorities = pairs :=
    fromPairs_priorities_of_nodup pairs hnd
  have hlen2 : flags.length = (fromPairs pairs).heap.length := by
    rw [← hW.lengths.1, hpri]
    exact hlen
  have h := interleave_sorted flags (fromPairs pairs) hW hlen2
  rw [hpri] at h
  exact h

/-- Witness for C3: three entries, popping min, max, min. -/
theorem C3_interleaved_extraction_witness :
    (interleavePris [true, false, true] (fromPairs [(0, 1), (1, 3), (2, 2)])).1
      ++ (interleavePris [true, false, true] (fromPairs [(0, 1), (1, 3), (2, 2)])).2.reverse
      = List.insertionSort (fun a b => a ≤ b)
          ([(0, 1), (1, 3), (2, 2)].map Prod.snd) :=
  C3_interleaved_extraction [(0, 1), (1, 3), (2, 2)] [true, false, true]
    (by decide) (by decide)

/-- C4: for a `HeapDict` built from `n` pairs with distinct keys, repeated
`pop_min_item` yields priorities in non-decreasing order, repeated
`pop_max_item` yields them in non-increasing order, and `n` pops of either
kind leave the structure empty. -/
theorem C4_monotone_extraction (pairs : List (Nat × Int))
    (hnd : (pairs.map Prod.fst).Nodup) :
    List.Sorted (fun a b => a ≤ b) (popMinPris pairs.length (fromPairs pairs)) ∧
    List.Sorted (fun a b => b ≤ a) (popMaxPris pairs.length (fromPairs pairs)) ∧
    (applyOps (fromPairs pairs)
      (List.replicate pairs.length Op.popMin)).heap.length = 0 ∧
    (applyOps (fromPairs pairs)
      (List.replicate pairs.length Op.popMax)).heap.length = 0 := by
  have hW := fromPairs_wf pairs
  have hpri : (fromPairs pairs).priorities = pairs :=
    fromPairs_priorities_of_nodup pairs hnd
  have hn : pairs.length = (fromPairs pairs).heap.length := by
    rw [← hW.lengths.1, hpri]
  refine ⟨?_, ?_, popMin_applyOps_empty _ _ hW hn, popMax_applyOps_empty _ _ hW hn⟩
  · rw [popMinPris_eq_sort _ _ hW hn]
    exact List.sorted_insertionSort _ _
  · rw [popMaxPris_eq_sort _ _ hW hn]
    rw [List.Sorted, List.pairwise_reverse]
    exact List.sorted_insertionSort _ _

/-- Witness for C4 at a concrete three-element queue. -/
theorem C4_monotone_extraction_witness :
    List.Sorted (fun a b => a ≤ b)
      (popMinPris [(0, 1), (1, 3), (2, 2)].length (fromPairs [(0, 1), (1, 3), (2, 2)])) ∧
    List.Sorted (fun a b => b ≤ a)
      (popMaxPris [(0, 1), (1, 3), (2, 2)].length (fromPairs [(0, 1), (1, 3), (2, 2)])) ∧
    (applyOps (fromPairs [(0, 1), (1, 3), (2, 2)])
      (List.replicate [(0, 1), (1, 3), (2, 2)].length Op.popMin)).heap.length = 0 ∧
    (applyOps (fromPairs [(0, 1), (1, 3), (2, 2)])
      (List.replicate [(0, 1), (1, 3), (2, 2)].length Op.popMax)).heap.length = 0 :=
  C4_monotone_extraction [(0, 1), (1, 3), (2, 2)] (by decide)

/-- C5: on every well-formed `HeapDict`, `__setitem__` on a key already
present leaves the iteration order (the key sequence of `_priorities`)
unchanged, and deleting a key and re-inserting it places it at the end of
the iteration order. -/
theorem C5_iteration_order (d : HeapDict) (key : Nat) (p q : Int)
    (hWf : Wf d) :
    (key ∈ d.priorities.map Prod.fst →
      (setitem d key p).priorities.map Prod.fst = d.priorities.map Prod.fst) ∧
    (∀ d1 : HeapDict, delitem d key = some d1 →
      (setitem d1 key q).priorities.map Prod.fst
        = (d.priorities.map Prod.fst).filter (fun k => k != key) ++ [key]) := by
  constructor
  · intro hmem
    have hidx : ∃ i, dlookup d.indexes key = some i := by
      rw [dlookup_isSome_iff_mem]
      exact (hWf.2.2.2.1.mem_heap_iff key).mp ((hWf.2.2.1 key).mp hmem)
    obtain ⟨i, hi⟩ := hidx
    rw [setitem_eq_existing p hi, push_down_priorities, push_up_priorities]
    exact dset_map_fst_of_mem _ _ _ hmem
  · intro d1 hdel
    have hW1 := delitem_wf hWf hdel
    have hpri1 := delitem_priorities hdel
    have hknot1 : key ∉ d1.priorities.map Prod.fst := by
      rw [hpri1, ddel_map_fst, List.mem_filter]
      rintro ⟨_, hk⟩
      simp at hk
    have hidx1 : dlookup d1.indexes key = none := by
      rw [dlookup_eq_none_iff]
      intro hk
      exact hknot1 ((hW1.2.2.1 key).mpr ((hW1.2.2.2.1.mem_heap_iff key).mpr hk))
    rw [setitem_eq_new q hidx1, push_up_priorities]
    show (dset d1.priorities key q).map Prod.fst = _
    rw [dset_map_fst_of_not_mem _ _ _ hknot1, hpri1, ddel_map_fst]

/-- Witness for C5 at a concrete three-element queue with key 1. -/
theorem C5_iteration_order_witness :
    (1 ∈ (fromPairs [(0, 1), (1, 3), (2, 2)]).priorities.map Prod.fst →
      (setitem (fromPairs [(0, 1), (1, 3), (2, 2)]) 1 7).priorities.map Prod.fst
        = (fromPairs [(0, 1), (1, 3), (2, 2)]).priorities.map Prod.fst) ∧
    (∀ d1 : HeapDict, delitem (fromPairs [(0, 1), (1, 3), (2, 2)]) 1 = some d1 →
      (setitem d1 1 9).priorities.map Prod.fst
        = ((fromPairs [(0, 1), (1, 3), (2, 2)]).priorities.map Prod.fst).filter
            (fun k => k != 1) ++ [1]) :=
  C5_iteration_order (fromPairs [(0, 1), (1, 3), (2, 2)]) 1 7 9
    (fromPairs_wf [(0, 1), (1, 3), (2, 2)])

end HeapDictModel
